import Mathlib

/-!
Verification of the `dedup_me` execution-coalescing ("singleflight") engine.

The repository provides two instantiations of one protocol:
* `src/dedup_me/_threading.py` (`ThreadingDedup`): parallel threads, per-store
  locks, blocking `Event` waits;
* `src/dedup_me/_async.py` (`AsyncDedup`): single-threaded cooperative
  scheduling with suspension only at `await` points.

Both are embedded here as small-step state machines over the three shared
stores (`_running`, `_results`, `_counts`).  Each caller of `run` is one
logical thread whose program counter is an explicit status; one machine step
executes one atomic section of the Python code (for the threading variant, one
lock-protected critical section or one unguarded statement; for the async
variant, one segment between `await` points).  A schedule is a list of thread
indices; executing a schedule folds the step function, so every interleaving
of the real code corresponds to a schedule and vice versa.

Modelling conventions:
* `uuid.uuid4().int` only needs global uniqueness (spec section 9), so internal
  keys are drawn from a `nextId` counter in the state.
* A Python `threading.Event` / `asyncio.Event` is identified with the internal
  key of the execution that owns it.  `eventSet` (resp. `clearSet`) is the set
  of internal keys whose completion (resp. clear/drain) event has been set.
  Internal keys are never reused, so this identification is faithful.
* Python dict subscription `d[k]` raises `KeyError` on a missing key.  In the
  protocol every such access is proved to hit an existing key (see the
  invariant `Inv` below), so the embedding reads it as `(alookup d k).getD 0`;
  `d.get(k)` is embedded as the `Option`-valued `alookup`.
* The state additionally carries two history (ghost) fields that record
  observable events and are never read by the step functions: `installs`
  (internal keys of executions created, i.e. producer invocations) and
  `produced` (each execution's producer outcome).
* Producer results are `Int`s and raised failures carry a `String` message;
  a producer's behaviour is its `Outcome`, fixed when the caller is created.
-/

/-- Association-list lookup; embeds Python `dict` reading (`d.get(k)`). -/
def alookup {α β : Type} [DecidableEq α] : List (α × β) → α → Option β
| [], _ => none
| (a, b) :: l, k => if a = k then some b else alookup l k

/-- Association-list removal; embeds Python `del d[k]` / `d.pop(k)`. -/
def aerase {α β : Type} [DecidableEq α] : List (α × β) → α → List (α × β)
| [], _ => []
| (a, b) :: l, k => if a = k then aerase l k else (a, b) :: aerase l k

/-- Association-list update; embeds Python `d[k] = v`. -/
def aupd {α β : Type} [DecidableEq α] (l : List (α × β)) (k : α) (v : β) :
    List (α × β) :=
  (k, v) :: aerase l k

@[simp] theorem alookup_aerase_self {α β : Type} [DecidableEq α]
    (l : List (α × β)) (k : α) : alookup (aerase l k) k = none := by
  induction l with
  | nil => rfl
  | cons p l ih =>
    obtain ⟨a, b⟩ := p
    by_cases hp : a = k
    · simpa [aerase, hp] using ih
    · simpa [aerase, alookup, hp] using ih

theorem alookup_aerase_ne {α β : Type} [DecidableEq α] (l : List (α × β))
    (k k' : α) (h : k' ≠ k) :
    alookup (aerase l k) k' = alookup l k' := by
  induction l with
  | nil => rfl
  | cons p l ih =>
    obtain ⟨a, b⟩ := p
    by_cases hp : a = k
    · subst hp
      have : ¬ a = k' := fun e => h e.symm
      simp [aerase, alookup, this, ih]
    · by_cases he : a = k'
      · simp [aerase, alookup, hp, he, h]
      · simp [aerase, alookup, hp, he, ih]

@[simp] theorem alookup_aupd_self {α β : Type} [DecidableEq α]
    (l : List (α × β)) (k : α) (v : β) : alookup (aupd l k v) k = some v := by
  simp [aupd, alookup]

theorem alookup_aupd_ne {α β : Type} [DecidableEq α] (l : List (α × β))
    (k k' : α) (v : β) (h : k' ≠ k) :
    alookup (aupd l k v) k' = alookup l k' := by
  simp only [aupd, alookup]
  rw [if_neg (fun e => h e.symm)]
  exact alookup_aerase_ne l k k' h

/-- Producer behaviour: either return a value or raise a failure. -/
inductive Outcome where
| ok (v : Int)
| err (e : String)
deriving DecidableEq, Repr

/-- The three shared stores of one deduplicator instance, plus the fresh-id
source and two history fields.  Mirrors `ThreadingDedup.__init__` /
`AsyncDedup.__init__`:
`running` is `_running` (public key to internal key; the completion event of
an execution is identified by its internal key), `results` is `_results`
(internal key to result; the clear event again identified by the internal
key), `counts` is `_counts` (internal key to consumer count).
`eventSet` / `clearSet` hold the internal keys whose completion / clear event
has been set.  `installs` and `produced` are write-only history fields. -/
structure DedupState where
  running : List (String × Nat)
  results : List (Nat × Int)
  counts : List (Nat × Int)
  eventSet : List Nat
  clearSet : List Nat
  nextId : Nat
  installs : List Nat
  produced : List (Nat × Outcome)
deriving DecidableEq, Repr

/-- The empty state of a freshly constructed deduplicator. -/
def DedupState.init : DedupState :=
  ⟨[], [], [], [], [], 0, [], []⟩

namespace ThreadingDedup

/-- Program counter of one caller of `ThreadingDedup.run`.  Each constructor
names the atomic section of `_threading.py` the thread is about to execute:
* `start`: before the `_running_lock` section of `run` (lines 111-124);
* `producing`: owner running `function()` (line 127, outside all locks);
* `deregStage`: before the `_running_lock` section of `_handle_result`
  (lines 44-48);
* `zeroCheckStage`: before the `_counts_lock` section (lines 51-54);
* `publishStage`: before the `_results_lock` section storing the result
  (lines 58-60);
* `signalStage`: before `event.set()` (line 63);
* `drainStage`: blocked in `clear_event.wait()` (line 66);
* `retireStage`: before the `_results_lock` section deleting the result
  (lines 67-68);
* `removeCountStage`: before the `_counts_lock` section deleting the count
  (lines 69-70);
* `waiting`: consumer blocked in `event.wait()` (line 82);
* `reading`: consumer before the `_results_lock` read (lines 84-85);
* `leaving`: consumer before the `_counts_lock` decrement (lines 87-90);
* `finished`: `run` returned (`Outcome.ok`) or raised (`Outcome.err`); the
  flag records whether this caller took the owner path and the `Nat` records
  which execution served it. -/
inductive St where
| start (key : String) (forceNew : Bool) (out : Outcome)
| producing (key : String) (id : Nat) (out : Outcome)
| deregStage (key : String) (id : Nat) (v : Int)
| zeroCheckStage (id : Nat) (v : Int)
| publishStage (id : Nat) (v : Int)
| signalStage (id : Nat) (v : Int)
| drainStage (id : Nat) (v : Int)
| retireStage (id : Nat) (v : Int)
| removeCountStage (id : Nat) (v : Int)
| waiting (id : Nat)
| reading (id : Nat)
| leaving (id : Nat) (v : Int)
| finished (owner : Bool) (id : Nat) (res : Outcome)
deriving DecidableEq, Repr

/-- One deduplicator instance together with its callers. -/
structure Config where
  state : DedupState
  threads : List St
deriving DecidableEq, Repr

/-- One atomic step of thread `n` (no-op if `n` is out of range, the thread is
finished, or it is blocked on an unset event). -/
def step (c : Config) (n : Nat) : Config :=
  match c.threads[n]? with
  | none => c
  | some st =>
    let s := c.state
    match st with
    | .start k fn out =>
      -- run, lines 111-124: one `_running_lock` section (the nested
      -- `_counts_lock` section is inside it).
      if fn || (alookup s.running k).isNone then
        -- owner branch: fresh internal key, fresh event, install, count 0
        { state := { s with
            running := aupd s.running k s.nextId
            counts := aupd s.counts s.nextId 0
            nextId := s.nextId + 1
            installs := s.nextId :: s.installs }
          threads := c.threads.set n (.producing k s.nextId out) }
      else
        -- consumer branch: join the found execution
        match alookup s.running k with
        | some i =>
          { state := { s with
              counts := aupd s.counts i ((alookup s.counts i).getD 0 + 1) }
            threads := c.threads.set n (.waiting i) }
        | none => c
    | .producing k i out =>
      -- line 127: `function()` terminates; on a raise, `_handle_result` is
      -- never entered and the exception propagates out of `run`.
      match out with
      | .ok v =>
        { state := { s with produced := aupd s.produced i (.ok v) }
          threads := c.threads.set n (.deregStage k i v) }
      | .err e =>
        { state := { s with produced := aupd s.produced i (.err e) }
          threads := c.threads.set n (.finished true i (.err e)) }
    | .deregStage k i v =>
      -- _handle_result, lines 44-48: pop the registry entry only if it still
      -- holds this execution's internal key.
      match alookup s.running k with
      | some j =>
        if j = i then
          { state := { s with running := aerase s.running k }
            threads := c.threads.set n (.zeroCheckStage i v) }
        else
          { c with threads := c.threads.set n (.zeroCheckStage i v) }
      | none => { c with threads := c.threads.set n (.zeroCheckStage i v) }
    | .zeroCheckStage i v =>
      -- lines 51-54: `has_consumers = bool(self._counts[internal_key])`
      let cv := (alookup s.counts i).getD 0
      if cv = 0 then
        { state := { s with counts := aerase s.counts i }
          threads := c.threads.set n (.finished true i (.ok v)) }
      else
        { c with threads := c.threads.set n (.publishStage i v) }
    | .publishStage i v =>
      -- lines 58-60: fresh clear event, store the result
      { state := { s with results := aupd s.results i v }
        threads := c.threads.set n (.signalStage i v) }
    | .signalStage i v =>
      -- line 63: `event.set()`
      { state := { s with eventSet := i :: s.eventSet }
        threads := c.threads.set n (.drainStage i v) }
    | .drainStage i v =>
      -- line 66: `clear_event.wait()`
      if i ∈ s.clearSet then
        { c with threads := c.threads.set n (.retireStage i v) }
      else c
    | .retireStage i v =>
      -- lines 67-68: `del self._results[internal_key]`
      { state := { s with results := aerase s.results i }
        threads := c.threads.set n (.removeCountStage i v) }
    | .removeCountStage i v =>
      -- lines 69-70: `del self._counts[internal_key]`
      { state := { s with counts := aerase s.counts i }
        threads := c.threads.set n (.finished true i (.ok v)) }
    | .waiting i =>
      -- _wait_for_result, line 82: `event.wait()`
      if i ∈ s.eventSet then
        { c with threads := c.threads.set n (.reading i) }
      else c
    | .reading i =>
      -- lines 84-85: read the published result
      { c with
        threads := c.threads.set n (.leaving i ((alookup s.results i).getD 0)) }
    | .leaving i v =>
      -- lines 87-90: decrement the count, set the clear event when it hits 0
      let cv := (alookup s.counts i).getD 0
      { state := { s with
          counts := aupd s.counts i (cv - 1)
          clearSet := if cv - 1 ≤ 0 then i :: s.clearSet else s.clearSet }
        threads := c.threads.set n (.finished false i (.ok v)) }
    | .finished _ _ _ => c

/-- Run a schedule (list of thread indices) from a configuration. -/
def exec (sched : List Nat) (c : Config) : Config :=
  sched.foldl step c

/-- Initial configuration: a fresh `ThreadingDedup` and one caller
`run(key, function, force_new)` per triple, where the `Outcome` is what the
caller's `function` will do when invoked. -/
def init (callers : List (String × Bool × Outcome)) : Config :=
  ⟨DedupState.init, callers.map (fun a => .start a.1 a.2.1 a.2.2)⟩

end ThreadingDedup

namespace AsyncDedup

/-- Program counter of one caller of `AsyncDedup.run`.  Constructors mark the
suspension points of `_async.py`; everything between two `await`s is one
atomic segment:
* `start`: before `run` begins (lines 98-107);
* `producing`: owner awaiting `coro` (line 38);
* `draining`: owner suspended in `await clear_event.wait()` (line 56);
* `waiting`: consumer suspended in `await event.wait()` (line 72);
* `finished`: `run` returned or raised, as in the threading variant. -/
inductive St where
| start (key : String) (forceNew : Bool) (out : Outcome)
| producing (key : String) (id : Nat) (out : Outcome)
| draining (id : Nat) (v : Int)
| waiting (id : Nat)
| finished (owner : Bool) (id : Nat) (res : Outcome)
deriving DecidableEq, Repr

/-- One deduplicator instance together with its callers. -/
structure Config where
  state : DedupState
  threads : List St
deriving DecidableEq, Repr

/-- One atomic segment of task `n` (no-op if `n` is out of range, the task is
finished, or it is suspended on an unset event). -/
def step (c : Config) (n : Nat) : Config :=
  match c.threads[n]? with
  | none => c
  | some st =>
    let s := c.state
    match st with
    | .start k fn out =>
      -- run, lines 98-104: the whole owner set-up runs without suspension,
      -- then the task suspends inside `await coro` (line 38).
      if fn || (alookup s.running k).isNone then
        { state := { s with
            running := aupd s.running k s.nextId
            counts := aupd s.counts s.nextId 0
            nextId := s.nextId + 1
            installs := s.nextId :: s.installs }
          threads := c.threads.set n (.producing k s.nextId out) }
      else
        -- lines 106-107 and 70-72: look up, join (line 70), and reach
        -- `await event.wait()` without suspension in between.
        match alookup s.running k with
        | some i =>
          { state := { s with
              counts := aupd s.counts i ((alookup s.counts i).getD 0 + 1) }
            threads := c.threads.set n (.waiting i) }
        | none => c
    | .producing k i out =>
      match out with
      | .err e =>
        -- line 38 raises; the exception unwinds synchronously with no store
        -- mutated.
        { state := { s with produced := aupd s.produced i (.err e) }
          threads := c.threads.set n (.finished true i (.err e)) }
      | .ok v =>
        -- lines 41-56: dereg-if-current, zero-check, and (if there are
        -- consumers) publish + `event.set()` all run in one segment, up to
        -- `await clear_event.wait()`.
        let s1 : DedupState := { s with produced := aupd s.produced i (.ok v) }
        let s2 : DedupState :=
          match alookup s1.running k with
          | some j =>
            if j = i then { s1 with running := aerase s1.running k } else s1
          | none => s1
        let cv := (alookup s2.counts i).getD 0
        if cv = 0 then
          { state := { s2 with counts := aerase s2.counts i }
            threads := c.threads.set n (.finished true i (.ok v)) }
        else
          { state := { s2 with
              results := aupd s2.results i v
              eventSet := i :: s2.eventSet }
            threads := c.threads.set n (.draining i v) }
    | .draining i v =>
      -- lines 56-60: once the clear event is set, delete result and count and
      -- return.
      if i ∈ s.clearSet then
        { state := { s with
            results := aerase s.results i
            counts := aerase s.counts i }
          threads := c.threads.set n (.finished true i (.ok v)) }
      else c
    | .waiting i =>
      -- lines 72-79: once the event is set, read the result, decrement the
      -- count, set the clear event at 0, and return — one segment.
      if i ∈ s.eventSet then
        let v := (alookup s.results i).getD 0
        let cv := (alookup s.counts i).getD 0
        { state := { s with
            counts := aupd s.counts i (cv - 1)
            clearSet := if cv - 1 ≤ 0 then i :: s.clearSet else s.clearSet }
          threads := c.threads.set n (.finished false i (.ok v)) }
      else c
    | .finished _ _ _ => c

/-- Run a schedule (list of task indices) from a configuration. -/
def exec (sched : List Nat) (c : Config) : Config :=
  sched.foldl step c

/-- Initial configuration: a fresh `AsyncDedup` and one caller
`run(key, getter, force_new)` per triple. -/
def init (callers : List (String × Bool × Outcome)) : Config :=
  ⟨DedupState.init, callers.map (fun a => .start a.1 a.2.1 a.2.2)⟩

end AsyncDedup

/-! ## The decorator layer (`threading_dedup` / `async_dedup`)

The wrapping layer is dynamically typed, so its arguments are embedded as an
inductive of the Python values the validation code distinguishes: strings,
callables, instances of the two deduplicator classes, and anything else. -/

/-- A Python value as far as the decorator validation inspects it.  `str`
carries the string because the generated wrapper later tests its truthiness. -/
inductive PyV where
| str (s : String)
| callableV
| threadingDedupInst
| asyncDedupInst
| other
deriving DecidableEq, Repr

/-- Python `isinstance(v, str)`. -/
def PyV.isStr : PyV → Bool
| .str _ => true
| _ => false

/-- Python `callable(v)` for the values modelled here (strings and the
deduplicator instances define no `__call__`). -/
def PyV.isCallable : PyV → Bool
| .callableV => true
| _ => false

/-- Keyword arguments of `threading_dedup` / `async_dedup`; `none` is the
Python default `None`. -/
structure DecoratorArgs where
  static_key : Option PyV
  key : Option PyV
  force_new : Option PyV
  dedup : Option PyV
deriving DecidableEq, Repr

/-- Validation performed by `threading_dedup` (`_threading.py` lines 147-159)
before the wrapper is built: the checks run in source order and the first
failing one raises `ValueError` with its message.  `ok` means decoration
proceeds (when `dedup` is `None` a fresh empty `ThreadingDedup` is created
only after the first four checks). -/
def threading_dedup_check (a : DecoratorArgs) : Except String Unit :=
  if (a.static_key.isNone = a.key.isNone) then
    .error "Exactly one of static_key or key must be set"
  else if (match a.static_key with | some v => !v.isStr | none => false) then
    .error "static_key must be a string, use key for generating keys based on the arguments"
  else if (match a.key with | some v => !v.isCallable | none => false) then
    .error "key must be a callable"
  else if (match a.force_new with | some v => !v.isCallable | none => false) then
    .error "force_new must be a callable"
  else
    match a.dedup with
    | none => .ok ()
    | some v =>
      if v = .threadingDedupInst then .ok ()
      else .error "dedup must be an instance of ThreadingDedup"

/-- Validation performed by `async_dedup` (`_async.py` lines 125-137); it is
identical except that `dedup` must be an `AsyncDedup` instance (the message
in the source says `AsyncioDedup`). -/
def async_dedup_check (a : DecoratorArgs) : Except String Unit :=
  if (a.static_key.isNone = a.key.isNone) then
    .error "Exactly one of static_key or key must be set"
  else if (match a.static_key with | some v => !v.isStr | none => false) then
    .error "static_key must be a string, use key for generating keys based on the arguments"
  else if (match a.key with | some v => !v.isCallable | none => false) then
    .error "key must be a callable"
  else if (match a.force_new with | some v => !v.isCallable | none => false) then
    .error "force_new must be a callable"
  else
    match a.dedup with
    | none => .ok ()
    | some v =>
      if v = .asyncDedupInst then .ok ()
      else .error "dedup must be an instance of AsyncioDedup"

/-- The invalid-configuration predicate exactly as claim C9 words it: not
exactly one of `static_key`/`key` supplied, or `static_key` not a string, or
`key` or `force_new` supplied but not callable, or `dedup` supplied but not an
instance of the matching class (`expected` is that class's instance). -/
def invalidConfig (expected : PyV) (a : DecoratorArgs) : Bool :=
  (a.static_key.isNone = a.key.isNone)
  || (match a.static_key with | some v => !v.isStr | none => false)
  || (match a.key with | some v => !v.isCallable | none => false)
  || (match a.force_new with | some v => !v.isCallable | none => false)
  || (match a.dedup with | some v => v ≠ expected | none => false)

/-- Branch selection baked into the generated wrapper source
(`_threading.py` line 165 / `_async.py` line 143):
`{'static_key' if static_key else 'key(*args, **kwargs)'}`.  The f-string
tests the truthiness of `static_key` at decoration time, so `None` and the
empty string both select the `key(...)` branch. -/
def usesStaticKey (static_key : Option String) : Bool :=
  match static_key with
  | some s => !s.isEmpty
  | none => false

/-- Key computation of the generated `inner` function for one call: either the
static key, or the result of calling `key(*args, **kwargs)` — which raises
`TypeError` when `key` is `None`, since `None` is not callable.  Arguments are
abstracted as the list of values the key function would receive. -/
def generatedKeyExpr (static_key : Option String)
    (key : Option (List Int → String)) (args : List Int) :
    Except String String :=
  if usesStaticKey static_key then
    .ok (static_key.getD "")
  else
    match key with
    | some f => .ok (f args)
    | none => .error "TypeError: NoneType object is not callable"

/-! ## Generic list lemmas for thread updates -/

theorem getElem?_set_self {α : Type} (l : List α) (n : Nat) (a : α)
    (h : n < l.length) : (l.set n a)[n]? = some a := by
  simp [List.getElem?_set, h]

theorem getElem?_set_other {α : Type} (l : List α) (n m : Nat) (a : α)
    (h : m ≠ n) : (l.set n a)[m]? = l[m]? := by
  have : ¬ n = m := fun e => h e.symm
  simp [List.getElem?_set, this]

theorem countP_set {α : Type} (p : α → Bool) (l : List α) (n : Nat) (a : α)
    (h : n < l.length) :
    (l.set n a).countP p + (if p l[n] then 1 else 0)
      = l.countP p + (if p a then 1 else 0) := by
  induction l generalizing n with
  | nil => simp at h
  | cons x l ih =>
    cases n with
    | zero => simp [List.countP_cons]; omega
    | succ n =>
      have hn : n < l.length := by simpa using h
      have := ih n hn
      simp only [List.set_cons_succ, List.countP_cons, List.getElem_cons_succ]
      omega

theorem countP_pos_of_getElem? {α : Type} (p : α → Bool) (l : List α)
    (n : Nat) (a : α) (h : l[n]? = some a) (hp : p a = true) :
    0 < l.countP p := by
  rcases List.getElem?_eq_some.mp h with ⟨hn, he⟩
  have : a ∈ l := he ▸ List.getElem_mem hn
  exact List.countP_pos_iff.mpr ⟨a, this, hp⟩

namespace ThreadingDedup

/-! ## Classifiers over thread statuses -/

/-- The internal key a status refers to, if any. -/
def idOf : St → Option Nat
| .start _ _ _ => none
| .producing _ i _ => some i
| .deregStage _ i _ => some i
| .zeroCheckStage i _ => some i
| .publishStage i _ => some i
| .signalStage i _ => some i
| .drainStage i _ => some i
| .retireStage i _ => some i
| .removeCountStage i _ => some i
| .waiting i => some i
| .reading i => some i
| .leaving i _ => some i
| .finished _ i _ => some i

/-- The internal key of an execution whose owner is still inside `run`
(between the install and the final return). -/
def ownerStage : St → Option Nat
| .producing _ i _ => some i
| .deregStage _ i _ => some i
| .zeroCheckStage i _ => some i
| .publishStage i _ => some i
| .signalStage i _ => some i
| .drainStage i _ => some i
| .retireStage i _ => some i
| .removeCountStage i _ => some i
| _ => none

/-- The internal key of an execution this thread owns or owned (owner path,
including after it finished).  At most one thread ever carries a given key. -/
def ownerTag : St → Option Nat
| .producing _ i _ => some i
| .deregStage _ i _ => some i
| .zeroCheckStage i _ => some i
| .publishStage i _ => some i
| .signalStage i _ => some i
| .drainStage i _ => some i
| .retireStage i _ => some i
| .removeCountStage i _ => some i
| .finished true i _ => some i
| _ => none

/-- Internal key and produced value carried by a status that can only be
reached after the producer returned that value. -/
def phaseVal : St → Option (Nat × Int)
| .deregStage _ i v => some (i, v)
| .zeroCheckStage i v => some (i, v)
| .publishStage i v => some (i, v)
| .signalStage i v => some (i, v)
| .drainStage i v => some (i, v)
| .retireStage i v => some (i, v)
| .removeCountStage i v => some (i, v)
| .leaving i v => some (i, v)
| _ => none

/-- Whether this thread has joined execution `i` as a consumer and not yet
returned (it is counted in `_counts[i]`). -/
def isJoinedOn (t : St) (i : Nat) : Bool :=
  match t with
  | .waiting j => j = i
  | .reading j => j = i
  | .leaving j _ => j = i
  | _ => false

/-- Number of joined-but-not-yet-returned consumers of execution `i`. -/
def joinedCount (ts : List St) (i : Nat) : Nat :=
  ts.countP (fun t => isJoinedOn t i)

theorem joinedCount_pos (ts : List St) (n : Nat) (st : St) (i : Nat)
    (h : ts[n]? = some st) (hj : isJoinedOn st i = true) :
    0 < joinedCount ts i :=
  countP_pos_of_getElem? _ ts n st h hj

theorem joinedCount_set (ts : List St) (n : Nat) (a : St) (i : Nat)
    (h : n < ts.length) :
    joinedCount (ts.set n a) i + (if isJoinedOn ts[n] i then 1 else 0)
      = joinedCount ts i + (if isJoinedOn a i then 1 else 0) :=
  countP_set _ ts n a h

theorem joinedCount_set_same (ts : List St) (n : Nat) (a : St) (i : Nat)
    (h : n < ts.length) (he : isJoinedOn ts[n] i = isJoinedOn a i) :
    joinedCount (ts.set n a) i = joinedCount ts i := by
  have := joinedCount_set ts n a i h
  rw [he] at this
  omega

end ThreadingDedup

namespace ThreadingDedup

/-! ## The global protocol invariant

`Inv` collects every fact about a reachable configuration that the claims
need.  It is established for the initial configuration and preserved by every
step; the components are named per store.  `threads[n]?` is used throughout so
that statements carry no bound proofs. -/

structure Inv (c : Config) : Prop where
  fresh_id : ∀ (n : Nat) (st : St) (i : Nat), c.threads[n]? = some st →
    idOf st = some i → i < c.state.nextId
  fresh_running : ∀ (k : String) (i : Nat), alookup c.state.running k = some i →
    i < c.state.nextId
  fresh_counts : ∀ (i : Nat), (alookup c.state.counts i).isSome →
    i < c.state.nextId
  fresh_results : ∀ (i : Nat), (alookup c.state.results i).isSome →
    i < c.state.nextId
  fresh_event : ∀ (i : Nat), i ∈ c.state.eventSet → i < c.state.nextId
  fresh_clear : ∀ (i : Nat), i ∈ c.state.clearSet → i < c.state.nextId
  fresh_installs : ∀ (i : Nat), i ∈ c.state.installs → i < c.state.nextId
  fresh_produced : ∀ (i : Nat), (alookup c.state.produced i).isSome →
    i < c.state.nextId
  installs_nodup : c.state.installs.Nodup
  uniq : ∀ (n m : Nat) (st st' : St) (i : Nat), c.threads[n]? = some st →
    c.threads[m]? = some st' →
    ownerTag st = some i → ownerTag st' = some i → n = m
  prod_none : ∀ (n : Nat) (k : String) (i : Nat) (out : Outcome),
    c.threads[n]? = some (.producing k i out) →
    alookup c.state.produced i = none
  prod_phase : ∀ (n : Nat) (st : St) (i : Nat) (v : Int),
    c.threads[n]? = some st → phaseVal st = some (i, v) →
    alookup c.state.produced i = some (.ok v)
  prod_finished : ∀ (n : Nat) (ow : Bool) (i : Nat) (r : Outcome),
    c.threads[n]? = some (.finished ow i r) →
    alookup c.state.produced i = some r
  prod_results : ∀ (i : Nat) (v : Int), alookup c.state.results i = some v →
    alookup c.state.produced i = some (.ok v)
  counts_some : ∀ (i : Nat), (alookup c.state.counts i).isSome ↔
    ((∃ (n : Nat) (st : St), c.threads[n]? = some st ∧ ownerStage st = some i) ∨
     (∃ (e : String), alookup c.state.produced i = some (.err e)))
  counts_val : ∀ (i : Nat) (cv : Int), alookup c.state.counts i = some cv →
    cv = (joinedCount c.threads i : Int)
  reg : ∀ (k : String) (i : Nat), alookup c.state.running k = some i →
    ((∃ (n : Nat) (out : Outcome), c.threads[n]? = some (.producing k i out)) ∨
     (∃ (n : Nat) (v : Int), c.threads[n]? = some (.deregStage k i v)) ∨
     (∃ (e : String), alookup c.state.produced i = some (.err e)))
  res_iff : ∀ (i : Nat) (v : Int), alookup c.state.results i = some v ↔
    (∃ (n : Nat), c.threads[n]? = some (.signalStage i v) ∨
          c.threads[n]? = some (.drainStage i v) ∨
          c.threads[n]? = some (.retireStage i v))
  evt : ∀ (i : Nat), i ∈ c.state.eventSet →
    ∃ (n : Nat) (v : Int), c.threads[n]? = some (.drainStage i v) ∨
           c.threads[n]? = some (.retireStage i v) ∨
           c.threads[n]? = some (.removeCountStage i v) ∨
           (c.threads[n]? = some (.finished true i (.ok v)) ∧
            i ∈ c.state.clearSet)
  clear_owner : ∀ (i : Nat), i ∈ c.state.clearSet →
    ∃ (n : Nat) (v : Int), c.threads[n]? = some (.drainStage i v) ∨
           c.threads[n]? = some (.retireStage i v) ∨
           c.threads[n]? = some (.removeCountStage i v) ∨
           c.threads[n]? = some (.finished true i (.ok v))
  kclear : ∀ (n : Nat) (i : Nat) (v : Int),
    (c.threads[n]? = some (.retireStage i v) ∨
     c.threads[n]? = some (.removeCountStage i v)) → i ∈ c.state.clearSet
  clear_joined : ∀ (i : Nat), i ∈ c.state.clearSet →
    joinedCount c.threads i = 0
  owner_done_joined : ∀ (n : Nat) (i : Nat) (v : Int),
    c.threads[n]? = some (.finished true i (.ok v)) →
    joinedCount c.threads i = 0
  consumer_done : ∀ (n : Nat) (i : Nat) (r : Outcome),
    c.threads[n]? = some (.finished false i r) →
    i ∈ c.state.eventSet ∧ ∃ (v : Int), r = .ok v
  joined_evt : ∀ (n : Nat) (i : Nat), (c.threads[n]? = some (.reading i) ∨
    (∃ (v : Int), c.threads[n]? = some (.leaving i v))) → i ∈ c.state.eventSet
  reading_res : ∀ (n : Nat) (i : Nat), c.threads[n]? = some (.reading i) →
    ∃ (v : Int), alookup c.state.results i = some v

end ThreadingDedup

theorem alookup_aupd {α β : Type} [DecidableEq α] (l : List (α × β))
    (k k' : α) (v : β) :
    alookup (aupd l k v) k' = if k' = k then some v else alookup l k' := by
  by_cases h : k' = k
  · subst h; simp
  · simp [h, alookup_aupd_ne l k k' v h]

theorem alookup_aerase {α β : Type} [DecidableEq α] (l : List (α × β))
    (k k' : α) :
    alookup (aerase l k) k' = if k' = k then none else alookup l k' := by
  by_cases h : k' = k
  · subst h; simp
  · simp [h, alookup_aerase_ne l k k' h]

theorem getElem?_set_cases {α : Type} {l : List α} {n m : Nat} {a b : α}
    (hn : n < l.length) (h : (l.set n a)[m]? = some b) :
    (m = n ∧ b = a) ∨ (m ≠ n ∧ l[m]? = some b) := by
  by_cases hmn : m = n
  · subst hmn
    rw [getElem?_set_self _ _ _ hn] at h
    exact Or.inl ⟨rfl, (Option.some.inj h).symm⟩
  · rw [getElem?_set_other _ _ _ _ hmn] at h
    exact Or.inr ⟨hmn, h⟩

namespace ThreadingDedup

theorem inv_init (callers : List (String × Bool × Outcome)) :
    Inv (init callers) := by
  have hth : ∀ (n : Nat) (st : St), (init callers).threads[n]? = some st →
      ∃ (k : String) (fn : Bool) (out : Outcome), st = .start k fn out := by
    intro n st h
    simp only [init, List.getElem?_map] at h
    rcases Option.map_eq_some'.mp h with ⟨a, _, ha⟩
    exact ⟨a.1, a.2.1, a.2.2, ha.symm⟩
  constructor
  case fresh_id =>
    intro n st i h hid
    rcases hth n st h with ⟨k, fn, out, rfl⟩
    simp [idOf] at hid
  case fresh_running =>
    intro k i h
    simp [init, DedupState.init, alookup] at h
  case fresh_counts =>
    intro i h
    simp [init, DedupState.init, alookup] at h
  case fresh_results =>
    intro i h
    simp [init, DedupState.init, alookup] at h
  case fresh_event =>
    intro i h
    simp [init, DedupState.init] at h
  case fresh_clear =>
    intro i h
    simp [init, DedupState.init] at h
  case fresh_installs =>
    intro i h
    simp [init, DedupState.init] at h
  case fresh_produced =>
    intro i h
    simp [init, DedupState.init, alookup] at h
  case installs_nodup =>
    simp [init, DedupState.init]
  case uniq =>
    intro n m st st' i h h' hid hid'
    rcases hth n st h with ⟨k, fn, out, rfl⟩
    simp [ownerTag] at hid
  case prod_none =>
    intro n k i out h
    simp [init, DedupState.init, alookup]
  case prod_phase =>
    intro n st i v h hp
    rcases hth n st h with ⟨k, fn, out, rfl⟩
    simp [phaseVal] at hp
  case prod_finished =>
    intro n ow i r h
    rcases hth n _ h with ⟨k, fn, out, he⟩
    cases he
  case prod_results =>
    intro i v h
    simp [init, DedupState.init, alookup] at h
  case counts_some =>
    intro i
    constructor
    · intro h
      simp [init, DedupState.init, alookup] at h
    · rintro (⟨n, st, h, ho⟩ | ⟨e, h⟩)
      · rcases hth n st h with ⟨k, fn, out, rfl⟩
        simp [ownerStage] at ho
      · simp [init, DedupState.init, alookup] at h
  case counts_val =>
    intro i cv h
    simp [init, DedupState.init, alookup] at h
  case reg =>
    intro k i h
    simp [init, DedupState.init, alookup] at h
  case res_iff =>
    intro i v
    constructor
    · intro h
      simp [init, DedupState.init, alookup] at h
    · rintro ⟨n, h | h | h⟩ <;>
      · rcases hth n _ h with ⟨k, fn, out, he⟩
        cases he
  case evt =>
    intro i h
    simp [init, DedupState.init] at h
  case clear_owner =>
    intro i h
    simp [init, DedupState.init] at h
  case kclear =>
    intro n i v h
    rcases h with h | h <;>
    · rcases hth n _ h with ⟨k, fn, out, he⟩
      cases he
  case clear_joined =>
    intro i h
    simp [init, DedupState.init] at h
  case owner_done_joined =>
    intro n i v h
    rcases hth n _ h with ⟨k, fn, out, he⟩
    cases he
  case consumer_done =>
    intro n i r h
    rcases hth n _ h with ⟨k, fn, out, he⟩
    cases he
  case joined_evt =>
    intro n i h
    rcases h with h | ⟨v, h⟩ <;>
    · rcases hth n _ h with ⟨k, fn, out, he⟩
      cases he
  case reading_res =>
    intro n i h
    rcases hth n _ h with ⟨k, fn, out, he⟩
    cases he

end ThreadingDedup

namespace ThreadingDedup

theorem idOf_of_ownerTag {st : St} {i : Nat} (h : ownerTag st = some i) :
    idOf st = some i := by
  cases st <;> simp_all [ownerTag, idOf]
  case finished ow j r => cases ow <;> simp_all

theorem idOf_of_ownerStage {st : St} {i : Nat} (h : ownerStage st = some i) :
    idOf st = some i := by
  cases st <;> simp_all [ownerStage, idOf]

theorem ownerTag_of_ownerStage {st : St} {i : Nat} (h : ownerStage st = some i) :
    ownerTag st = some i := by
  cases st <;> simp_all [ownerStage, ownerTag]

theorem idOf_of_isJoinedOn {st : St} {i : Nat} (h : isJoinedOn st i = true) :
    idOf st = some i := by
  cases st <;> simp_all [isJoinedOn, idOf]

theorem idOf_of_phaseVal {st : St} {i : Nat} {v : Int}
    (h : phaseVal st = some (i, v)) : idOf st = some i := by
  cases st <;> simp_all [phaseVal, idOf]

theorem joinedCount_eq_zero (ts : List St) (i : Nat)
    (h : ∀ (m : Nat) (st : St), ts[m]? = some st → isJoinedOn st i = false) :
    joinedCount ts i = 0 := by
  refine List.countP_eq_zero.mpr ?_
  intro a ha hp
  rcases List.mem_iff_getElem?.mp ha with ⟨m, hm⟩
  rw [h m a hm] at hp
  cases hp

/-- A thread that mentions an internal key at or above `nextId` cannot exist. -/
theorem no_thread_at_fresh (c : Config) (hInv : Inv c) (m : Nat) (st : St)
    (i : Nat) (h : c.threads[m]? = some st) (hid : idOf st = some i)
    (hi : c.state.nextId ≤ i) : False := by
  have := hInv.fresh_id m st i h hid
  omega

theorem alookup_none_at_fresh {β : Type} (l : List (Nat × β)) (N : Nat)
    (hf : ∀ (i : Nat), (alookup l i).isSome → i < N) :
    alookup l N = none := by
  cases h : alookup l N with
  | none => rfl
  | some b =>
    have := hf N (by simp [h])
    omega

end ThreadingDedup

namespace ThreadingDedup

theorem inv_start_owner (s : DedupState) (ts : List St) (n : Nat)
    (k : String) (fn : Bool) (out : Outcome)
    (hInv : Inv ⟨s, ts⟩) (hst : ts[n]? = some (.start k fn out)) :
    Inv ⟨{ s with
        running := aupd s.running k s.nextId
        counts := aupd s.counts s.nextId 0
        nextId := s.nextId + 1
        installs := s.nextId :: s.installs },
      ts.set n (.producing k s.nextId out)⟩ := by
  rcases List.getElem?_eq_some.mp hst with ⟨hn, -⟩
  have hfresh : ∀ (m : Nat) (st : St) (i : Nat), ts[m]? = some st →
      idOf st = some i → i < s.nextId := hInv.fresh_id
  constructor
  case fresh_id =>
    simp only []
    intro m st i hm hid
    rcases getElem?_set_cases hn hm with ⟨rfl, rfl⟩ | ⟨hmn, hm⟩
    · simp only [idOf] at hid
      cases hid
      omega
    · have := hfresh m st i hm hid
      omega
  case fresh_running =>
    simp only []
    intro k' i h
    rw [alookup_aupd] at h
    by_cases hk : k' = k
    · rw [if_pos hk] at h
      cases h
      omega
    · rw [if_neg hk] at h
      have hlt : i < s.nextId := hInv.fresh_running k' i h
      omega
  case fresh_counts =>
    simp only []
    intro i h
    rw [alookup_aupd] at h
    by_cases hi : i = s.nextId
    · omega
    · rw [if_neg hi] at h
      have hlt : i < s.nextId := hInv.fresh_counts i h
      omega
  case fresh_results =>
    simp only []
    intro i h
    have hlt : i < s.nextId := hInv.fresh_results i h
    omega
  case fresh_event =>
    simp only []
    intro i h
    have hlt : i < s.nextId := hInv.fresh_event i h
    omega
  case fresh_clear =>
    simp only []
    intro i h
    have hlt : i < s.nextId := hInv.fresh_clear i h
    omega
  case fresh_installs =>
    simp only []
    intro i h
    rcases List.mem_cons.mp h with rfl | h
    · omega
    · have hlt : i < s.nextId := hInv.fresh_installs i h
      omega
  case fresh_produced =>
    simp only []
    intro i h
    have hlt : i < s.nextId := hInv.fresh_produced i h
    omega
  case installs_nodup =>
    simp only []
    refine List.nodup_cons.mpr ⟨?_, hInv.installs_nodup⟩
    intro hmem
    have hlt : s.nextId < s.nextId := hInv.fresh_installs _ hmem
    omega
  case uniq =>
    simp only []
    intro m m' st st' i hm hm' htag htag'
    rcases getElem?_set_cases hn hm with ⟨he1, he2⟩ | ⟨hmn, hm2⟩
    · rcases getElem?_set_cases hn hm' with ⟨he1', he2'⟩ | ⟨hmn', hm2'⟩
      · rw [he1, he1']
      · subst he2
        simp only [ownerTag] at htag
        cases htag
        exact absurd (hfresh m' st' s.nextId hm2' (idOf_of_ownerTag htag'))
          (by omega)
    · rcases getElem?_set_cases hn hm' with ⟨he1', he2'⟩ | ⟨hmn', hm2'⟩
      · subst he2'
        simp only [ownerTag] at htag'
        cases htag'
        exact absurd (hfresh m st s.nextId hm2 (idOf_of_ownerTag htag))
          (by omega)
      · exact hInv.uniq m m' st st' i hm2 hm2' htag htag'
  case prod_none =>
    simp only []
    intro m k' i out' hm
    rcases getElem?_set_cases hn hm with ⟨rfl, he⟩ | ⟨hmn, hm⟩
    · cases he
      exact alookup_none_at_fresh s.produced s.nextId hInv.fresh_produced
    · exact hInv.prod_none m k' i out' hm
  case prod_phase =>
    simp only []
    intro m st i v hm hp
    rcases getElem?_set_cases hn hm with ⟨rfl, rfl⟩ | ⟨hmn, hm⟩
    · simp [phaseVal] at hp
    · exact hInv.prod_phase m st i v hm hp
  case prod_finished =>
    simp only []
    intro m ow i r hm
    rcases getElem?_set_cases hn hm with ⟨rfl, he⟩ | ⟨hmn, hm⟩
    · cases he
    · exact hInv.prod_finished m ow i r hm
  case prod_results =>
    simp only []
    intro i v h
    exact hInv.prod_results i v h
  case counts_some =>
    simp only []
    intro i
    rw [alookup_aupd]
    by_cases hi : i = s.nextId
    · subst hi
      rw [if_pos rfl]
      constructor
      · intro _
        refine Or.inl ⟨n, .producing k s.nextId out, ?_, rfl⟩
        exact getElem?_set_self ts n _ hn
      · intro _
        rfl
    · rw [if_neg hi]
      have hiff : (alookup s.counts i).isSome = true ↔
          ((∃ (m : Nat) (st : St), ts[m]? = some st ∧ ownerStage st = some i) ∨
           (∃ (e : String), alookup s.produced i = some (.err e))) :=
        hInv.counts_some i
      rw [hiff]
      constructor
      · rintro (⟨m, st, hm, ho⟩ | he)
        · refine Or.inl ⟨m, st, ?_, ho⟩
          have hmn : m ≠ n := by
            intro e
            subst e
            rw [hst] at hm
            cases hm
            simp [ownerStage] at ho
          rw [getElem?_set_other ts n m _ hmn]
          exact hm
        · exact Or.inr he
      · rintro (⟨m, st, hm, ho⟩ | he)
        · rcases getElem?_set_cases hn hm with ⟨rfl, rfl⟩ | ⟨hmn, hm⟩
          · simp only [ownerStage] at ho
            cases ho
            exact absurd rfl hi
          · exact Or.inl ⟨m, st, hm, ho⟩
        · exact Or.inr he
  case counts_val =>
    simp only []
    intro i cv h
    rw [alookup_aupd] at h
    by_cases hi : i = s.nextId
    · subst hi
      rw [if_pos rfl] at h
      cases h
      have hz : joinedCount (ts.set n (.producing k s.nextId out)) s.nextId
          = 0 := by
        refine joinedCount_eq_zero _ _ ?_
        intro m st hm
        rcases getElem?_set_cases hn hm with ⟨rfl, rfl⟩ | ⟨hmn, hm⟩
        · simp [isJoinedOn]
        · cases hj : isJoinedOn st s.nextId
          · rfl
          · exact absurd (hfresh m st s.nextId hm (idOf_of_isJoinedOn hj))
              (by omega)
      rw [hz]
      rfl
    · rw [if_neg hi] at h
      have hv : cv = (joinedCount ts i : Int) := hInv.counts_val i cv h
      rw [hv]
      congr 1
      exact (joinedCount_set_same ts n _ i hn (by
        rcases List.getElem?_eq_some.mp hst with ⟨hn2, he⟩
        rw [he]
        simp [isJoinedOn])).symm
  case reg =>
    simp only []
    intro k' i h
    rw [alookup_aupd] at h
    by_cases hk : k' = k
    · subst hk
      rw [if_pos rfl] at h
      cases h
      exact Or.inl ⟨n, out, getElem?_set_self ts n _ hn⟩
    · rw [if_neg hk] at h
      rcases hInv.reg k' i h with ⟨m, out', hm⟩ | ⟨m, v, hm⟩ | he
      · have hmn : m ≠ n := by
          intro e
          subst e
          rw [hst] at hm
          cases hm
        exact Or.inl ⟨m, out',
          by rw [getElem?_set_other ts n m _ hmn]; exact hm⟩
      · have hmn : m ≠ n := by
          intro e
          subst e
          rw [hst] at hm
          cases hm
        exact Or.inr (Or.inl ⟨m, v,
          by rw [getElem?_set_other ts n m _ hmn]; exact hm⟩)
      · exact Or.inr (Or.inr he)
  case res_iff =>
    simp only []
    intro i v
    have hiff : alookup s.results i = some v ↔
        (∃ (m : Nat), ts[m]? = some (.signalStage i v) ∨
          ts[m]? = some (.drainStage i v) ∨
          ts[m]? = some (.retireStage i v)) := hInv.res_iff i v
    rw [hiff]
    constructor
    · rintro ⟨m, hm⟩
      have hmn : m ≠ n := by
        intro e
        subst e
        rcases hm with hm | hm | hm <;> (rw [hst] at hm; cases hm)
      exact ⟨m, by rw [getElem?_set_other ts n m _ hmn]; exact hm⟩
    · rintro ⟨m, hm⟩
      have hmn : m ≠ n := by
        intro e
        rcases hm with hm | hm | hm <;>
          (rw [e, getElem?_set_self ts n _ hn] at hm; simp at hm)
      rw [getElem?_set_other ts n m _ hmn] at hm
      exact ⟨m, hm⟩
  case evt =>
    simp only []
    intro i h
    rcases hInv.evt i h with ⟨m, v, hm⟩
    have hmn : m ≠ n := by
      intro e
      subst e
      rcases hm with hm | hm | hm | ⟨hm, -⟩ <;> (rw [hst] at hm; cases hm)
    exact ⟨m, v, by rw [getElem?_set_other ts n m _ hmn]; exact hm⟩
  case clear_owner =>
    simp only []
    intro i h
    rcases hInv.clear_owner i h with ⟨m, v, hm⟩
    have hmn : m ≠ n := by
      intro e
      subst e
      rcases hm with hm | hm | hm | hm <;> (rw [hst] at hm; cases hm)
    exact ⟨m, v, by rw [getElem?_set_other ts n m _ hmn]; exact hm⟩
  case kclear =>
    simp only []
    intro m i v hm
    have hmn : m ≠ n := by
      intro e
      rcases hm with hm | hm <;>
        (rw [e, getElem?_set_self ts n _ hn] at hm; simp at hm)
    rw [getElem?_set_other ts n m _ hmn] at hm
    exact hInv.kclear m i v hm
  case clear_joined =>
    simp only []
    intro i h
    rw [joinedCount_set_same ts n _ i hn (by
      rcases List.getElem?_eq_some.mp hst with ⟨hn2, he⟩
      rw [he]
      simp [isJoinedOn])]
    exact hInv.clear_joined i h
  case owner_done_joined =>
    simp only []
    intro m i v hm
    rcases getElem?_set_cases hn hm with ⟨rfl, he⟩ | ⟨hmn, hm⟩
    · cases he
    · rw [joinedCount_set_same ts n _ i hn (by
        rcases List.getElem?_eq_some.mp hst with ⟨hn2, he⟩
        rw [he]
        simp [isJoinedOn])]
      exact hInv.owner_done_joined m i v hm
  case consumer_done =>
    simp only []
    intro m i r hm
    rcases getElem?_set_cases hn hm with ⟨rfl, he⟩ | ⟨hmn, hm⟩
    · cases he
    · exact hInv.consumer_done m i r hm
  case joined_evt =>
    simp only []
    intro m i hm
    have hmn : m ≠ n := by
      intro e
      rcases hm with hm | ⟨v, hm⟩ <;>
        (rw [e, getElem?_set_self ts n _ hn] at hm; simp at hm)
    rw [getElem?_set_other ts n m _ hmn] at hm
    exact hInv.joined_evt m i hm
  case reading_res =>
    simp only []
    intro m i hm
    rcases getElem?_set_cases hn hm with ⟨rfl, he⟩ | ⟨hmn, hm⟩
    · cases he
    · exact hInv.reading_res m i hm

end ThreadingDedup

namespace ThreadingDedup

/-- While the registry maps `k` to `i`, the counter entry for `i` exists (so
the consumer-branch increment `self._counts[internal_key] += 1` cannot raise
`KeyError`). -/
theorem reg_counts_isSome (s : DedupState) (ts : List St) (k : String)
    (i : Nat) (hInv : Inv ⟨s, ts⟩) (hrun : alookup s.running k = some i) :
    (alookup s.counts i).isSome := by
  refine (hInv.counts_some i).mpr ?_
  rcases hInv.reg k i hrun with ⟨m, o, hm⟩ | ⟨m, v, hm⟩ | he
  · exact Or.inl ⟨m, _, hm, by simp [ownerStage]⟩
  · exact Or.inl ⟨m, _, hm, by simp [ownerStage]⟩
  · exact Or.inr he

/-- While the registry maps `k` to `i`, the clear event of `i` has not been
set. -/
theorem reg_not_clear (s : DedupState) (ts : List St) (k : String)
    (i : Nat) (hInv : Inv ⟨s, ts⟩) (hrun : alookup s.running k = some i) :
    i ∉ s.clearSet := by
  intro hcl
  rcases hInv.clear_owner i hcl with ⟨m3, v3, hm3⟩
  have hprod3 : alookup s.produced i = some (.ok v3) := by
    rcases hm3 with hm3 | hm3 | hm3 | hm3
    · exact hInv.prod_phase m3 _ i v3 hm3 (by simp [phaseVal])
    · exact hInv.prod_phase m3 _ i v3 hm3 (by simp [phaseVal])
    · exact hInv.prod_phase m3 _ i v3 hm3 (by simp [phaseVal])
    · exact hInv.prod_finished m3 true i (.ok v3) hm3
  have htag3 : ∃ st3, ts[m3]? = some st3 ∧ ownerTag st3 = some i := by
    rcases hm3 with hm3 | hm3 | hm3 | hm3 <;>
      exact ⟨_, hm3, by simp [ownerTag]⟩
  rcases hInv.reg k i hrun with ⟨m2, o, hm2⟩ | ⟨m2, v2, hm2⟩ | ⟨e2, he2⟩
  · rcases htag3 with ⟨st3, hg3, ht3⟩
    have hm23 : m2 = m3 :=
      hInv.uniq m2 m3 _ _ i hm2 hg3 (by simp [ownerTag]) ht3
    subst hm23
    rw [hm2] at hg3
    cases hg3
    rcases hm3 with hm3 | hm3 | hm3 | hm3 <;>
      (rw [hm2] at hm3; cases hm3)
  · rcases htag3 with ⟨st3, hg3, ht3⟩
    have hm23 : m2 = m3 :=
      hInv.uniq m2 m3 _ _ i hm2 hg3 (by simp [ownerTag]) ht3
    subst hm23
    rcases hm3 with hm3 | hm3 | hm3 | hm3 <;>
      (rw [hm2] at hm3; cases hm3)
  · rw [hprod3] at he2
    cases he2

/-- While the registry maps `k` to `i`, the owner of `i` has not finished
with a value. -/
theorem reg_no_finished_ok (s : DedupState) (ts : List St) (k : String)
    (i : Nat) (hInv : Inv ⟨s, ts⟩) (hrun : alookup s.running k = some i)
    (m : Nat) (v : Int) : ts[m]? = some (.finished true i (.ok v)) → False := by
  intro hm
  rcases hInv.reg k i hrun with ⟨m2, o, hm2⟩ | ⟨m2, v2, hm2⟩ | ⟨e2, he2⟩
  · have hm23 : m2 = m :=
      hInv.uniq m2 m _ _ i hm2 hm (by simp [ownerTag]) (by simp [ownerTag])
    subst hm23
    rw [hm2] at hm
    cases hm
  · have hm23 : m2 = m :=
      hInv.uniq m2 m _ _ i hm2 hm (by simp [ownerTag]) (by simp [ownerTag])
    subst hm23
    rw [hm2] at hm
    cases hm
  · have := hInv.prod_finished m true i (.ok v) hm
    rw [this] at he2
    cases he2

theorem inv_start_join (s : DedupState) (ts : List St) (n : Nat)
    (k : String) (fn : Bool) (out : Outcome) (i : Nat)
    (hInv : Inv ⟨s, ts⟩) (hst : ts[n]? = some (.start k fn out))
    (hrun : alookup s.running k = some i) :
    Inv ⟨{ s with
        counts := aupd s.counts i ((alookup s.counts i).getD 0 + 1) },
      ts.set n (.waiting i)⟩ := by
  rcases List.getElem?_eq_some.mp hst with ⟨hn, -⟩
  have hi : i < s.nextId := hInv.fresh_running k i hrun
  rcases Option.isSome_iff_exists.mp (reg_counts_isSome s ts k i hInv hrun)
    with ⟨cv0, hcv0⟩
  have hgetD : (alookup s.counts i).getD 0 = cv0 := by rw [hcv0]; rfl
  have hcv0val : cv0 = (joinedCount ts i : Int) := hInv.counts_val i cv0 hcv0
  have hnc : i ∉ s.clearSet := reg_not_clear s ts k i hInv hrun
  have hjset : ∀ (j : Nat), joinedCount (ts.set n (.waiting i)) j
      = joinedCount ts j + (if i = j then 1 else 0) := by
    intro j
    have hcnt := joinedCount_set ts n (.waiting i) j hn
    rcases List.getElem?_eq_some.mp hst with ⟨hn2, he⟩
    rw [he] at hcnt
    by_cases hij : i = j
    · simp only [isJoinedOn] at hcnt
      simp [hij] at hcnt ⊢
      omega
    · simp only [isJoinedOn] at hcnt
      simp [hij] at hcnt ⊢
      omega
  constructor
  case fresh_id =>
    simp only []
    intro m st j hm hid
    rcases getElem?_set_cases hn hm with ⟨he1, he2⟩ | ⟨hmn, hm2⟩
    · subst he2
      simp only [idOf] at hid
      cases hid
      omega
    · exact hInv.fresh_id m st j hm2 hid
  case fresh_running =>
    simp only []
    exact hInv.fresh_running
  case fresh_counts =>
    simp only []
    intro j h
    rw [alookup_aupd] at h
    by_cases hj : j = i
    · omega
    · rw [if_neg hj] at h
      exact hInv.fresh_counts j h
  case fresh_results =>
    simp only []
    exact hInv.fresh_results
  case fresh_event =>
    simp only []
    exact hInv.fresh_event
  case fresh_clear =>
    simp only []
    exact hInv.fresh_clear
  case fresh_installs =>
    simp only []
    exact hInv.fresh_installs
  case fresh_produced =>
    simp only []
    exact hInv.fresh_produced
  case installs_nodup =>
    simp only []
    exact hInv.installs_nodup
  case uniq =>
    simp only []
    intro m m' st st' j hm hm' htag htag'
    rcases getElem?_set_cases hn hm with ⟨he1, he2⟩ | ⟨hmn, hm2⟩
    · subst he2
      simp [ownerTag] at htag
    · rcases getElem?_set_cases hn hm' with ⟨he1', he2'⟩ | ⟨hmn', hm2'⟩
      · subst he2'
        simp [ownerTag] at htag'
      · exact hInv.uniq m m' st st' j hm2 hm2' htag htag'
  case prod_none =>
    simp only []
    intro m k' j out' hm
    rcases getElem?_set_cases hn hm with ⟨he1, he2⟩ | ⟨hmn, hm2⟩
    · cases he2
    · exact hInv.prod_none m k' j out' hm2
  case prod_phase =>
    simp only []
    intro m st j v hm hp
    rcases getElem?_set_cases hn hm with ⟨he1, he2⟩ | ⟨hmn, hm2⟩
    · subst he2
      simp [phaseVal] at hp
    · exact hInv.prod_phase m st j v hm2 hp
  case prod_finished =>
    simp only []
    intro m ow j r hm
    rcases getElem?_set_cases hn hm with ⟨he1, he2⟩ | ⟨hmn, hm2⟩
    · cases he2
    · exact hInv.prod_finished m ow j r hm2
  case prod_results =>
    simp only []
    exact hInv.prod_results
  case counts_some =>
    simp only []
    intro j
    rw [alookup_aupd]
    have hrhs : ((∃ (m : Nat) (st : St), (ts.set n (.waiting i))[m]? = some st ∧
        ownerStage st = some j) ∨
        (∃ (e : String), alookup s.produced j = some (.err e))) ↔
        ((∃ (m : Nat) (st : St), ts[m]? = some st ∧ ownerStage st = some j) ∨
        (∃ (e : String), alookup s.produced j = some (.err e))) := by
      constructor
      · rintro (⟨m, st, hm, ho⟩ | he)
        · rcases getElem?_set_cases hn hm with ⟨he1, he2⟩ | ⟨hmn, hm2⟩
          · subst he2
            simp [ownerStage] at ho
          · exact Or.inl ⟨m, st, hm2, ho⟩
        · exact Or.inr he
      · rintro (⟨m, st, hm, ho⟩ | he)
        · have hmn : m ≠ n := by
            intro e
            rw [e, hst] at hm
            cases hm
            simp [ownerStage] at ho
          exact Or.inl ⟨m, st,
            by rw [getElem?_set_other ts n m _ hmn]; exact hm, ho⟩
        · exact Or.inr he
    rw [hrhs]
    by_cases hj : j = i
    · subst hj
      constructor
      · intro hdummy
        exact (hInv.counts_some j).mp (by simp [hcv0])
      · intro hdummy
        simp
    · rw [if_neg hj]
      exact hInv.counts_some j
  case counts_val =>
    simp only []
    intro j cv h
    rw [alookup_aupd] at h
    rw [hjset j]
    by_cases hj : j = i
    · subst hj
      rw [if_pos rfl] at h
      cases h
      rw [hgetD, hcv0val]
      simp
    · rw [if_neg hj] at h
      have hv : cv = (joinedCount ts j : Int) := hInv.counts_val j cv h
      have hij : ¬ i = j := fun e => hj e.symm
      rw [if_neg hij, hv]
      simp
  case reg =>
    simp only []
    intro k' j h
    rcases hInv.reg k' j h with ⟨m, o, hm⟩ | ⟨m, v, hm⟩ | he
    · have hmn : m ≠ n := by
        intro e
        rw [e, hst] at hm
        cases hm
      exact Or.inl ⟨m, o, by rw [getElem?_set_other ts n m _ hmn]; exact hm⟩
    · have hmn : m ≠ n := by
        intro e
        rw [e, hst] at hm
        cases hm
      exact Or.inr (Or.inl ⟨m, v,
        by rw [getElem?_set_other ts n m _ hmn]; exact hm⟩)
    · exact Or.inr (Or.inr he)
  case res_iff =>
    simp only []
    intro j v
    have hiff : alookup s.results j = some v ↔
        (∃ (m : Nat), ts[m]? = some (.signalStage j v) ∨
          ts[m]? = some (.drainStage j v) ∨
          ts[m]? = some (.retireStage j v)) := hInv.res_iff j v
    rw [hiff]
    constructor
    · rintro ⟨m, hm⟩
      have hmn : m ≠ n := by
        intro e
        rcases hm with hm | hm | hm <;> (rw [e, hst] at hm; cases hm)
      exact ⟨m, by rw [getElem?_set_other ts n m _ hmn]; exact hm⟩
    · rintro ⟨m, hm⟩
      have hmn : m ≠ n := by
        intro e
        rcases hm with hm | hm | hm <;>
          (rw [e, getElem?_set_self ts n _ hn] at hm; simp at hm)
      rw [getElem?_set_other ts n m _ hmn] at hm
      exact ⟨m, hm⟩
  case evt =>
    simp only []
    intro j h
    rcases hInv.evt j h with ⟨m, v, hm⟩
    have hmn : m ≠ n := by
      intro e
      rcases hm with hm | hm | hm | ⟨hm, -⟩ <;> (rw [e, hst] at hm; cases hm)
    refine ⟨m, v, ?_⟩
    rw [getElem?_set_other ts n m _ hmn]
    exact hm
  case clear_owner =>
    simp only []
    intro j h
    rcases hInv.clear_owner j h with ⟨m, v, hm⟩
    have hmn : m ≠ n := by
      intro e
      rcases hm with hm | hm | hm | hm <;> (rw [e, hst] at hm; cases hm)
    refine ⟨m, v, ?_⟩
    rw [getElem?_set_other ts n m _ hmn]
    exact hm
  case kclear =>
    simp only []
    intro m j v hm
    have hmn : m ≠ n := by
      intro e
      rcases hm with hm | hm <;>
        (rw [e, getElem?_set_self ts n _ hn] at hm; simp at hm)
    rw [getElem?_set_other ts n m _ hmn] at hm
    exact hInv.kclear m j v hm
  case clear_joined =>
    simp only []
    intro j h
    rw [hjset j]
    have hz : joinedCount ts j = 0 := hInv.clear_joined j h
    have hij : ¬ i = j := by
      intro e
      rw [e] at hnc
      exact hnc h
    rw [if_neg hij, hz]
  case owner_done_joined =>
    simp only []
    intro m j v hm
    rcases getElem?_set_cases hn hm with ⟨he1, he2⟩ | ⟨hmn, hm2⟩
    · cases he2
    · rw [hjset j]
      have hz : joinedCount ts j = 0 := hInv.owner_done_joined m j v hm2
      have hij : ¬ i = j := by
        intro e
        subst e
        exact reg_no_finished_ok s ts k i hInv hrun m v hm2
      rw [if_neg hij, hz]
  case consumer_done =>
    simp only []
    intro m j r hm
    rcases getElem?_set_cases hn hm with ⟨he1, he2⟩ | ⟨hmn, hm2⟩
    · cases he2
    · exact hInv.consumer_done m j r hm2
  case joined_evt =>
    simp only []
    intro m j hm
    have hmn : m ≠ n := by
      intro e
      rcases hm with hm | ⟨v, hm⟩ <;>
        (rw [e, getElem?_set_self ts n _ hn] at hm; simp at hm)
    rw [getElem?_set_other ts n m _ hmn] at hm
    exact hInv.joined_evt m j hm
  case reading_res =>
    simp only []
    intro m j hm
    rcases getElem?_set_cases hn hm with ⟨he1, he2⟩ | ⟨hmn, hm2⟩
    · cases he2
    · exact hInv.reading_res m j hm2

end ThreadingDedup

namespace ThreadingDedup

theorem inv_prod_ok (s : DedupState) (ts : List St) (n : Nat)
    (k : String) (i : Nat) (v : Int)
    (hInv : Inv ⟨s, ts⟩) (hst : ts[n]? = some (.producing k i (.ok v))) :
    Inv ⟨{ s with produced := aupd s.produced i (.ok v) },
      ts.set n (.deregStage k i v)⟩ := by
  rcases List.getElem?_eq_some.mp hst with ⟨hn, -⟩
  have hpnone : alookup s.produced i = none :=
    hInv.prod_none n k i (.ok v) hst
  have hi : i < s.nextId := hInv.fresh_id n _ i hst (by simp [idOf])
  have hsame : isJoinedOn (St.producing k i (.ok v)) = isJoinedOn (St.deregStage k i v) := by
    funext j
    simp [isJoinedOn]
  have hjc : ∀ (j : Nat), joinedCount (ts.set n (.deregStage k i v)) j
      = joinedCount ts j := by
    intro j
    refine joinedCount_set_same ts n _ j hn ?_
    rcases List.getElem?_eq_some.mp hst with ⟨hn2, he⟩
    rw [he]
    simp [isJoinedOn]
  constructor
  case fresh_id =>
    simp only []
    intro m st j hm hid
    rcases getElem?_set_cases hn hm with ⟨he1, he2⟩ | ⟨hmn, hm2⟩
    · subst he2
      simp only [idOf] at hid
      cases hid
      omega
    · exact hInv.fresh_id m st j hm2 hid
  case fresh_running =>
    simp only []
    exact hInv.fresh_running
  case fresh_counts =>
    simp only []
    exact hInv.fresh_counts
  case fresh_results =>
    simp only []
    exact hInv.fresh_results
  case fresh_event =>
    simp only []
    exact hInv.fresh_event
  case fresh_clear =>
    simp only []
    exact hInv.fresh_clear
  case fresh_installs =>
    simp only []
    exact hInv.fresh_installs
  case fresh_produced =>
    simp only []
    intro j h
    rw [alookup_aupd] at h
    by_cases hj : j = i
    · omega
    · rw [if_neg hj] at h
      exact hInv.fresh_produced j h
  case installs_nodup =>
    simp only []
    exact hInv.installs_nodup
  case uniq =>
    simp only []
    intro m m' st st' j hm hm' htag htag'
    rcases getElem?_set_cases hn hm with ⟨he1, he2⟩ | ⟨hmn, hm2⟩
    · rcases getElem?_set_cases hn hm' with ⟨he1', he2'⟩ | ⟨hmn', hm2'⟩
      · rw [he1, he1']
      · subst he2
        simp only [ownerTag] at htag
        cases htag
        rw [he1]
        exact (hInv.uniq n m' _ st' i hst hm2' (by simp [ownerTag]) htag').symm.symm
    · rcases getElem?_set_cases hn hm' with ⟨he1', he2'⟩ | ⟨hmn', hm2'⟩
      · subst he2'
        simp only [ownerTag] at htag'
        cases htag'
        rw [he1']
        exact hInv.uniq m n st _ i hm2 hst htag (by simp [ownerTag])
      · exact hInv.uniq m m' st st' j hm2 hm2' htag htag'
  case prod_none =>
    simp only []
    intro m k' j out' hm
    rcases getElem?_set_cases hn hm with ⟨he1, he2⟩ | ⟨hmn, hm2⟩
    · cases he2
    · by_cases hj : j = i
      · subst hj
        have : m = n :=
          hInv.uniq m n _ _ j hm2 hst (by simp [ownerTag]) (by simp [ownerTag])
        exact absurd this hmn
      · rw [alookup_aupd, if_neg hj]
        exact hInv.prod_none m k' j out' hm2
  case prod_phase =>
    simp only []
    intro m st j w hm hp
    rcases getElem?_set_cases hn hm with ⟨he1, he2⟩ | ⟨hmn, hm2⟩
    · subst he2
      simp only [phaseVal] at hp
      cases hp
      simp
    · by_cases hj : j = i
      · subst hj
        have := hInv.prod_phase m st j w hm2 hp
        rw [hpnone] at this
        cases this
      · rw [alookup_aupd, if_neg hj]
        exact hInv.prod_phase m st j w hm2 hp
  case prod_finished =>
    simp only []
    intro m ow j r hm
    rcases getElem?_set_cases hn hm with ⟨he1, he2⟩ | ⟨hmn, hm2⟩
    · cases he2
    · by_cases hj : j = i
      · subst hj
        have := hInv.prod_finished m ow j r hm2
        rw [hpnone] at this
        cases this
      · rw [alookup_aupd, if_neg hj]
        exact hInv.prod_finished m ow j r hm2
  case prod_results =>
    simp only []
    intro j w h
    by_cases hj : j = i
    · subst hj
      have := hInv.prod_results j w h
      rw [hpnone] at this
      cases this
    · rw [alookup_aupd, if_neg hj]
      exact hInv.prod_results j w h
  case counts_some =>
    simp only []
    intro j
    have hiff : (alookup s.counts j).isSome = true ↔
        ((∃ (m : Nat) (st : St), ts[m]? = some st ∧ ownerStage st = some j) ∨
         (∃ (e : String), alookup s.produced j = some (.err e))) :=
      hInv.counts_some j
    rw [hiff]
    constructor
    · rintro (⟨m, st, hm, ho⟩ | ⟨e, he⟩)
      · by_cases hmn : m = n
        · subst hmn
          rw [hst] at hm
          cases hm
          simp only [ownerStage] at ho
          cases ho
          exact Or.inl ⟨m, .deregStage k i v, getElem?_set_self ts m _ hn,
            by simp [ownerStage]⟩
        · exact Or.inl ⟨m, st,
            by rw [getElem?_set_other ts n m _ hmn]; exact hm, ho⟩
      · by_cases hj : j = i
        · subst hj
          rw [hpnone] at he
          cases he
        · exact Or.inr ⟨e, by rw [alookup_aupd, if_neg hj]; exact he⟩
    · rintro (⟨m, st, hm, ho⟩ | ⟨e, he⟩)
      · rcases getElem?_set_cases hn hm with ⟨he1, he2⟩ | ⟨hmn, hm2⟩
        · subst he2
          simp only [ownerStage] at ho
          cases ho
          exact Or.inl ⟨n, _, hst, by simp [ownerStage]⟩
        · exact Or.inl ⟨m, st, hm2, ho⟩
      · by_cases hj : j = i
        · subst hj
          rw [alookup_aupd, if_pos rfl] at he
          cases he
        · rw [alookup_aupd, if_neg hj] at he
          exact Or.inr ⟨e, he⟩
  case counts_val =>
    simp only []
    intro j cv h
    rw [hjc j]
    exact hInv.counts_val j cv h
  case reg =>
    simp only []
    intro k' j h
    rcases hInv.reg k' j h with ⟨m, o, hm⟩ | ⟨m, w, hm⟩ | ⟨e, he⟩
    · by_cases hmn : m = n
      · subst hmn
        rw [hst] at hm
        cases hm
        exact Or.inr (Or.inl ⟨m, v, getElem?_set_self ts m _ hn⟩)
      · exact Or.inl ⟨m, o,
          by rw [getElem?_set_other ts n m _ hmn]; exact hm⟩
    · have hmn : m ≠ n := by
        intro e
        rw [e, hst] at hm
        cases hm
      exact Or.inr (Or.inl ⟨m, w,
        by rw [getElem?_set_other ts n m _ hmn]; exact hm⟩)
    · by_cases hj : j = i
      · subst hj
        rw [hpnone] at he
        cases he
      · exact Or.inr (Or.inr ⟨e, by rw [alookup_aupd, if_neg hj]; exact he⟩)
  case res_iff =>
    simp only []
    intro j w
    have hiff : alookup s.results j = some w ↔
        (∃ (m : Nat), ts[m]? = some (.signalStage j w) ∨
          ts[m]? = some (.drainStage j w) ∨
          ts[m]? = some (.retireStage j w)) := hInv.res_iff j w
    rw [hiff]
    constructor
    · rintro ⟨m, hm⟩
      have hmn : m ≠ n := by
        intro e
        rcases hm with hm | hm | hm <;> (rw [e, hst] at hm; cases hm)
      exact ⟨m, by rw [getElem?_set_other ts n m _ hmn]; exact hm⟩
    · rintro ⟨m, hm⟩
      have hmn : m ≠ n := by
        intro e
        rcases hm with hm | hm | hm <;>
          (rw [e, getElem?_set_self ts n _ hn] at hm; simp at hm)
      rw [getElem?_set_other ts n m _ hmn] at hm
      exact ⟨m, hm⟩
  case evt =>
    simp only []
    intro j h
    rcases hInv.evt j h with ⟨m, w, hm⟩
    have hmn : m ≠ n := by
      intro e
      rcases hm with hm | hm | hm | ⟨hm, -⟩ <;> (rw [e, hst] at hm; cases hm)
    refine ⟨m, w, ?_⟩
    rw [getElem?_set_other ts n m _ hmn]
    exact hm
  case clear_owner =>
    simp only []
    intro j h
    rcases hInv.clear_owner j h with ⟨m, w, hm⟩
    have hmn : m ≠ n := by
      intro e
      rcases hm with hm | hm | hm | hm <;> (rw [e, hst] at hm; cases hm)
    refine ⟨m, w, ?_⟩
    rw [getElem?_set_other ts n m _ hmn]
    exact hm
  case kclear =>
    simp only []
    intro m j w hm
    have hmn : m ≠ n := by
      intro e
      rcases hm with hm | hm <;>
        (rw [e, getElem?_set_self ts n _ hn] at hm; simp at hm)
    rw [getElem?_set_other ts n m _ hmn] at hm
    exact hInv.kclear m j w hm
  case clear_joined =>
    simp only []
    intro j h
    rw [hjc j]
    exact hInv.clear_joined j h
  case owner_done_joined =>
    simp only []
    intro m j w hm
    rcases getElem?_set_cases hn hm with ⟨he1, he2⟩ | ⟨hmn, hm2⟩
    · cases he2
    · rw [hjc j]
      exact hInv.owner_done_joined m j w hm2
  case consumer_done =>
    simp only []
    intro m j r hm
    rcases getElem?_set_cases hn hm with ⟨he1, he2⟩ | ⟨hmn, hm2⟩
    · cases he2
    · exact hInv.consumer_done m j r hm2
  case joined_evt =>
    simp only []
    intro m j hm
    have hmn : m ≠ n := by
      intro e
      rcases hm with hm | ⟨w, hm⟩ <;>
        (rw [e, getElem?_set_self ts n _ hn] at hm; simp at hm)
    rw [getElem?_set_other ts n m _ hmn] at hm
    exact hInv.joined_evt m j hm
  case reading_res =>
    simp only []
    intro m j hm
    rcases getElem?_set_cases hn hm with ⟨he1, he2⟩ | ⟨hmn, hm2⟩
    · cases he2
    · exact hInv.reading_res m j hm2

end ThreadingDedup

namespace ThreadingDedup

theorem inv_prod_err (s : DedupState) (ts : List St) (n : Nat)
    (k : String) (i : Nat) (e : String)
    (hInv : Inv ⟨s, ts⟩) (hst : ts[n]? = some (.producing k i (.err e))) :
    Inv ⟨{ s with produced := aupd s.produced i (.err e) },
      ts.set n (.finished true i (.err e))⟩ := by
  rcases List.getElem?_eq_some.mp hst with ⟨hn, -⟩
  have hpnone : alookup s.produced i = none :=
    hInv.prod_none n k i (.err e) hst
  have hi : i < s.nextId := hInv.fresh_id n _ i hst (by simp [idOf])
  have hjc : ∀ (j : Nat), joinedCount (ts.set n (.finished true i (.err e))) j
      = joinedCount ts j := by
    intro j
    refine joinedCount_set_same ts n _ j hn ?_
    rcases List.getElem?_eq_some.mp hst with ⟨hn2, he⟩
    rw [he]
    simp [isJoinedOn]
  constructor
  case fresh_id =>
    simp only []
    intro m st j hm hid
    rcases getElem?_set_cases hn hm with ⟨he1, he2⟩ | ⟨hmn, hm2⟩
    · subst he2
      simp only [idOf] at hid
      cases hid
      omega
    · exact hInv.fresh_id m st j hm2 hid
  case fresh_running =>
    simp only []
    exact hInv.fresh_running
  case fresh_counts =>
    simp only []
    exact hInv.fresh_counts
  case fresh_results =>
    simp only []
    exact hInv.fresh_results
  case fresh_event =>
    simp only []
    exact hInv.fresh_event
  case fresh_clear =>
    simp only []
    exact hInv.fresh_clear
  case fresh_installs =>
    simp only []
    exact hInv.fresh_installs
  case fresh_produced =>
    simp only []
    intro j h
    rw [alookup_aupd] at h
    by_cases hj : j = i
    · omega
    · rw [if_neg hj] at h
      exact hInv.fresh_produced j h
  case installs_nodup =>
    simp only []
    exact hInv.installs_nodup
  case uniq =>
    simp only []
    intro m m' st st' j hm hm' htag htag'
    rcases getElem?_set_cases hn hm with ⟨he1, he2⟩ | ⟨hmn, hm2⟩
    · rcases getElem?_set_cases hn hm' with ⟨he1', he2'⟩ | ⟨hmn', hm2'⟩
      · rw [he1, he1']
      · subst he2
        simp only [ownerTag] at htag
        cases htag
        rw [he1]
        exact hInv.uniq n m' _ st' i hst hm2' (by simp [ownerTag]) htag'
    · rcases getElem?_set_cases hn hm' with ⟨he1', he2'⟩ | ⟨hmn', hm2'⟩
      · subst he2'
        simp only [ownerTag] at htag'
        cases htag'
        rw [he1']
        exact hInv.uniq m n st _ i hm2 hst htag (by simp [ownerTag])
      · exact hInv.uniq m m' st st' j hm2 hm2' htag htag'
  case prod_none =>
    simp only []
    intro m k' j out' hm
    rcases getElem?_set_cases hn hm with ⟨he1, he2⟩ | ⟨hmn, hm2⟩
    · cases he2
    · by_cases hj : j = i
      · subst hj
        have : m = n :=
          hInv.uniq m n _ _ j hm2 hst (by simp [ownerTag]) (by simp [ownerTag])
        exact absurd this hmn
      · rw [alookup_aupd, if_neg hj]
        exact hInv.prod_none m k' j out' hm2
  case prod_phase =>
    simp only []
    intro m st j w hm hp
    rcases getElem?_set_cases hn hm with ⟨he1, he2⟩ | ⟨hmn, hm2⟩
    · subst he2
      simp [phaseVal] at hp
    · by_cases hj : j = i
      · subst hj
        have := hInv.prod_phase m st j w hm2 hp
        rw [hpnone] at this
        cases this
      · rw [alookup_aupd, if_neg hj]
        exact hInv.prod_phase m st j w hm2 hp
  case prod_finished =>
    simp only []
    intro m ow j r hm
    rcases getElem?_set_cases hn hm with ⟨he1, he2⟩ | ⟨hmn, hm2⟩
    · cases he2
      simp
    · by_cases hj : j = i
      · subst hj
        have := hInv.prod_finished m ow j r hm2
        rw [hpnone] at this
        cases this
      · rw [alookup_aupd, if_neg hj]
        exact hInv.prod_finished m ow j r hm2
  case prod_results =>
    simp only []
    intro j w h
    by_cases hj : j = i
    · subst hj
      have := hInv.prod_results j w h
      rw [hpnone] at this
      cases this
    · rw [alookup_aupd, if_neg hj]
      exact hInv.prod_results j w h
  case counts_some =>
    simp only []
    intro j
    have hiff : (alookup s.counts j).isSome = true ↔
        ((∃ (m : Nat) (st : St), ts[m]? = some st ∧ ownerStage st = some j) ∨
         (∃ (e : String), alookup s.produced j = some (.err e))) :=
      hInv.counts_some j
    rw [hiff]
    constructor
    · rintro (⟨m, st, hm, ho⟩ | ⟨e', he'⟩)
      · by_cases hmn : m = n
        · subst hmn
          rw [hst] at hm
          cases hm
          simp only [ownerStage] at ho
          cases ho
          exact Or.inr ⟨e, by simp⟩
        · exact Or.inl ⟨m, st,
            by rw [getElem?_set_other ts n m _ hmn]; exact hm, ho⟩
      · by_cases hj : j = i
        · subst hj
          rw [hpnone] at he'
          cases he'
        · exact Or.inr ⟨e', by rw [alookup_aupd, if_neg hj]; exact he'⟩
    · rintro (⟨m, st, hm, ho⟩ | ⟨e', he'⟩)
      · rcases getElem?_set_cases hn hm with ⟨he1, he2⟩ | ⟨hmn, hm2⟩
        · subst he2
          simp [ownerStage] at ho
        · exact Or.inl ⟨m, st, hm2, ho⟩
      · by_cases hj : j = i
        · subst hj
          exact Or.inl ⟨n, _, hst, by simp [ownerStage]⟩
        · rw [alookup_aupd, if_neg hj] at he'
          exact Or.inr ⟨e', he'⟩
  case counts_val =>
    simp only []
    intro j cv h
    rw [hjc j]
    exact hInv.counts_val j cv h
  case reg =>
    simp only []
    intro k' j h
    rcases hInv.reg k' j h with ⟨m, o, hm⟩ | ⟨m, w, hm⟩ | ⟨e', he'⟩
    · by_cases hmn : m = n
      · subst hmn
        rw [hst] at hm
        cases hm
        exact Or.inr (Or.inr ⟨e, by simp⟩)
      · exact Or.inl ⟨m, o,
          by rw [getElem?_set_other ts n m _ hmn]; exact hm⟩
    · have hmn : m ≠ n := by
        intro he0
        rw [he0, hst] at hm
        cases hm
      exact Or.inr (Or.inl ⟨m, w,
        by rw [getElem?_set_other ts n m _ hmn]; exact hm⟩)
    · by_cases hj : j = i
      · subst hj
        rw [hpnone] at he'
        cases he'
      · exact Or.inr (Or.inr ⟨e',
          by rw [alookup_aupd, if_neg hj]; exact he'⟩)
  case res_iff =>
    simp only []
    intro j w
    have hiff : alookup s.results j = some w ↔
        (∃ (m : Nat), ts[m]? = some (.signalStage j w) ∨
          ts[m]? = some (.drainStage j w) ∨
          ts[m]? = some (.retireStage j w)) := hInv.res_iff j w
    rw [hiff]
    constructor
    · rintro ⟨m, hm⟩
      have hmn : m ≠ n := by
        intro he0
        rcases hm with hm | hm | hm <;> (rw [he0, hst] at hm; cases hm)
      exact ⟨m, by rw [getElem?_set_other ts n m _ hmn]; exact hm⟩
    · rintro ⟨m, hm⟩
      have hmn : m ≠ n := by
        intro he0
        rcases hm with hm | hm | hm <;>
          (rw [he0, getElem?_set_self ts n _ hn] at hm; simp at hm)
      rw [getElem?_set_other ts n m _ hmn] at hm
      exact ⟨m, hm⟩
  case evt =>
    simp only []
    intro j h
    rcases hInv.evt j h with ⟨m, w, hm⟩
    have hmn : m ≠ n := by
      intro he0
      rcases hm with hm | hm | hm | ⟨hm, -⟩ <;> (rw [he0, hst] at hm; cases hm)
    refine ⟨m, w, ?_⟩
    rw [getElem?_set_other ts n m _ hmn]
    exact hm
  case clear_owner =>
    simp only []
    intro j h
    rcases hInv.clear_owner j h with ⟨m, w, hm⟩
    have hmn : m ≠ n := by
      intro he0
      rcases hm with hm | hm | hm | hm <;> (rw [he0, hst] at hm; cases hm)
    refine ⟨m, w, ?_⟩
    rw [getElem?_set_other ts n m _ hmn]
    exact hm
  case kclear =>
    simp only []
    intro m j w hm
    have hmn : m ≠ n := by
      intro he0
      rcases hm with hm | hm <;>
        (rw [he0, getElem?_set_self ts n _ hn] at hm; simp at hm)
    rw [getElem?_set_other ts n m _ hmn] at hm
    exact hInv.kclear m j w hm
  case clear_joined =>
    simp only []
    intro j h
    rw [hjc j]
    exact hInv.clear_joined j h
  case owner_done_joined =>
    simp only []
    intro m j w hm
    rcases getElem?_set_cases hn hm with ⟨he1, he2⟩ | ⟨hmn, hm2⟩
    · cases he2
    · rw [hjc j]
      exact hInv.owner_done_joined m j w hm2
  case consumer_done =>
    simp only []
    intro m j r hm
    rcases getElem?_set_cases hn hm with ⟨he1, he2⟩ | ⟨hmn, hm2⟩
    · cases he2
    · exact hInv.consumer_done m j r hm2
  case joined_evt =>
    simp only []
    intro m j hm
    have hmn : m ≠ n := by
      intro he0
      rcases hm with hm | ⟨w, hm⟩ <;>
        (rw [he0, getElem?_set_self ts n _ hn] at hm; simp at hm)
    rw [getElem?_set_other ts n m _ hmn] at hm
    exact hInv.joined_evt m j hm
  case reading_res =>
    simp only []
    intro m j hm
    rcases getElem?_set_cases hn hm with ⟨he1, he2⟩ | ⟨hmn, hm2⟩
    · cases he2
    · exact hInv.reading_res m j hm2

end ThreadingDedup

namespace ThreadingDedup

theorem inv_dereg_match (s : DedupState) (ts : List St) (n : Nat)
    (k : String) (i : Nat) (v : Int)
    (hInv : Inv ⟨s, ts⟩) (hst : ts[n]? = some (.deregStage k i v))
    (_hrun : alookup s.running k = some i) :
    Inv ⟨{ s with running := aerase s.running k },
      ts.set n (.zeroCheckStage i v)⟩ := by
  rcases List.getElem?_eq_some.mp hst with ⟨hn, -⟩
  have hi : i < s.nextId := hInv.fresh_id n _ i hst (by simp [idOf])
  have hjc : ∀ (j : Nat), joinedCount (ts.set n (.zeroCheckStage i v)) j
      = joinedCount ts j := by
    intro j
    refine joinedCount_set_same ts n _ j hn ?_
    rcases List.getElem?_eq_some.mp hst with ⟨hn2, he⟩
    rw [he]
    simp [isJoinedOn]
  constructor
  case fresh_id =>
    simp only []
    intro m st j hm hid
    rcases getElem?_set_cases hn hm with ⟨he1, he2⟩ | ⟨hmn, hm2⟩
    · subst he2
      simp only [idOf] at hid
      cases hid
      omega
    · exact hInv.fresh_id m st j hm2 hid
  case fresh_running =>
    simp only []
    intro k' j h
    rw [alookup_aerase] at h
    by_cases hk : k' = k
    · rw [if_pos hk] at h
      cases h
    · rw [if_neg hk] at h
      exact hInv.fresh_running k' j h
  case fresh_counts =>
    simp only []
    exact hInv.fresh_counts
  case fresh_results =>
    simp only []
    exact hInv.fresh_results
  case fresh_event =>
    simp only []
    exact hInv.fresh_event
  case fresh_clear =>
    simp only []
    exact hInv.fresh_clear
  case fresh_installs =>
    simp only []
    exact hInv.fresh_installs
  case fresh_produced =>
    simp only []
    exact hInv.fresh_produced
  case installs_nodup =>
    simp only []
    exact hInv.installs_nodup
  case uniq =>
    simp only []
    intro m m' st st' j hm hm' htag htag'
    rcases getElem?_set_cases hn hm with ⟨he1, he2⟩ | ⟨hmn, hm2⟩
    · rcases getElem?_set_cases hn hm' with ⟨he1', he2'⟩ | ⟨hmn', hm2'⟩
      · rw [he1, he1']
      · subst he2
        simp only [ownerTag] at htag
        cases htag
        rw [he1]
        exact hInv.uniq n m' _ st' i hst hm2' (by simp [ownerTag]) htag'
    · rcases getElem?_set_cases hn hm' with ⟨he1', he2'⟩ | ⟨hmn', hm2'⟩
      · subst he2'
        simp only [ownerTag] at htag'
        cases htag'
        rw [he1']
        exact hInv.uniq m n st _ i hm2 hst htag (by simp [ownerTag])
      · exact hInv.uniq m m' st st' j hm2 hm2' htag htag'
  case prod_none =>
    simp only []
    intro m k' j out' hm
    rcases getElem?_set_cases hn hm with ⟨he1, he2⟩ | ⟨hmn, hm2⟩
    · cases he2
    · exact hInv.prod_none m k' j out' hm2
  case prod_phase =>
    simp only []
    intro m st j w hm hp
    rcases getElem?_set_cases hn hm with ⟨he1, he2⟩ | ⟨hmn, hm2⟩
    · subst he2
      simp only [phaseVal] at hp
      cases hp
      exact hInv.prod_phase n _ i v hst (by simp [phaseVal])
    · exact hInv.prod_phase m st j w hm2 hp
  case prod_finished =>
    simp only []
    intro m ow j r hm
    rcases getElem?_set_cases hn hm with ⟨he1, he2⟩ | ⟨hmn, hm2⟩
    · cases he2
    · exact hInv.prod_finished m ow j r hm2
  case prod_results =>
    simp only []
    exact hInv.prod_results
  case counts_some =>
    simp only []
    intro j
    have hiff : (alookup s.counts j).isSome = true ↔
        ((∃ (m : Nat) (st : St), ts[m]? = some st ∧ ownerStage st = some j) ∨
         (∃ (e : String), alookup s.produced j = some (.err e))) :=
      hInv.counts_some j
    rw [hiff]
    constructor
    · rintro (⟨m, st, hm, ho⟩ | he)
      · by_cases hmn : m = n
        · subst hmn
          rw [hst] at hm
          cases hm
          simp only [ownerStage] at ho
          cases ho
          exact Or.inl ⟨m, .zeroCheckStage i v, getElem?_set_self ts m _ hn,
            by simp [ownerStage]⟩
        · exact Or.inl ⟨m, st,
            by rw [getElem?_set_other ts n m _ hmn]; exact hm, ho⟩
      · exact Or.inr he
    · rintro (⟨m, st, hm, ho⟩ | he)
      · rcases getElem?_set_cases hn hm with ⟨he1, he2⟩ | ⟨hmn, hm2⟩
        · subst he2
          simp only [ownerStage] at ho
          cases ho
          exact Or.inl ⟨n, _, hst, by simp [ownerStage]⟩
        · exact Or.inl ⟨m, st, hm2, ho⟩
      · exact Or.inr he
  case counts_val =>
    simp only []
    intro j cv h
    rw [hjc j]
    exact hInv.counts_val j cv h
  case reg =>
    simp only []
    intro k' j h
    rw [alookup_aerase] at h
    by_cases hk : k' = k
    · rw [if_pos hk] at h
      cases h
    · rw [if_neg hk] at h
      rcases hInv.reg k' j h with ⟨m, o, hm⟩ | ⟨m, w, hm⟩ | he
      · have hmn : m ≠ n := by
          intro he0
          rw [he0, hst] at hm
          cases hm
        exact Or.inl ⟨m, o,
          by rw [getElem?_set_other ts n m _ hmn]; exact hm⟩
      · have hmn : m ≠ n := by
          intro he0
          rw [he0, hst] at hm
          cases hm
          exact hk rfl
        exact Or.inr (Or.inl ⟨m, w,
          by rw [getElem?_set_other ts n m _ hmn]; exact hm⟩)
      · exact Or.inr (Or.inr he)
  case res_iff =>
    simp only []
    intro j w
    have hiff : alookup s.results j = some w ↔
        (∃ (m : Nat), ts[m]? = some (.signalStage j w) ∨
          ts[m]? = some (.drainStage j w) ∨
          ts[m]? = some (.retireStage j w)) := hInv.res_iff j w
    rw [hiff]
    constructor
    · rintro ⟨m, hm⟩
      have hmn : m ≠ n := by
        intro he0
        rcases hm with hm | hm | hm <;> (rw [he0, hst] at hm; cases hm)
      exact ⟨m, by rw [getElem?_set_other ts n m _ hmn]; exact hm⟩
    · rintro ⟨m, hm⟩
      have hmn : m ≠ n := by
        intro he0
        rcases hm with hm | hm | hm <;>
          (rw [he0, getElem?_set_self ts n _ hn] at hm; simp at hm)
      rw [getElem?_set_other ts n m _ hmn] at hm
      exact ⟨m, hm⟩
  case evt =>
    simp only []
    intro j h
    rcases hInv.evt j h with ⟨m, w, hm⟩
    have hmn : m ≠ n := by
      intro he0
      rcases hm with hm | hm | hm | ⟨hm, -⟩ <;> (rw [he0, hst] at hm; cases hm)
    refine ⟨m, w, ?_⟩
    rw [getElem?_set_other ts n m _ hmn]
    exact hm
  case clear_owner =>
    simp only []
    intro j h
    rcases hInv.clear_owner j h with ⟨m, w, hm⟩
    have hmn : m ≠ n := by
      intro he0
      rcases hm with hm | hm | hm | hm <;> (rw [he0, hst] at hm; cases hm)
    refine ⟨m, w, ?_⟩
    rw [getElem?_set_other ts n m _ hmn]
    exact hm
  case kclear =>
    simp only []
    intro m j w hm
    have hmn : m ≠ n := by
      intro he0
      rcases hm with hm | hm <;>
        (rw [he0, getElem?_set_self ts n _ hn] at hm; simp at hm)
    rw [getElem?_set_other ts n m _ hmn] at hm
    exact hInv.kclear m j w hm
  case clear_joined =>
    simp only []
    intro j h
    rw [hjc j]
    exact hInv.clear_joined j h
  case owner_done_joined =>
    simp only []
    intro m j w hm
    rcases getElem?_set_cases hn hm with ⟨he1, he2⟩ | ⟨hmn, hm2⟩
    · cases he2
    · rw [hjc j]
      exact hInv.owner_done_joined m j w hm2
  case consumer_done =>
    simp only []
    intro m j r hm
    rcases getElem?_set_cases hn hm with ⟨he1, he2⟩ | ⟨hmn, hm2⟩
    · cases he2
    · exact hInv.consumer_done m j r hm2
  case joined_evt =>
    simp only []
    intro m j hm
    have hmn : m ≠ n := by
      intro he0
      rcases hm with hm | ⟨w, hm⟩ <;>
        (rw [he0, getElem?_set_self ts n _ hn] at hm; simp at hm)
    rw [getElem?_set_other ts n m _ hmn] at hm
    exact hInv.joined_evt m j hm
  case reading_res =>
    simp only []
    intro m j hm
    rcases getElem?_set_cases hn hm with ⟨he1, he2⟩ | ⟨hmn, hm2⟩
    · cases he2
    · exact hInv.reading_res m j hm2

end ThreadingDedup

namespace ThreadingDedup

theorem inv_dereg_skip (s : DedupState) (ts : List St) (n : Nat)
    (k : String) (i : Nat) (v : Int)
    (hInv : Inv ⟨s, ts⟩) (hst : ts[n]? = some (.deregStage k i v))
    (hno : alookup s.running k ≠ some i) :
    Inv ⟨s, ts.set n (.zeroCheckStage i v)⟩ := by
  rcases List.getElem?_eq_some.mp hst with ⟨hn, -⟩
  have hi : i < s.nextId := hInv.fresh_id n _ i hst (by simp [idOf])
  have hjc : ∀ (j : Nat), joinedCount (ts.set n (.zeroCheckStage i v)) j
      = joinedCount ts j := by
    intro j
    refine joinedCount_set_same ts n _ j hn ?_
    rcases List.getElem?_eq_some.mp hst with ⟨hn2, he⟩
    rw [he]
    simp [isJoinedOn]
  constructor
  case fresh_id =>
    simp only []
    intro m st j hm hid
    rcases getElem?_set_cases hn hm with ⟨he1, he2⟩ | ⟨hmn, hm2⟩
    · subst he2
      simp only [idOf] at hid
      cases hid
      omega
    · exact hInv.fresh_id m st j hm2 hid
  case fresh_running =>
    simp only []
    exact hInv.fresh_running
  case fresh_counts =>
    simp only []
    exact hInv.fresh_counts
  case fresh_results =>
    simp only []
    exact hInv.fresh_results
  case fresh_event =>
    simp only []
    exact hInv.fresh_event
  case fresh_clear =>
    simp only []
    exact hInv.fresh_clear
  case fresh_installs =>
    simp only []
    exact hInv.fresh_installs
  case fresh_produced =>
    simp only []
    exact hInv.fresh_produced
  case installs_nodup =>
    simp only []
    exact hInv.installs_nodup
  case uniq =>
    simp only []
    intro m m' st st' j hm hm' htag htag'
    rcases getElem?_set_cases hn hm with ⟨he1, he2⟩ | ⟨hmn, hm2⟩
    · rcases getElem?_set_cases hn hm' with ⟨he1', he2'⟩ | ⟨hmn', hm2'⟩
      · rw [he1, he1']
      · subst he2
        simp only [ownerTag] at htag
        cases htag
        rw [he1]
        exact hInv.uniq n m' _ st' i hst hm2' (by simp [ownerTag]) htag'
    · rcases getElem?_set_cases hn hm' with ⟨he1', he2'⟩ | ⟨hmn', hm2'⟩
      · subst he2'
        simp only [ownerTag] at htag'
        cases htag'
        rw [he1']
        exact hInv.uniq m n st _ i hm2 hst htag (by simp [ownerTag])
      · exact hInv.uniq m m' st st' j hm2 hm2' htag htag'
  case prod_none =>
    simp only []
    intro m k' j out' hm
    rcases getElem?_set_cases hn hm with ⟨he1, he2⟩ | ⟨hmn, hm2⟩
    · cases he2
    · exact hInv.prod_none m k' j out' hm2
  case prod_phase =>
    simp only []
    intro m st j w hm hp
    rcases getElem?_set_cases hn hm with ⟨he1, he2⟩ | ⟨hmn, hm2⟩
    · subst he2
      simp only [phaseVal] at hp
      cases hp
      exact hInv.prod_phase n _ i v hst (by simp [phaseVal])
    · exact hInv.prod_phase m st j w hm2 hp
  case prod_finished =>
    simp only []
    intro m ow j r hm
    rcases getElem?_set_cases hn hm with ⟨he1, he2⟩ | ⟨hmn, hm2⟩
    · cases he2
    · exact hInv.prod_finished m ow j r hm2
  case prod_results =>
    simp only []
    exact hInv.prod_results
  case counts_some =>
    simp only []
    intro j
    have hiff : (alookup s.counts j).isSome = true ↔
        ((∃ (m : Nat) (st : St), ts[m]? = some st ∧ ownerStage st = some j) ∨
         (∃ (e : String), alookup s.produced j = some (.err e))) :=
      hInv.counts_some j
    rw [hiff]
    constructor
    · rintro (⟨m, st, hm, ho⟩ | he)
      · by_cases hmn : m = n
        · subst hmn
          rw [hst] at hm
          cases hm
          simp only [ownerStage] at ho
          cases ho
          exact Or.inl ⟨m, .zeroCheckStage i v, getElem?_set_self ts m _ hn,
            by simp [ownerStage]⟩
        · exact Or.inl ⟨m, st,
            by rw [getElem?_set_other ts n m _ hmn]; exact hm, ho⟩
      · exact Or.inr he
    · rintro (⟨m, st, hm, ho⟩ | he)
      · rcases getElem?_set_cases hn hm with ⟨he1, he2⟩ | ⟨hmn, hm2⟩
        · subst he2
          simp only [ownerStage] at ho
          cases ho
          exact Or.inl ⟨n, _, hst, by simp [ownerStage]⟩
        · exact Or.inl ⟨m, st, hm2, ho⟩
      · exact Or.inr he
  case counts_val =>
    simp only []
    intro j cv h
    rw [hjc j]
    exact hInv.counts_val j cv h
  case reg =>
    simp only []
    intro k' j h
    rcases hInv.reg k' j h with ⟨m, o, hm⟩ | ⟨m, w, hm⟩ | he
    · have hmn : m ≠ n := by
        intro he0
        rw [he0, hst] at hm
        cases hm
      exact Or.inl ⟨m, o,
        by rw [getElem?_set_other ts n m _ hmn]; exact hm⟩
    · have hmn : m ≠ n := by
        intro he0
        rw [he0, hst] at hm
        cases hm
        exact hno h
      exact Or.inr (Or.inl ⟨m, w,
        by rw [getElem?_set_other ts n m _ hmn]; exact hm⟩)
    · exact Or.inr (Or.inr he)
  case res_iff =>
    simp only []
    intro j w
    have hiff : alookup s.results j = some w ↔
        (∃ (m : Nat), ts[m]? = some (.signalStage j w) ∨
          ts[m]? = some (.drainStage j w) ∨
          ts[m]? = some (.retireStage j w)) := hInv.res_iff j w
    rw [hiff]
    constructor
    · rintro ⟨m, hm⟩
      have hmn : m ≠ n := by
        intro he0
        rcases hm with hm | hm | hm <;> (rw [he0, hst] at hm; cases hm)
      exact ⟨m, by rw [getElem?_set_other ts n m _ hmn]; exact hm⟩
    · rintro ⟨m, hm⟩
      have hmn : m ≠ n := by
        intro he0
        rcases hm with hm | hm | hm <;>
          (rw [he0, getElem?_set_self ts n _ hn] at hm; simp at hm)
      rw [getElem?_set_other ts n m _ hmn] at hm
      exact ⟨m, hm⟩
  case evt =>
    simp only []
    intro j h
    rcases hInv.evt j h with ⟨m, w, hm⟩
    have hmn : m ≠ n := by
      intro he0
      rcases hm with hm | hm | hm | ⟨hm, -⟩ <;> (rw [he0, hst] at hm; cases hm)
    refine ⟨m, w, ?_⟩
    rw [getElem?_set_other ts n m _ hmn]
    exact hm
  case clear_owner =>
    simp only []
    intro j h
    rcases hInv.clear_owner j h with ⟨m, w, hm⟩
    have hmn : m ≠ n := by
      intro he0
      rcases hm with hm | hm | hm | hm <;> (rw [he0, hst] at hm; cases hm)
    refine ⟨m, w, ?_⟩
    rw [getElem?_set_other ts n m _ hmn]
    exact hm
  case kclear =>
    simp only []
    intro m j w hm
    have hmn : m ≠ n := by
      intro he0
      rcases hm with hm | hm <;>
        (rw [he0, getElem?_set_self ts n _ hn] at hm; simp at hm)
    rw [getElem?_set_other ts n m _ hmn] at hm
    exact hInv.kclear m j w hm
  case clear_joined =>
    simp only []
    intro j h
    rw [hjc j]
    exact hInv.clear_joined j h
  case owner_done_joined =>
    simp only []
    intro m j w hm
    rcases getElem?_set_cases hn hm with ⟨he1, he2⟩ | ⟨hmn, hm2⟩
    · cases he2
    · rw [hjc j]
      exact hInv.owner_done_joined m j w hm2
  case consumer_done =>
    simp only []
    intro m j r hm
    rcases getElem?_set_cases hn hm with ⟨he1, he2⟩ | ⟨hmn, hm2⟩
    · cases he2
    · exact hInv.consumer_done m j r hm2
  case joined_evt =>
    simp only []
    intro m j hm
    have hmn : m ≠ n := by
      intro he0
      rcases hm with hm | ⟨w, hm⟩ <;>
        (rw [he0, getElem?_set_self ts n _ hn] at hm; simp at hm)
    rw [getElem?_set_other ts n m _ hmn] at hm
    exact hInv.joined_evt m j hm
  case reading_res =>
    simp only []
    intro m j hm
    rcases getElem?_set_cases hn hm with ⟨he1, he2⟩ | ⟨hmn, hm2⟩
    · cases he2
    · exact hInv.reading_res m j hm2

end ThreadingDedup

namespace ThreadingDedup

theorem inv_zero_zero (s : DedupState) (ts : List St) (n : Nat)
    (i : Nat) (v : Int)
    (hInv : Inv ⟨s, ts⟩) (hst : ts[n]? = some (.zeroCheckStage i v))
    (hz : (alookup s.counts i).getD 0 = 0) :
    Inv ⟨{ s with counts := aerase s.counts i },
      ts.set n (.finished true i (.ok v))⟩ := by
  rcases List.getElem?_eq_some.mp hst with ⟨hn, -⟩
  have hi : i < s.nextId := hInv.fresh_id n _ i hst (by simp [idOf])
  have hpok : alookup s.produced i = some (.ok v) :=
    hInv.prod_phase n _ i v hst (by simp [phaseVal])
  have hsome : (alookup s.counts i).isSome :=
    (hInv.counts_some i).mpr (Or.inl ⟨n, _, hst, by simp [ownerStage]⟩)
  rcases Option.isSome_iff_exists.mp hsome with ⟨cv0, hcv0⟩
  have hcv00 : cv0 = 0 := by
    rw [hcv0] at hz
    exact hz
  have hj0 : joinedCount ts i = 0 := by
    have hv : cv0 = (joinedCount ts i : Int) := hInv.counts_val i cv0 hcv0
    rw [hcv00] at hv
    omega
  have hjc : ∀ (j : Nat), joinedCount (ts.set n (.finished true i (.ok v))) j
      = joinedCount ts j := by
    intro j
    refine joinedCount_set_same ts n _ j hn ?_
    rcases List.getElem?_eq_some.mp hst with ⟨hn2, he⟩
    rw [he]
    simp [isJoinedOn]
  constructor
  case fresh_id =>
    simp only []
    intro m st j hm hid
    rcases getElem?_set_cases hn hm with ⟨he1, he2⟩ | ⟨hmn, hm2⟩
    · subst he2
      simp only [idOf] at hid
      cases hid
      omega
    · exact hInv.fresh_id m st j hm2 hid
  case fresh_running =>
    simp only []
    exact hInv.fresh_running
  case fresh_counts =>
    simp only []
    intro j h
    rw [alookup_aerase] at h
    by_cases hj : j = i
    · rw [if_pos hj] at h
      cases h
    · rw [if_neg hj] at h
      exact hInv.fresh_counts j h
  case fresh_results =>
    simp only []
    exact hInv.fresh_results
  case fresh_event =>
    simp only []
    exact hInv.fresh_event
  case fresh_clear =>
    simp only []
    exact hInv.fresh_clear
  case fresh_installs =>
    simp only []
    exact hInv.fresh_installs
  case fresh_produced =>
    simp only []
    exact hInv.fresh_produced
  case installs_nodup =>
    simp only []
    exact hInv.installs_nodup
  case uniq =>
    simp only []
    intro m m' st st' j hm hm' htag htag'
    rcases getElem?_set_cases hn hm with ⟨he1, he2⟩ | ⟨hmn, hm2⟩
    · rcases getElem?_set_cases hn hm' with ⟨he1', he2'⟩ | ⟨hmn', hm2'⟩
      · rw [he1, he1']
      · subst he2
        simp only [ownerTag] at htag
        cases htag
        rw [he1]
        exact hInv.uniq n m' _ st' i hst hm2' (by simp [ownerTag]) htag'
    · rcases getElem?_set_cases hn hm' with ⟨he1', he2'⟩ | ⟨hmn', hm2'⟩
      · subst he2'
        simp only [ownerTag] at htag'
        cases htag'
        rw [he1']
        exact hInv.uniq m n st _ i hm2 hst htag (by simp [ownerTag])
      · exact hInv.uniq m m' st st' j hm2 hm2' htag htag'
  case prod_none =>
    simp only []
    intro m k' j out' hm
    rcases getElem?_set_cases hn hm with ⟨he1, he2⟩ | ⟨hmn, hm2⟩
    · cases he2
    · exact hInv.prod_none m k' j out' hm2
  case prod_phase =>
    simp only []
    intro m st j w hm hp
    rcases getElem?_set_cases hn hm with ⟨he1, he2⟩ | ⟨hmn, hm2⟩
    · subst he2
      simp [phaseVal] at hp
    · exact hInv.prod_phase m st j w hm2 hp
  case prod_finished =>
    simp only []
    intro m ow j r hm
    rcases getElem?_set_cases hn hm with ⟨he1, he2⟩ | ⟨hmn, hm2⟩
    · cases he2
      exact hpok
    · exact hInv.prod_finished m ow j r hm2
  case prod_results =>
    simp only []
    exact hInv.prod_results
  case counts_some =>
    simp only []
    intro j
    rw [alookup_aerase]
    by_cases hj : j = i
    · subst hj
      rw [if_pos rfl]
      simp only [Option.isSome_none, Bool.false_eq_true, false_iff]
      rintro (⟨m, st, hm, ho⟩ | ⟨e, he⟩)
      · rcases getElem?_set_cases hn hm with ⟨he1, he2⟩ | ⟨hmn, hm2⟩
        · subst he2
          simp [ownerStage] at ho
        · have : m = n := hInv.uniq m n _ _ j hm2 hst
            (ownerTag_of_ownerStage ho) (by simp [ownerTag])
          exact hmn this
      · rw [hpok] at he
        cases he
    · rw [if_neg hj]
      have hiff : (alookup s.counts j).isSome = true ↔
          ((∃ (m : Nat) (st : St), ts[m]? = some st ∧ ownerStage st = some j) ∨
           (∃ (e : String), alookup s.produced j = some (.err e))) :=
        hInv.counts_some j
      rw [hiff]
      constructor
      · rintro (⟨m, st, hm, ho⟩ | he)
        · have hmn : m ≠ n := by
            intro he0
            rw [he0, hst] at hm
            cases hm
            simp only [ownerStage] at ho
            cases ho
            exact hj rfl
          exact Or.inl ⟨m, st,
            by rw [getElem?_set_other ts n m _ hmn]; exact hm, ho⟩
        · exact Or.inr he
      · rintro (⟨m, st, hm, ho⟩ | he)
        · rcases getElem?_set_cases hn hm with ⟨he1, he2⟩ | ⟨hmn, hm2⟩
          · subst he2
            simp [ownerStage] at ho
          · exact Or.inl ⟨m, st, hm2, ho⟩
        · exact Or.inr he
  case counts_val =>
    simp only []
    intro j cv h
    rw [alookup_aerase] at h
    by_cases hj : j = i
    · rw [if_pos hj] at h
      cases h
    · rw [if_neg hj] at h
      rw [hjc j]
      exact hInv.counts_val j cv h
  case reg =>
    simp only []
    intro k' j h
    rcases hInv.reg k' j h with ⟨m, o, hm⟩ | ⟨m, w, hm⟩ | he
    · have hmn : m ≠ n := by
        intro he0
        rw [he0, hst] at hm
        cases hm
      exact Or.inl ⟨m, o,
        by rw [getElem?_set_other ts n m _ hmn]; exact hm⟩
    · have hmn : m ≠ n := by
        intro he0
        rw [he0, hst] at hm
        cases hm
      exact Or.inr (Or.inl ⟨m, w,
        by rw [getElem?_set_other ts n m _ hmn]; exact hm⟩)
    · exact Or.inr (Or.inr he)
  case res_iff =>
    simp only []
    intro j w
    have hiff : alookup s.results j = some w ↔
        (∃ (m : Nat), ts[m]? = some (.signalStage j w) ∨
          ts[m]? = some (.drainStage j w) ∨
          ts[m]? = some (.retireStage j w)) := hInv.res_iff j w
    rw [hiff]
    constructor
    · rintro ⟨m, hm⟩
      have hmn : m ≠ n := by
        intro he0
        rcases hm with hm | hm | hm <;> (rw [he0, hst] at hm; cases hm)
      exact ⟨m, by rw [getElem?_set_other ts n m _ hmn]; exact hm⟩
    · rintro ⟨m, hm⟩
      have hmn : m ≠ n := by
        intro he0
        rcases hm with hm | hm | hm <;>
          (rw [he0, getElem?_set_self ts n _ hn] at hm; simp at hm)
      rw [getElem?_set_other ts n m _ hmn] at hm
      exact ⟨m, hm⟩
  case evt =>
    simp only []
    intro j h
    rcases hInv.evt j h with ⟨m, w, hm⟩
    have hmn : m ≠ n := by
      intro he0
      rcases hm with hm | hm | hm | ⟨hm, -⟩ <;> (rw [he0, hst] at hm; cases hm)
    refine ⟨m, w, ?_⟩
    rw [getElem?_set_other ts n m _ hmn]
    exact hm
  case clear_owner =>
    simp only []
    intro j h
    rcases hInv.clear_owner j h with ⟨m, w, hm⟩
    have hmn : m ≠ n := by
      intro he0
      rcases hm with hm | hm | hm | hm <;> (rw [he0, hst] at hm; cases hm)
    refine ⟨m, w, ?_⟩
    rw [getElem?_set_other ts n m _ hmn]
    exact hm
  case kclear =>
    simp only []
    intro m j w hm
    have hmn : m ≠ n := by
      intro he0
      rcases hm with hm | hm <;>
        (rw [he0, getElem?_set_self ts n _ hn] at hm; simp at hm)
    rw [getElem?_set_other ts n m _ hmn] at hm
    exact hInv.kclear m j w hm
  case clear_joined =>
    simp only []
    intro j h
    rw [hjc j]
    exact hInv.clear_joined j h
  case owner_done_joined =>
    simp only []
    intro m j w hm
    rcases getElem?_set_cases hn hm with ⟨he1, he2⟩ | ⟨hmn, hm2⟩
    · cases he2
      rw [hjc i]
      exact hj0
    · rw [hjc j]
      exact hInv.owner_done_joined m j w hm2
  case consumer_done =>
    simp only []
    intro m j r hm
    rcases getElem?_set_cases hn hm with ⟨he1, he2⟩ | ⟨hmn, hm2⟩
    · cases he2
    · exact hInv.consumer_done m j r hm2
  case joined_evt =>
    simp only []
    intro m j hm
    have hmn : m ≠ n := by
      intro he0
      rcases hm with hm | ⟨w, hm⟩ <;>
        (rw [he0, getElem?_set_self ts n _ hn] at hm; simp at hm)
    rw [getElem?_set_other ts n m _ hmn] at hm
    exact hInv.joined_evt m j hm
  case reading_res =>
    simp only []
    intro m j hm
    rcases getElem?_set_cases hn hm with ⟨he1, he2⟩ | ⟨hmn, hm2⟩
    · cases he2
    · exact hInv.reading_res m j hm2

end ThreadingDedup

namespace ThreadingDedup

theorem inv_zero_pos (s : DedupState) (ts : List St) (n : Nat)
    (i : Nat) (v : Int)
    (hInv : Inv ⟨s, ts⟩) (hst : ts[n]? = some (.zeroCheckStage i v))
    (_hz : (alookup s.counts i).getD 0 ≠ 0) :
    Inv ⟨s, ts.set n (.publishStage i v)⟩ := by
  rcases List.getElem?_eq_some.mp hst with ⟨hn, -⟩
  have hi : i < s.nextId := hInv.fresh_id n _ i hst (by simp [idOf])
  have hjc : ∀ (j : Nat), joinedCount (ts.set n (.publishStage i v)) j
      = joinedCount ts j := by
    intro j
    refine joinedCount_set_same ts n _ j hn ?_
    rcases List.getElem?_eq_some.mp hst with ⟨hn2, he⟩
    rw [he]
    simp [isJoinedOn]
  constructor
  case fresh_id =>
    simp only []
    intro m st j hm hid
    rcases getElem?_set_cases hn hm with ⟨he1, he2⟩ | ⟨hmn, hm2⟩
    · subst he2
      simp only [idOf] at hid
      cases hid
      omega
    · exact hInv.fresh_id m st j hm2 hid
  case fresh_running =>
    simp only []
    exact hInv.fresh_running
  case fresh_counts =>
    simp only []
    exact hInv.fresh_counts
  case fresh_results =>
    simp only []
    exact hInv.fresh_results
  case fresh_event =>
    simp only []
    exact hInv.fresh_event
  case fresh_clear =>
    simp only []
    exact hInv.fresh_clear
  case fresh_installs =>
    simp only []
    exact hInv.fresh_installs
  case fresh_produced =>
    simp only []
    exact hInv.fresh_produced
  case installs_nodup =>
    simp only []
    exact hInv.installs_nodup
  case uniq =>
    simp only []
    intro m m' st st' j hm hm' htag htag'
    rcases getElem?_set_cases hn hm with ⟨he1, he2⟩ | ⟨hmn, hm2⟩
    · rcases getElem?_set_cases hn hm' with ⟨he1', he2'⟩ | ⟨hmn', hm2'⟩
      · rw [he1, he1']
      · subst he2
        simp only [ownerTag] at htag
        cases htag
        rw [he1]
        exact hInv.uniq n m' _ st' i hst hm2' (by simp [ownerTag]) htag'
    · rcases getElem?_set_cases hn hm' with ⟨he1', he2'⟩ | ⟨hmn', hm2'⟩
      · subst he2'
        simp only [ownerTag] at htag'
        cases htag'
        rw [he1']
        exact hInv.uniq m n st _ i hm2 hst htag (by simp [ownerTag])
      · exact hInv.uniq m m' st st' j hm2 hm2' htag htag'
  case prod_none =>
    simp only []
    intro m k' j out' hm
    rcases getElem?_set_cases hn hm with ⟨he1, he2⟩ | ⟨hmn, hm2⟩
    · cases he2
    · exact hInv.prod_none m k' j out' hm2
  case prod_phase =>
    simp only []
    intro m st j w hm hp
    rcases getElem?_set_cases hn hm with ⟨he1, he2⟩ | ⟨hmn, hm2⟩
    · subst he2
      simp only [phaseVal] at hp
      cases hp
      exact hInv.prod_phase n _ i v hst (by simp [phaseVal])
    · exact hInv.prod_phase m st j w hm2 hp
  case prod_finished =>
    simp only []
    intro m ow j r hm
    rcases getElem?_set_cases hn hm with ⟨he1, he2⟩ | ⟨hmn, hm2⟩
    · cases he2
    · exact hInv.prod_finished m ow j r hm2
  case prod_results =>
    simp only []
    exact hInv.prod_results
  case counts_some =>
    simp only []
    intro j
    have hiff : (alookup s.counts j).isSome = true ↔
        ((∃ (m : Nat) (st : St), ts[m]? = some st ∧ ownerStage st = some j) ∨
         (∃ (e : String), alookup s.produced j = some (.err e))) :=
      hInv.counts_some j
    rw [hiff]
    constructor
    · rintro (⟨m, st, hm, ho⟩ | he)
      · by_cases hmn : m = n
        · subst hmn
          rw [hst] at hm
          cases hm
          simp only [ownerStage] at ho
          cases ho
          exact Or.inl ⟨m, .publishStage i v, getElem?_set_self ts m _ hn,
            by simp [ownerStage]⟩
        · exact Or.inl ⟨m, st,
            by rw [getElem?_set_other ts n m _ hmn]; exact hm, ho⟩
      · exact Or.inr he
    · rintro (⟨m, st, hm, ho⟩ | he)
      · rcases getElem?_set_cases hn hm with ⟨he1, he2⟩ | ⟨hmn, hm2⟩
        · subst he2
          simp only [ownerStage] at ho
          cases ho
          exact Or.inl ⟨n, _, hst, by simp [ownerStage]⟩
        · exact Or.inl ⟨m, st, hm2, ho⟩
      · exact Or.inr he
  case counts_val =>
    simp only []
    intro j cv h
    rw [hjc j]
    exact hInv.counts_val j cv h
  case reg =>
    simp only []
    intro k' j h
    rcases hInv.reg k' j h with ⟨m, o, hm⟩ | ⟨m, w, hm⟩ | he
    · have hmn : m ≠ n := by
        intro he0
        rw [he0, hst] at hm
        cases hm
      exact Or.inl ⟨m, o,
        by rw [getElem?_set_other ts n m _ hmn]; exact hm⟩
    · have hmn : m ≠ n := by
        intro he0
        rw [he0, hst] at hm
        cases hm
      exact Or.inr (Or.inl ⟨m, w,
        by rw [getElem?_set_other ts n m _ hmn]; exact hm⟩)
    · exact Or.inr (Or.inr he)
  case res_iff =>
    simp only []
    intro j w
    have hiff : alookup s.results j = some w ↔
        (∃ (m : Nat), ts[m]? = some (.signalStage j w) ∨
          ts[m]? = some (.drainStage j w) ∨
          ts[m]? = some (.retireStage j w)) := hInv.res_iff j w
    rw [hiff]
    constructor
    · rintro ⟨m, hm⟩
      have hmn : m ≠ n := by
        intro he0
        rcases hm with hm | hm | hm <;> (rw [he0, hst] at hm; cases hm)
      exact ⟨m, by rw [getElem?_set_other ts n m _ hmn]; exact hm⟩
    · rintro ⟨m, hm⟩
      have hmn : m ≠ n := by
        intro he0
        rcases hm with hm | hm | hm <;>
          (rw [he0, getElem?_set_self ts n _ hn] at hm; simp at hm)
      rw [getElem?_set_other ts n m _ hmn] at hm
      exact ⟨m, hm⟩
  case evt =>
    simp only []
    intro j h
    rcases hInv.evt j h with ⟨m, w, hm⟩
    have hmn : m ≠ n := by
      intro he0
      rcases hm with hm | hm | hm | ⟨hm, -⟩ <;> (rw [he0, hst] at hm; cases hm)
    refine ⟨m, w, ?_⟩
    rw [getElem?_set_other ts n m _ hmn]
    exact hm
  case clear_owner =>
    simp only []
    intro j h
    rcases hInv.clear_owner j h with ⟨m, w, hm⟩
    have hmn : m ≠ n := by
      intro he0
      rcases hm with hm | hm | hm | hm <;> (rw [he0, hst] at hm; cases hm)
    refine ⟨m, w, ?_⟩
    rw [getElem?_set_other ts n m _ hmn]
    exact hm
  case kclear =>
    simp only []
    intro m j w hm
    have hmn : m ≠ n := by
      intro he0
      rcases hm with hm | hm <;>
        (rw [he0, getElem?_set_self ts n _ hn] at hm; simp at hm)
    rw [getElem?_set_other ts n m _ hmn] at hm
    exact hInv.kclear m j w hm
  case clear_joined =>
    simp only []
    intro j h
    rw [hjc j]
    exact hInv.clear_joined j h
  case owner_done_joined =>
    simp only []
    intro m j w hm
    rcases getElem?_set_cases hn hm with ⟨he1, he2⟩ | ⟨hmn, hm2⟩
    · cases he2
    · rw [hjc j]
      exact hInv.owner_done_joined m j w hm2
  case consumer_done =>
    simp only []
    intro m j r hm
    rcases getElem?_set_cases hn hm with ⟨he1, he2⟩ | ⟨hmn, hm2⟩
    · cases he2
    · exact hInv.consumer_done m j r hm2
  case joined_evt =>
    simp only []
    intro m j hm
    have hmn : m ≠ n := by
      intro he0
      rcases hm with hm | ⟨w, hm⟩ <;>
        (rw [he0, getElem?_set_self ts n _ hn] at hm; simp at hm)
    rw [getElem?_set_other ts n m _ hmn] at hm
    exact hInv.joined_evt m j hm
  case reading_res =>
    simp only []
    intro m j hm
    rcases getElem?_set_cases hn hm with ⟨he1, he2⟩ | ⟨hmn, hm2⟩
    · cases he2
    · exact hInv.reading_res m j hm2

end ThreadingDedup

namespace ThreadingDedup

theorem inv_publish (s : DedupState) (ts : List St) (n : Nat)
    (i : Nat) (v : Int)
    (hInv : Inv ⟨s, ts⟩) (hst : ts[n]? = some (.publishStage i v)) :
    Inv ⟨{ s with results := aupd s.results i v },
      ts.set n (.signalStage i v)⟩ := by
  rcases List.getElem?_eq_some.mp hst with ⟨hn, -⟩
  have hi : i < s.nextId := hInv.fresh_id n _ i hst (by simp [idOf])
  have hpok : alookup s.produced i = some (.ok v) :=
    hInv.prod_phase n _ i v hst (by simp [phaseVal])
  have hjc : ∀ (j : Nat), joinedCount (ts.set n (.signalStage i v)) j
      = joinedCount ts j := by
    intro j
    refine joinedCount_set_same ts n _ j hn ?_
    rcases List.getElem?_eq_some.mp hst with ⟨hn2, he⟩
    rw [he]
    simp [isJoinedOn]
  constructor
  case fresh_id =>
    simp only []
    intro m st j hm hid
    rcases getElem?_set_cases hn hm with ⟨he1, he2⟩ | ⟨hmn, hm2⟩
    · subst he2
      simp only [idOf] at hid
      cases hid
      omega
    · exact hInv.fresh_id m st j hm2 hid
  case fresh_running =>
    simp only []
    exact hInv.fresh_running
  case fresh_counts =>
    simp only []
    exact hInv.fresh_counts
  case fresh_results =>
    simp only []
    intro j h
    rw [alookup_aupd] at h
    by_cases hj : j = i
    · omega
    · rw [if_neg hj] at h
      exact hInv.fresh_results j h
  case fresh_event =>
    simp only []
    exact hInv.fresh_event
  case fresh_clear =>
    simp only []
    exact hInv.fresh_clear
  case fresh_installs =>
    simp only []
    exact hInv.fresh_installs
  case fresh_produced =>
    simp only []
    exact hInv.fresh_produced
  case installs_nodup =>
    simp only []
    exact hInv.installs_nodup
  case uniq =>
    simp only []
    intro m m' st st' j hm hm' htag htag'
    rcases getElem?_set_cases hn hm with ⟨he1, he2⟩ | ⟨hmn, hm2⟩
    · rcases getElem?_set_cases hn hm' with ⟨he1', he2'⟩ | ⟨hmn', hm2'⟩
      · rw [he1, he1']
      · subst he2
        simp only [ownerTag] at htag
        cases htag
        rw [he1]
        exact hInv.uniq n m' _ st' i hst hm2' (by simp [ownerTag]) htag'
    · rcases getElem?_set_cases hn hm' with ⟨he1', he2'⟩ | ⟨hmn', hm2'⟩
      · subst he2'
        simp only [ownerTag] at htag'
        cases htag'
        rw [he1']
        exact hInv.uniq m n st _ i hm2 hst htag (by simp [ownerTag])
      · exact hInv.uniq m m' st st' j hm2 hm2' htag htag'
  case prod_none =>
    simp only []
    intro m k' j out' hm
    rcases getElem?_set_cases hn hm with ⟨he1, he2⟩ | ⟨hmn, hm2⟩
    · cases he2
    · exact hInv.prod_none m k' j out' hm2
  case prod_phase =>
    simp only []
    intro m st j w hm hp
    rcases getElem?_set_cases hn hm with ⟨he1, he2⟩ | ⟨hmn, hm2⟩
    · subst he2
      simp only [phaseVal] at hp
      cases hp
      exact hpok
    · exact hInv.prod_phase m st j w hm2 hp
  case prod_finished =>
    simp only []
    intro m ow j r hm
    rcases getElem?_set_cases hn hm with ⟨he1, he2⟩ | ⟨hmn, hm2⟩
    · cases he2
    · exact hInv.prod_finished m ow j r hm2
  case prod_results =>
    simp only []
    intro j w h
    rw [alookup_aupd] at h
    by_cases hj : j = i
    · rw [if_pos hj] at h
      cases h
      rw [hj]
      exact hpok
    · rw [if_neg hj] at h
      exact hInv.prod_results j w h
  case counts_some =>
    simp only []
    intro j
    have hiff : (alookup s.counts j).isSome = true ↔
        ((∃ (m : Nat) (st : St), ts[m]? = some st ∧ ownerStage st = some j) ∨
         (∃ (e : String), alookup s.produced j = some (.err e))) :=
      hInv.counts_some j
    rw [hiff]
    constructor
    · rintro (⟨m, st, hm, ho⟩ | he)
      · by_cases hmn : m = n
        · subst hmn
          rw [hst] at hm
          cases hm
          simp only [ownerStage] at ho
          cases ho
          exact Or.inl ⟨m, .signalStage i v, getElem?_set_self ts m _ hn,
            by simp [ownerStage]⟩
        · exact Or.inl ⟨m, st,
            by rw [getElem?_set_other ts n m _ hmn]; exact hm, ho⟩
      · exact Or.inr he
    · rintro (⟨m, st, hm, ho⟩ | he)
      · rcases getElem?_set_cases hn hm with ⟨he1, he2⟩ | ⟨hmn, hm2⟩
        · subst he2
          simp only [ownerStage] at ho
          cases ho
          exact Or.inl ⟨n, _, hst, by simp [ownerStage]⟩
        · exact Or.inl ⟨m, st, hm2, ho⟩
      · exact Or.inr he
  case counts_val =>
    simp only []
    intro j cv h
    rw [hjc j]
    exact hInv.counts_val j cv h
  case reg =>
    simp only []
    intro k' j h
    rcases hInv.reg k' j h with ⟨m, o, hm⟩ | ⟨m, w, hm⟩ | he
    · have hmn : m ≠ n := by
        intro he0
        rw [he0, hst] at hm
        cases hm
      exact Or.inl ⟨m, o,
        by rw [getElem?_set_other ts n m _ hmn]; exact hm⟩
    · have hmn : m ≠ n := by
        intro he0
        rw [he0, hst] at hm
        cases hm
      exact Or.inr (Or.inl ⟨m, w,
        by rw [getElem?_set_other ts n m _ hmn]; exact hm⟩)
    · exact Or.inr (Or.inr he)
  case res_iff =>
    simp only []
    intro j w
    rw [alookup_aupd]
    by_cases hj : j = i
    · subst hj
      rw [if_pos rfl]
      constructor
      · intro h
        cases h
        exact ⟨n, Or.inl (getElem?_set_self ts n _ hn)⟩
      · rintro ⟨m, hm⟩
        rcases hm with hm | hm | hm
        · rcases getElem?_set_cases hn hm with ⟨he1, he2⟩ | ⟨hmn, hm2⟩
          · cases he2
            rfl
          · have : m = n := hInv.uniq m n _ _ j hm2 hst
              (by simp [ownerTag]) (by simp [ownerTag])
            exact absurd this hmn
        · rcases getElem?_set_cases hn hm with ⟨he1, he2⟩ | ⟨hmn, hm2⟩
          · cases he2
          · have : m = n := hInv.uniq m n _ _ j hm2 hst
              (by simp [ownerTag]) (by simp [ownerTag])
            exact absurd this hmn
        · rcases getElem?_set_cases hn hm with ⟨he1, he2⟩ | ⟨hmn, hm2⟩
          · cases he2
          · have : m = n := hInv.uniq m n _ _ j hm2 hst
              (by simp [ownerTag]) (by simp [ownerTag])
            exact absurd this hmn
    · rw [if_neg hj]
      have hiff : alookup s.results j = some w ↔
          (∃ (m : Nat), ts[m]? = some (.signalStage j w) ∨
            ts[m]? = some (.drainStage j w) ∨
            ts[m]? = some (.retireStage j w)) := hInv.res_iff j w
      rw [hiff]
      constructor
      · rintro ⟨m, hm⟩
        have hmn : m ≠ n := by
          intro he0
          rcases hm with hm | hm | hm <;> (rw [he0, hst] at hm; cases hm)
        exact ⟨m, by rw [getElem?_set_other ts n m _ hmn]; exact hm⟩
      · rintro ⟨m, hm⟩
        have hmn : m ≠ n := by
          intro he0
          rcases hm with hm | hm | hm <;>
            (rw [he0, getElem?_set_self ts n _ hn] at hm;
             (cases hm) <;> exact hj rfl)
        rw [getElem?_set_other ts n m _ hmn] at hm
        exact ⟨m, hm⟩
  case evt =>
    simp only []
    intro j h
    rcases hInv.evt j h with ⟨m, w, hm⟩
    have hmn : m ≠ n := by
      intro he0
      rcases hm with hm | hm | hm | ⟨hm, -⟩ <;> (rw [he0, hst] at hm; cases hm)
    refine ⟨m, w, ?_⟩
    rw [getElem?_set_other ts n m _ hmn]
    exact hm
  case clear_owner =>
    simp only []
    intro j h
    rcases hInv.clear_owner j h with ⟨m, w, hm⟩
    have hmn : m ≠ n := by
      intro he0
      rcases hm with hm | hm | hm | hm <;> (rw [he0, hst] at hm; cases hm)
    refine ⟨m, w, ?_⟩
    rw [getElem?_set_other ts n m _ hmn]
    exact hm
  case kclear =>
    simp only []
    intro m j w hm
    have hmn : m ≠ n := by
      intro he0
      rcases hm with hm | hm <;>
        (rw [he0, getElem?_set_self ts n _ hn] at hm; simp at hm)
    rw [getElem?_set_other ts n m _ hmn] at hm
    exact hInv.kclear m j w hm
  case clear_joined =>
    simp only []
    intro j h
    rw [hjc j]
    exact hInv.clear_joined j h
  case owner_done_joined =>
    simp only []
    intro m j w hm
    rcases getElem?_set_cases hn hm with ⟨he1, he2⟩ | ⟨hmn, hm2⟩
    · cases he2
    · rw [hjc j]
      exact hInv.owner_done_joined m j w hm2
  case consumer_done =>
    simp only []
    intro m j r hm
    rcases getElem?_set_cases hn hm with ⟨he1, he2⟩ | ⟨hmn, hm2⟩
    · cases he2
    · exact hInv.consumer_done m j r hm2
  case joined_evt =>
    simp only []
    intro m j hm
    have hmn : m ≠ n := by
      intro he0
      rcases hm with hm | ⟨w, hm⟩ <;>
        (rw [he0, getElem?_set_self ts n _ hn] at hm; simp at hm)
    rw [getElem?_set_other ts n m _ hmn] at hm
    exact hInv.joined_evt m j hm
  case reading_res =>
    simp only []
    intro m j hm
    rcases getElem?_set_cases hn hm with ⟨he1, he2⟩ | ⟨hmn, hm2⟩
    · cases he2
    · rcases hInv.reading_res m j hm2 with ⟨w, hw⟩
      by_cases hj : j = i
      · subst hj
        exact ⟨v, by rw [alookup_aupd, if_pos rfl]⟩
      · exact ⟨w, by rw [alookup_aupd, if_neg hj]; exact hw⟩

end ThreadingDedup

namespace ThreadingDedup

theorem inv_signal (s : DedupState) (ts : List St) (n : Nat)
    (i : Nat) (v : Int)
    (hInv : Inv ⟨s, ts⟩) (hst : ts[n]? = some (.signalStage i v)) :
    Inv ⟨{ s with eventSet := i :: s.eventSet },
      ts.set n (.drainStage i v)⟩ := by
  rcases List.getElem?_eq_some.mp hst with ⟨hn, -⟩
  have hi : i < s.nextId := hInv.fresh_id n _ i hst (by simp [idOf])
  have hpok : alookup s.produced i = some (.ok v) :=
    hInv.prod_phase n _ i v hst (by simp [phaseVal])
  have hjc : ∀ (j : Nat), joinedCount (ts.set n (.drainStage i v)) j
      = joinedCount ts j := by
    intro j
    refine joinedCount_set_same ts n _ j hn ?_
    rcases List.getElem?_eq_some.mp hst with ⟨hn2, he⟩
    rw [he]
    simp [isJoinedOn]
  constructor
  case fresh_id =>
    simp only []
    intro m st j hm hid
    rcases getElem?_set_cases hn hm with ⟨he1, he2⟩ | ⟨hmn, hm2⟩
    · subst he2
      simp only [idOf] at hid
      cases hid
      omega
    · exact hInv.fresh_id m st j hm2 hid
  case fresh_running =>
    simp only []
    exact hInv.fresh_running
  case fresh_counts =>
    simp only []
    exact hInv.fresh_counts
  case fresh_results =>
    simp only []
    exact hInv.fresh_results
  case fresh_event =>
    simp only []
    intro j h
    rcases List.mem_cons.mp h with rfl | h
    · omega
    · exact hInv.fresh_event j h
  case fresh_clear =>
    simp only []
    exact hInv.fresh_clear
  case fresh_installs =>
    simp only []
    exact hInv.fresh_installs
  case fresh_produced =>
    simp only []
    exact hInv.fresh_produced
  case installs_nodup =>
    simp only []
    exact hInv.installs_nodup
  case uniq =>
    simp only []
    intro m m' st st' j hm hm' htag htag'
    rcases getElem?_set_cases hn hm with ⟨he1, he2⟩ | ⟨hmn, hm2⟩
    · rcases getElem?_set_cases hn hm' with ⟨he1', he2'⟩ | ⟨hmn', hm2'⟩
      · rw [he1, he1']
      · subst he2
        simp only [ownerTag] at htag
        cases htag
        rw [he1]
        exact hInv.uniq n m' _ st' i hst hm2' (by simp [ownerTag]) htag'
    · rcases getElem?_set_cases hn hm' with ⟨he1', he2'⟩ | ⟨hmn', hm2'⟩
      · subst he2'
        simp only [ownerTag] at htag'
        cases htag'
        rw [he1']
        exact hInv.uniq m n st _ i hm2 hst htag (by simp [ownerTag])
      · exact hInv.uniq m m' st st' j hm2 hm2' htag htag'
  case prod_none =>
    simp only []
    intro m k' j out' hm
    rcases getElem?_set_cases hn hm with ⟨he1, he2⟩ | ⟨hmn, hm2⟩
    · cases he2
    · exact hInv.prod_none m k' j out' hm2
  case prod_phase =>
    simp only []
    intro m st j w hm hp
    rcases getElem?_set_cases hn hm with ⟨he1, he2⟩ | ⟨hmn, hm2⟩
    · subst he2
      simp only [phaseVal] at hp
      cases hp
      exact hpok
    · exact hInv.prod_phase m st j w hm2 hp
  case prod_finished =>
    simp only []
    intro m ow j r hm
    rcases getElem?_set_cases hn hm with ⟨he1, he2⟩ | ⟨hmn, hm2⟩
    · cases he2
    · exact hInv.prod_finished m ow j r hm2
  case prod_results =>
    simp only []
    exact hInv.prod_results
  case counts_some =>
    simp only []
    intro j
    have hiff : (alookup s.counts j).isSome = true ↔
        ((∃ (m : Nat) (st : St), ts[m]? = some st ∧ ownerStage st = some j) ∨
         (∃ (e : String), alookup s.produced j = some (.err e))) :=
      hInv.counts_some j
    rw [hiff]
    constructor
    · rintro (⟨m, st, hm, ho⟩ | he)
      · by_cases hmn : m = n
        · subst hmn
          rw [hst] at hm
          cases hm
          simp only [ownerStage] at ho
          cases ho
          exact Or.inl ⟨m, .drainStage i v, getElem?_set_self ts m _ hn,
            by simp [ownerStage]⟩
        · exact Or.inl ⟨m, st,
            by rw [getElem?_set_other ts n m _ hmn]; exact hm, ho⟩
      · exact Or.inr he
    · rintro (⟨m, st, hm, ho⟩ | he)
      · rcases getElem?_set_cases hn hm with ⟨he1, he2⟩ | ⟨hmn, hm2⟩
        · subst he2
          simp only [ownerStage] at ho
          cases ho
          exact Or.inl ⟨n, _, hst, by simp [ownerStage]⟩
        · exact Or.inl ⟨m, st, hm2, ho⟩
      · exact Or.inr he
  case counts_val =>
    simp only []
    intro j cv h
    rw [hjc j]
    exact hInv.counts_val j cv h
  case reg =>
    simp only []
    intro k' j h
    rcases hInv.reg k' j h with ⟨m, o, hm⟩ | ⟨m, w, hm⟩ | he
    · have hmn : m ≠ n := by
        intro he0
        rw [he0, hst] at hm
        cases hm
      exact Or.inl ⟨m, o,
        by rw [getElem?_set_other ts n m _ hmn]; exact hm⟩
    · have hmn : m ≠ n := by
        intro he0
        rw [he0, hst] at hm
        cases hm
      exact Or.inr (Or.inl ⟨m, w,
        by rw [getElem?_set_other ts n m _ hmn]; exact hm⟩)
    · exact Or.inr (Or.inr he)
  case res_iff =>
    simp only []
    intro j w
    have hiff : alookup s.results j = some w ↔
        (∃ (m : Nat), ts[m]? = some (.signalStage j w) ∨
          ts[m]? = some (.drainStage j w) ∨
          ts[m]? = some (.retireStage j w)) := hInv.res_iff j w
    rw [hiff]
    constructor
    · rintro ⟨m, hm⟩
      by_cases hmn : m = n
      · subst hmn
        rcases hm with hm | hm | hm <;> rw [hst] at hm <;> cases hm
        exact ⟨m, Or.inr (Or.inl (getElem?_set_self ts m _ hn))⟩
      · exact ⟨m, by rw [getElem?_set_other ts n m _ hmn]; exact hm⟩
    · rintro ⟨m, hm⟩
      rcases hm with hm | hm | hm
      · rcases getElem?_set_cases hn hm with ⟨he1, he2⟩ | ⟨hmn, hm2⟩
        · cases he2
        · exact ⟨m, Or.inl hm2⟩
      · rcases getElem?_set_cases hn hm with ⟨he1, he2⟩ | ⟨hmn, hm2⟩
        · cases he2
          exact ⟨n, Or.inl hst⟩
        · exact ⟨m, Or.inr (Or.inl hm2)⟩
      · rcases getElem?_set_cases hn hm with ⟨he1, he2⟩ | ⟨hmn, hm2⟩
        · cases he2
        · exact ⟨m, Or.inr (Or.inr hm2)⟩
  case evt =>
    simp only []
    intro j h
    rcases List.mem_cons.mp h with rfl | h
    · exact ⟨n, v, Or.inl (getElem?_set_self ts n _ hn)⟩
    · rcases hInv.evt j h with ⟨m, w, hm⟩
      have hmn : m ≠ n := by
        intro he0
        rcases hm with hm | hm | hm | ⟨hm, -⟩ <;> (rw [he0, hst] at hm; cases hm)
      refine ⟨m, w, ?_⟩
      rw [getElem?_set_other ts n m _ hmn]
      rcases hm with hm | hm | hm | ⟨hm, hcl⟩
      · exact Or.inl hm
      · exact Or.inr (Or.inl hm)
      · exact Or.inr (Or.inr (Or.inl hm))
      · exact Or.inr (Or.inr (Or.inr ⟨hm, hcl⟩))
  case clear_owner =>
    simp only []
    intro j h
    rcases hInv.clear_owner j h with ⟨m, w, hm⟩
    have hmn : m ≠ n := by
      intro he0
      rcases hm with hm | hm | hm | hm <;> (rw [he0, hst] at hm; cases hm)
    refine ⟨m, w, ?_⟩
    rw [getElem?_set_other ts n m _ hmn]
    exact hm
  case kclear =>
    simp only []
    intro m j w hm
    have hmn : m ≠ n := by
      intro he0
      rcases hm with hm | hm <;>
        (rw [he0, getElem?_set_self ts n _ hn] at hm; simp at hm)
    rw [getElem?_set_other ts n m _ hmn] at hm
    exact hInv.kclear m j w hm
  case clear_joined =>
    simp only []
    intro j h
    rw [hjc j]
    exact hInv.clear_joined j h
  case owner_done_joined =>
    simp only []
    intro m j w hm
    rcases getElem?_set_cases hn hm with ⟨he1, he2⟩ | ⟨hmn, hm2⟩
    · cases he2
    · rw [hjc j]
      exact hInv.owner_done_joined m j w hm2
  case consumer_done =>
    simp only []
    intro m j r hm
    rcases getElem?_set_cases hn hm with ⟨he1, he2⟩ | ⟨hmn, hm2⟩
    · cases he2
    · rcases hInv.consumer_done m j r hm2 with ⟨hev, hok⟩
      exact ⟨List.mem_cons_of_mem i hev, hok⟩
  case joined_evt =>
    simp only []
    intro m j hm
    have hmn : m ≠ n := by
      intro he0
      rcases hm with hm | ⟨w, hm⟩ <;>
        (rw [he0, getElem?_set_self ts n _ hn] at hm; simp at hm)
    rw [getElem?_set_other ts n m _ hmn] at hm
    exact List.mem_cons_of_mem i (hInv.joined_evt m j hm)
  case reading_res =>
    simp only []
    intro m j hm
    rcases getElem?_set_cases hn hm with ⟨he1, he2⟩ | ⟨hmn, hm2⟩
    · cases he2
    · exact hInv.reading_res m j hm2

end ThreadingDedup

namespace ThreadingDedup

theorem inv_drain_go (s : DedupState) (ts : List St) (n : Nat)
    (i : Nat) (v : Int)
    (hInv : Inv ⟨s, ts⟩) (hst : ts[n]? = some (.drainStage i v))
    (hcl : i ∈ s.clearSet) :
    Inv ⟨s, ts.set n (.retireStage i v)⟩ := by
  rcases List.getElem?_eq_some.mp hst with ⟨hn, -⟩
  have hi : i < s.nextId := hInv.fresh_id n _ i hst (by simp [idOf])
  have hpok : alookup s.produced i = some (.ok v) :=
    hInv.prod_phase n _ i v hst (by simp [phaseVal])
  have hjc : ∀ (j : Nat), joinedCount (ts.set n (.retireStage i v)) j
      = joinedCount ts j := by
    intro j
    refine joinedCount_set_same ts n _ j hn ?_
    rcases List.getElem?_eq_some.mp hst with ⟨hn2, he⟩
    rw [he]
    simp [isJoinedOn]
  constructor
  case fresh_id =>
    simp only []
    intro m st j hm hid
    rcases getElem?_set_cases hn hm with ⟨he1, he2⟩ | ⟨hmn, hm2⟩
    · subst he2
      simp only [idOf] at hid
      cases hid
      omega
    · exact hInv.fresh_id m st j hm2 hid
  case fresh_running =>
    simp only []
    exact hInv.fresh_running
  case fresh_counts =>
    simp only []
    exact hInv.fresh_counts
  case fresh_results =>
    simp only []
    exact hInv.fresh_results
  case fresh_event =>
    simp only []
    exact hInv.fresh_event
  case fresh_clear =>
    simp only []
    exact hInv.fresh_clear
  case fresh_installs =>
    simp only []
    exact hInv.fresh_installs
  case fresh_produced =>
    simp only []
    exact hInv.fresh_produced
  case installs_nodup =>
    simp only []
    exact hInv.installs_nodup
  case uniq =>
    simp only []
    intro m m' st st' j hm hm' htag htag'
    rcases getElem?_set_cases hn hm with ⟨he1, he2⟩ | ⟨hmn, hm2⟩
    · rcases getElem?_set_cases hn hm' with ⟨he1', he2'⟩ | ⟨hmn', hm2'⟩
      · rw [he1, he1']
      · subst he2
        simp only [ownerTag] at htag
        cases htag
        rw [he1]
        exact hInv.uniq n m' _ st' i hst hm2' (by simp [ownerTag]) htag'
    · rcases getElem?_set_cases hn hm' with ⟨he1', he2'⟩ | ⟨hmn', hm2'⟩
      · subst he2'
        simp only [ownerTag] at htag'
        cases htag'
        rw [he1']
        exact hInv.uniq m n st _ i hm2 hst htag (by simp [ownerTag])
      · exact hInv.uniq m m' st st' j hm2 hm2' htag htag'
  case prod_none =>
    simp only []
    intro m k' j out' hm
    rcases getElem?_set_cases hn hm with ⟨he1, he2⟩ | ⟨hmn, hm2⟩
    · cases he2
    · exact hInv.prod_none m k' j out' hm2
  case prod_phase =>
    simp only []
    intro m st j w hm hp
    rcases getElem?_set_cases hn hm with ⟨he1, he2⟩ | ⟨hmn, hm2⟩
    · subst he2
      simp only [phaseVal] at hp
      cases hp
      exact hpok
    · exact hInv.prod_phase m st j w hm2 hp
  case prod_finished =>
    simp only []
    intro m ow j r hm
    rcases getElem?_set_cases hn hm with ⟨he1, he2⟩ | ⟨hmn, hm2⟩
    · cases he2
    · exact hInv.prod_finished m ow j r hm2
  case prod_results =>
    simp only []
    exact hInv.prod_results
  case counts_some =>
    simp only []
    intro j
    have hiff : (alookup s.counts j).isSome = true ↔
        ((∃ (m : Nat) (st : St), ts[m]? = some st ∧ ownerStage st = some j) ∨
         (∃ (e : String), alookup s.produced j = some (.err e))) :=
      hInv.counts_some j
    rw [hiff]
    constructor
    · rintro (⟨m, st, hm, ho⟩ | he)
      · by_cases hmn : m = n
        · subst hmn
          rw [hst] at hm
          cases hm
          simp only [ownerStage] at ho
          cases ho
          exact Or.inl ⟨m, .retireStage i v, getElem?_set_self ts m _ hn,
            by simp [ownerStage]⟩
        · exact Or.inl ⟨m, st,
            by rw [getElem?_set_other ts n m _ hmn]; exact hm, ho⟩
      · exact Or.inr he
    · rintro (⟨m, st, hm, ho⟩ | he)
      · rcases getElem?_set_cases hn hm with ⟨he1, he2⟩ | ⟨hmn, hm2⟩
        · subst he2
          simp only [ownerStage] at ho
          cases ho
          exact Or.inl ⟨n, _, hst, by simp [ownerStage]⟩
        · exact Or.inl ⟨m, st, hm2, ho⟩
      · exact Or.inr he
  case counts_val =>
    simp only []
    intro j cv h
    rw [hjc j]
    exact hInv.counts_val j cv h
  case reg =>
    simp only []
    intro k' j h
    rcases hInv.reg k' j h with ⟨m, o, hm⟩ | ⟨m, w, hm⟩ | he
    · have hmn : m ≠ n := by
        intro he0
        rw [he0, hst] at hm
        cases hm
      exact Or.inl ⟨m, o,
        by rw [getElem?_set_other ts n m _ hmn]; exact hm⟩
    · have hmn : m ≠ n := by
        intro he0
        rw [he0, hst] at hm
        cases hm
      exact Or.inr (Or.inl ⟨m, w,
        by rw [getElem?_set_other ts n m _ hmn]; exact hm⟩)
    · exact Or.inr (Or.inr he)
  case res_iff =>
    simp only []
    intro j w
    have hiff : alookup s.results j = some w ↔
        (∃ (m : Nat), ts[m]? = some (.signalStage j w) ∨
          ts[m]? = some (.drainStage j w) ∨
          ts[m]? = some (.retireStage j w)) := hInv.res_iff j w
    rw [hiff]
    constructor
    · rintro ⟨m, hm⟩
      by_cases hmn : m = n
      · subst hmn
        rcases hm with hm | hm | hm <;> rw [hst] at hm <;> cases hm
        exact ⟨m, Or.inr (Or.inr (getElem?_set_self ts m _ hn))⟩
      · exact ⟨m, by rw [getElem?_set_other ts n m _ hmn]; exact hm⟩
    · rintro ⟨m, hm⟩
      rcases hm with hm | hm | hm
      · rcases getElem?_set_cases hn hm with ⟨he1, he2⟩ | ⟨hmn, hm2⟩
        · cases he2
        · exact ⟨m, Or.inl hm2⟩
      · rcases getElem?_set_cases hn hm with ⟨he1, he2⟩ | ⟨hmn, hm2⟩
        · cases he2
        · exact ⟨m, Or.inr (Or.inl hm2)⟩
      · rcases getElem?_set_cases hn hm with ⟨he1, he2⟩ | ⟨hmn, hm2⟩
        · cases he2
          exact ⟨n, Or.inr (Or.inl hst)⟩
        · exact ⟨m, Or.inr (Or.inr hm2)⟩
  case evt =>
    simp only []
    intro j h
    rcases hInv.evt j h with ⟨m, w, hm⟩
    by_cases hmn : m = n
    · subst hmn
      rcases hm with hm | hm | hm | ⟨hm, -⟩ <;> rw [hst] at hm <;> cases hm
      exact ⟨m, v, Or.inr (Or.inl (getElem?_set_self ts m _ hn))⟩
    · refine ⟨m, w, ?_⟩
      rw [getElem?_set_other ts n m _ hmn]
      exact hm
  case clear_owner =>
    simp only []
    intro j h
    rcases hInv.clear_owner j h with ⟨m, w, hm⟩
    by_cases hmn : m = n
    · subst hmn
      rcases hm with hm | hm | hm | hm <;> rw [hst] at hm <;> cases hm
      exact ⟨m, v, Or.inr (Or.inl (getElem?_set_self ts m _ hn))⟩
    · refine ⟨m, w, ?_⟩
      rw [getElem?_set_other ts n m _ hmn]
      exact hm
  case kclear =>
    simp only []
    intro m j w hm
    rcases hm with hm | hm
    · rcases getElem?_set_cases hn hm with ⟨he1, he2⟩ | ⟨hmn, hm2⟩
      · cases he2
        exact hcl
      · exact hInv.kclear m j w (Or.inl hm2)
    · rcases getElem?_set_cases hn hm with ⟨he1, he2⟩ | ⟨hmn, hm2⟩
      · cases he2
      · exact hInv.kclear m j w (Or.inr hm2)
  case clear_joined =>
    simp only []
    intro j h
    rw [hjc j]
    exact hInv.clear_joined j h
  case owner_done_joined =>
    simp only []
    intro m j w hm
    rcases getElem?_set_cases hn hm with ⟨he1, he2⟩ | ⟨hmn, hm2⟩
    · cases he2
    · rw [hjc j]
      exact hInv.owner_done_joined m j w hm2
  case consumer_done =>
    simp only []
    intro m j r hm
    rcases getElem?_set_cases hn hm with ⟨he1, he2⟩ | ⟨hmn, hm2⟩
    · cases he2
    · exact hInv.consumer_done m j r hm2
  case joined_evt =>
    simp only []
    intro m j hm
    have hmn : m ≠ n := by
      intro he0
      rcases hm with hm | ⟨w, hm⟩ <;>
        (rw [he0, getElem?_set_self ts n _ hn] at hm; simp at hm)
    rw [getElem?_set_other ts n m _ hmn] at hm
    exact hInv.joined_evt m j hm
  case reading_res =>
    simp only []
    intro m j hm
    rcases getElem?_set_cases hn hm with ⟨he1, he2⟩ | ⟨hmn, hm2⟩
    · cases he2
    · exact hInv.reading_res m j hm2

end ThreadingDedup

namespace ThreadingDedup

theorem inv_retire (s : DedupState) (ts : List St) (n : Nat)
    (i : Nat) (v : Int)
    (hInv : Inv ⟨s, ts⟩) (hst : ts[n]? = some (.retireStage i v)) :
    Inv ⟨{ s with results := aerase s.results i },
      ts.set n (.removeCountStage i v)⟩ := by
  rcases List.getElem?_eq_some.mp hst with ⟨hn, -⟩
  have hi : i < s.nextId := hInv.fresh_id n _ i hst (by simp [idOf])
  have hpok : alookup s.produced i = some (.ok v) :=
    hInv.prod_phase n _ i v hst (by simp [phaseVal])
  have hcl : i ∈ s.clearSet := hInv.kclear n i v (Or.inl hst)
  have hjc : ∀ (j : Nat), joinedCount (ts.set n (.removeCountStage i v)) j
      = joinedCount ts j := by
    intro j
    refine joinedCount_set_same ts n _ j hn ?_
    rcases List.getElem?_eq_some.mp hst with ⟨hn2, he⟩
    rw [he]
    simp [isJoinedOn]
  constructor
  case fresh_id =>
    simp only []
    intro m st j hm hid
    rcases getElem?_set_cases hn hm with ⟨he1, he2⟩ | ⟨hmn, hm2⟩
    · subst he2
      simp only [idOf] at hid
      cases hid
      omega
    · exact hInv.fresh_id m st j hm2 hid
  case fresh_running =>
    simp only []
    exact hInv.fresh_running
  case fresh_counts =>
    simp only []
    exact hInv.fresh_counts
  case fresh_results =>
    simp only []
    intro j h
    rw [alookup_aerase] at h
    by_cases hj : j = i
    · rw [if_pos hj] at h
      cases h
    · rw [if_neg hj] at h
      exact hInv.fresh_results j h
  case fresh_event =>
    simp only []
    exact hInv.fresh_event
  case fresh_clear =>
    simp only []
    exact hInv.fresh_clear
  case fresh_installs =>
    simp only []
    exact hInv.fresh_installs
  case fresh_produced =>
    simp only []
    exact hInv.fresh_produced
  case installs_nodup =>
    simp only []
    exact hInv.installs_nodup
  case uniq =>
    simp only []
    intro m m' st st' j hm hm' htag htag'
    rcases getElem?_set_cases hn hm with ⟨he1, he2⟩ | ⟨hmn, hm2⟩
    · rcases getElem?_set_cases hn hm' with ⟨he1', he2'⟩ | ⟨hmn', hm2'⟩
      · rw [he1, he1']
      · subst he2
        simp only [ownerTag] at htag
        cases htag
        rw [he1]
        exact hInv.uniq n m' _ st' i hst hm2' (by simp [ownerTag]) htag'
    · rcases getElem?_set_cases hn hm' with ⟨he1', he2'⟩ | ⟨hmn', hm2'⟩
      · subst he2'
        simp only [ownerTag] at htag'
        cases htag'
        rw [he1']
        exact hInv.uniq m n st _ i hm2 hst htag (by simp [ownerTag])
      · exact hInv.uniq m m' st st' j hm2 hm2' htag htag'
  case prod_none =>
    simp only []
    intro m k' j out' hm
    rcases getElem?_set_cases hn hm with ⟨he1, he2⟩ | ⟨hmn, hm2⟩
    · cases he2
    · exact hInv.prod_none m k' j out' hm2
  case prod_phase =>
    simp only []
    intro m st j w hm hp
    rcases getElem?_set_cases hn hm with ⟨he1, he2⟩ | ⟨hmn, hm2⟩
    · subst he2
      simp only [phaseVal] at hp
      cases hp
      exact hpok
    · exact hInv.prod_phase m st j w hm2 hp
  case prod_finished =>
    simp only []
    intro m ow j r hm
    rcases getElem?_set_cases hn hm with ⟨he1, he2⟩ | ⟨hmn, hm2⟩
    · cases he2
    · exact hInv.prod_finished m ow j r hm2
  case prod_results =>
    simp only []
    intro j w h
    rw [alookup_aerase] at h
    by_cases hj : j = i
    · rw [if_pos hj] at h
      cases h
    · rw [if_neg hj] at h
      exact hInv.prod_results j w h
  case counts_some =>
    simp only []
    intro j
    have hiff : (alookup s.counts j).isSome = true ↔
        ((∃ (m : Nat) (st : St), ts[m]? = some st ∧ ownerStage st = some j) ∨
         (∃ (e : String), alookup s.produced j = some (.err e))) :=
      hInv.counts_some j
    rw [hiff]
    constructor
    · rintro (⟨m, st, hm, ho⟩ | he)
      · by_cases hmn : m = n
        · subst hmn
          rw [hst] at hm
          cases hm
          simp only [ownerStage] at ho
          cases ho
          exact Or.inl ⟨m, .removeCountStage i v, getElem?_set_self ts m _ hn,
            by simp [ownerStage]⟩
        · exact Or.inl ⟨m, st,
            by rw [getElem?_set_other ts n m _ hmn]; exact hm, ho⟩
      · exact Or.inr he
    · rintro (⟨m, st, hm, ho⟩ | he)
      · rcases getElem?_set_cases hn hm with ⟨he1, he2⟩ | ⟨hmn, hm2⟩
        · subst he2
          simp only [ownerStage] at ho
          cases ho
          exact Or.inl ⟨n, _, hst, by simp [ownerStage]⟩
        · exact Or.inl ⟨m, st, hm2, ho⟩
      · exact Or.inr he
  case counts_val =>
    simp only []
    intro j cv h
    rw [hjc j]
    exact hInv.counts_val j cv h
  case reg =>
    simp only []
    intro k' j h
    rcases hInv.reg k' j h with ⟨m, o, hm⟩ | ⟨m, w, hm⟩ | he
    · have hmn : m ≠ n := by
        intro he0
        rw [he0, hst] at hm
        cases hm
      exact Or.inl ⟨m, o,
        by rw [getElem?_set_other ts n m _ hmn]; exact hm⟩
    · have hmn : m ≠ n := by
        intro he0
        rw [he0, hst] at hm
        cases hm
      exact Or.inr (Or.inl ⟨m, w,
        by rw [getElem?_set_other ts n m _ hmn]; exact hm⟩)
    · exact Or.inr (Or.inr he)
  case res_iff =>
    simp only []
    intro j w
    rw [alookup_aerase]
    by_cases hj : j = i
    · subst hj
      rw [if_pos rfl]
      constructor
      · intro h
        cases h
      · rintro ⟨m, hm⟩
        rcases hm with hm | hm | hm
        · rcases getElem?_set_cases hn hm with ⟨he1, he2⟩ | ⟨hmn, hm2⟩
          · cases he2
          · have : m = n := hInv.uniq m n _ _ j hm2 hst
              (by simp [ownerTag]) (by simp [ownerTag])
            exact absurd this hmn
        · rcases getElem?_set_cases hn hm with ⟨he1, he2⟩ | ⟨hmn, hm2⟩
          · cases he2
          · have : m = n := hInv.uniq m n _ _ j hm2 hst
              (by simp [ownerTag]) (by simp [ownerTag])
            exact absurd this hmn
        · rcases getElem?_set_cases hn hm with ⟨he1, he2⟩ | ⟨hmn, hm2⟩
          · cases he2
          · have : m = n := hInv.uniq m n _ _ j hm2 hst
              (by simp [ownerTag]) (by simp [ownerTag])
            exact absurd this hmn
    · rw [if_neg hj]
      have hiff : alookup s.results j = some w ↔
          (∃ (m : Nat), ts[m]? = some (.signalStage j w) ∨
            ts[m]? = some (.drainStage j w) ∨
            ts[m]? = some (.retireStage j w)) := hInv.res_iff j w
      rw [hiff]
      constructor
      · rintro ⟨m, hm⟩
        have hmn : m ≠ n := by
          intro he0
          rcases hm with hm | hm | hm <;>
            (rw [he0, hst] at hm; (cases hm) <;> exact hj rfl)
        exact ⟨m, by rw [getElem?_set_other ts n m _ hmn]; exact hm⟩
      · rintro ⟨m, hm⟩
        have hmn : m ≠ n := by
          intro he0
          rcases hm with hm | hm | hm <;>
            (rw [he0, getElem?_set_self ts n _ hn] at hm; cases hm)
        rw [getElem?_set_other ts n m _ hmn] at hm
        exact ⟨m, hm⟩
  case evt =>
    simp only []
    intro j h
    rcases hInv.evt j h with ⟨m, w, hm⟩
    by_cases hmn : m = n
    · subst hmn
      rcases hm with hm | hm | hm | ⟨hm, -⟩ <;> rw [hst] at hm <;> cases hm
      exact ⟨m, v, Or.inr (Or.inr (Or.inl (getElem?_set_self ts m _ hn)))⟩
    · refine ⟨m, w, ?_⟩
      rw [getElem?_set_other ts n m _ hmn]
      exact hm
  case clear_owner =>
    simp only []
    intro j h
    rcases hInv.clear_owner j h with ⟨m, w, hm⟩
    by_cases hmn : m = n
    · subst hmn
      rcases hm with hm | hm | hm | hm <;> rw [hst] at hm <;> cases hm
      exact ⟨m, v, Or.inr (Or.inr (Or.inl (getElem?_set_self ts m _ hn)))⟩
    · refine ⟨m, w, ?_⟩
      rw [getElem?_set_other ts n m _ hmn]
      exact hm
  case kclear =>
    simp only []
    intro m j w hm
    rcases hm with hm | hm
    · rcases getElem?_set_cases hn hm with ⟨he1, he2⟩ | ⟨hmn, hm2⟩
      · cases he2
      · exact hInv.kclear m j w (Or.inl hm2)
    · rcases getElem?_set_cases hn hm with ⟨he1, he2⟩ | ⟨hmn, hm2⟩
      · cases he2
        exact hcl
      · exact hInv.kclear m j w (Or.inr hm2)
  case clear_joined =>
    simp only []
    intro j h
    rw [hjc j]
    exact hInv.clear_joined j h
  case owner_done_joined =>
    simp only []
    intro m j w hm
    rcases getElem?_set_cases hn hm with ⟨he1, he2⟩ | ⟨hmn, hm2⟩
    · cases he2
    · rw [hjc j]
      exact hInv.owner_done_joined m j w hm2
  case consumer_done =>
    simp only []
    intro m j r hm
    rcases getElem?_set_cases hn hm with ⟨he1, he2⟩ | ⟨hmn, hm2⟩
    · cases he2
    · exact hInv.consumer_done m j r hm2
  case joined_evt =>
    simp only []
    intro m j hm
    have hmn : m ≠ n := by
      intro he0
      rcases hm with hm | ⟨w, hm⟩ <;>
        (rw [he0, getElem?_set_self ts n _ hn] at hm; simp at hm)
    rw [getElem?_set_other ts n m _ hmn] at hm
    exact hInv.joined_evt m j hm
  case reading_res =>
    simp only []
    intro m j hm
    rcases getElem?_set_cases hn hm with ⟨he1, he2⟩ | ⟨hmn, hm2⟩
    · cases he2
    · rcases hInv.reading_res m j hm2 with ⟨w, hw⟩
      by_cases hj : j = i
      · subst hj
        have hjoin : 0 < joinedCount ts j :=
          joinedCount_pos ts m _ j hm2 (by simp [isJoinedOn])
        have hz : joinedCount ts j = 0 := hInv.clear_joined j hcl
        omega
      · exact ⟨w, by rw [alookup_aerase, if_neg hj]; exact hw⟩

end ThreadingDedup

namespace ThreadingDedup

theorem inv_removeCount (s : DedupState) (ts : List St) (n : Nat)
    (i : Nat) (v : Int)
    (hInv : Inv ⟨s, ts⟩) (hst : ts[n]? = some (.removeCountStage i v)) :
    Inv ⟨{ s with counts := aerase s.counts i },
      ts.set n (.finished true i (.ok v))⟩ := by
  rcases List.getElem?_eq_some.mp hst with ⟨hn, -⟩
  have hi : i < s.nextId := hInv.fresh_id n _ i hst (by simp [idOf])
  have hpok : alookup s.produced i = some (.ok v) :=
    hInv.prod_phase n _ i v hst (by simp [phaseVal])
  have hcl : i ∈ s.clearSet := hInv.kclear n i v (Or.inr hst)
  have hj0 : joinedCount ts i = 0 := hInv.clear_joined i hcl
  have hjc : ∀ (j : Nat), joinedCount (ts.set n (.finished true i (.ok v))) j
      = joinedCount ts j := by
    intro j
    refine joinedCount_set_same ts n _ j hn ?_
    rcases List.getElem?_eq_some.mp hst with ⟨hn2, he⟩
    rw [he]
    simp [isJoinedOn]
  constructor
  case fresh_id =>
    simp only []
    intro m st j hm hid
    rcases getElem?_set_cases hn hm with ⟨he1, he2⟩ | ⟨hmn, hm2⟩
    · subst he2
      simp only [idOf] at hid
      cases hid
      omega
    · exact hInv.fresh_id m st j hm2 hid
  case fresh_running =>
    simp only []
    exact hInv.fresh_running
  case fresh_counts =>
    simp only []
    intro j h
    rw [alookup_aerase] at h
    by_cases hj : j = i
    · rw [if_pos hj] at h
      cases h
    · rw [if_neg hj] at h
      exact hInv.fresh_counts j h
  case fresh_results =>
    simp only []
    exact hInv.fresh_results
  case fresh_event =>
    simp only []
    exact hInv.fresh_event
  case fresh_clear =>
    simp only []
    exact hInv.fresh_clear
  case fresh_installs =>
    simp only []
    exact hInv.fresh_installs
  case fresh_produced =>
    simp only []
    exact hInv.fresh_produced
  case installs_nodup =>
    simp only []
    exact hInv.installs_nodup
  case uniq =>
    simp only []
    intro m m' st st' j hm hm' htag htag'
    rcases getElem?_set_cases hn hm with ⟨he1, he2⟩ | ⟨hmn, hm2⟩
    · rcases getElem?_set_cases hn hm' with ⟨he1', he2'⟩ | ⟨hmn', hm2'⟩
      · rw [he1, he1']
      · subst he2
        simp only [ownerTag] at htag
        cases htag
        rw [he1]
        exact hInv.uniq n m' _ st' i hst hm2' (by simp [ownerTag]) htag'
    · rcases getElem?_set_cases hn hm' with ⟨he1', he2'⟩ | ⟨hmn', hm2'⟩
      · subst he2'
        simp only [ownerTag] at htag'
        cases htag'
        rw [he1']
        exact hInv.uniq m n st _ i hm2 hst htag (by simp [ownerTag])
      · exact hInv.uniq m m' st st' j hm2 hm2' htag htag'
  case prod_none =>
    simp only []
    intro m k' j out' hm
    rcases getElem?_set_cases hn hm with ⟨he1, he2⟩ | ⟨hmn, hm2⟩
    · cases he2
    · exact hInv.prod_none m k' j out' hm2
  case prod_phase =>
    simp only []
    intro m st j w hm hp
    rcases getElem?_set_cases hn hm with ⟨he1, he2⟩ | ⟨hmn, hm2⟩
    · subst he2
      simp [phaseVal] at hp
    · exact hInv.prod_phase m st j w hm2 hp
  case prod_finished =>
    simp only []
    intro m ow j r hm
    rcases getElem?_set_cases hn hm with ⟨he1, he2⟩ | ⟨hmn, hm2⟩
    · cases he2
      exact hpok
    · exact hInv.prod_finished m ow j r hm2
  case prod_results =>
    simp only []
    exact hInv.prod_results
  case counts_some =>
    simp only []
    intro j
    rw [alookup_aerase]
    by_cases hj : j = i
    · subst hj
      rw [if_pos rfl]
      simp only [Option.isSome_none, Bool.false_eq_true, false_iff]
      rintro (⟨m, st, hm, ho⟩ | ⟨e, he⟩)
      · rcases getElem?_set_cases hn hm with ⟨he1, he2⟩ | ⟨hmn, hm2⟩
        · subst he2
          simp [ownerStage] at ho
        · have : m = n := hInv.uniq m n _ _ j hm2 hst
            (ownerTag_of_ownerStage ho) (by simp [ownerTag])
          exact hmn this
      · rw [hpok] at he
        cases he
    · rw [if_neg hj]
      have hiff : (alookup s.counts j).isSome = true ↔
          ((∃ (m : Nat) (st : St), ts[m]? = some st ∧ ownerStage st = some j) ∨
           (∃ (e : String), alookup s.produced j = some (.err e))) :=
        hInv.counts_some j
      rw [hiff]
      constructor
      · rintro (⟨m, st, hm, ho⟩ | he)
        · have hmn : m ≠ n := by
            intro he0
            rw [he0, hst] at hm
            cases hm
            simp only [ownerStage] at ho
            cases ho
            exact hj rfl
          exact Or.inl ⟨m, st,
            by rw [getElem?_set_other ts n m _ hmn]; exact hm, ho⟩
        · exact Or.inr he
      · rintro (⟨m, st, hm, ho⟩ | he)
        · rcases getElem?_set_cases hn hm with ⟨he1, he2⟩ | ⟨hmn, hm2⟩
          · subst he2
            simp [ownerStage] at ho
          · exact Or.inl ⟨m, st, hm2, ho⟩
        · exact Or.inr he
  case counts_val =>
    simp only []
    intro j cv h
    rw [alookup_aerase] at h
    by_cases hj : j = i
    · rw [if_pos hj] at h
      cases h
    · rw [if_neg hj] at h
      rw [hjc j]
      exact hInv.counts_val j cv h
  case reg =>
    simp only []
    intro k' j h
    rcases hInv.reg k' j h with ⟨m, o, hm⟩ | ⟨m, w, hm⟩ | he
    · have hmn : m ≠ n := by
        intro he0
        rw [he0, hst] at hm
        cases hm
      exact Or.inl ⟨m, o,
        by rw [getElem?_set_other ts n m _ hmn]; exact hm⟩
    · have hmn : m ≠ n := by
        intro he0
        rw [he0, hst] at hm
        cases hm
      exact Or.inr (Or.inl ⟨m, w,
        by rw [getElem?_set_other ts n m _ hmn]; exact hm⟩)
    · exact Or.inr (Or.inr he)
  case res_iff =>
    simp only []
    intro j w
    have hiff : alookup s.results j = some w ↔
        (∃ (m : Nat), ts[m]? = some (.signalStage j w) ∨
          ts[m]? = some (.drainStage j w) ∨
          ts[m]? = some (.retireStage j w)) := hInv.res_iff j w
    rw [hiff]
    constructor
    · rintro ⟨m, hm⟩
      have hmn : m ≠ n := by
        intro he0
        rcases hm with hm | hm | hm <;> (rw [he0, hst] at hm; cases hm)
      exact ⟨m, by rw [getElem?_set_other ts n m _ hmn]; exact hm⟩
    · rintro ⟨m, hm⟩
      have hmn : m ≠ n := by
        intro he0
        rcases hm with hm | hm | hm <;>
          (rw [he0, getElem?_set_self ts n _ hn] at hm; simp at hm)
      rw [getElem?_set_other ts n m _ hmn] at hm
      exact ⟨m, hm⟩
  case evt =>
    simp only []
    intro j h
    rcases hInv.evt j h with ⟨m, w, hm⟩
    by_cases hmn : m = n
    · subst hmn
      rcases hm with hm | hm | hm | ⟨hm, -⟩ <;> rw [hst] at hm <;> cases hm
      exact ⟨m, v, Or.inr (Or.inr (Or.inr
        ⟨getElem?_set_self ts m _ hn, hcl⟩))⟩
    · refine ⟨m, w, ?_⟩
      rw [getElem?_set_other ts n m _ hmn]
      exact hm
  case clear_owner =>
    simp only []
    intro j h
    rcases hInv.clear_owner j h with ⟨m, w, hm⟩
    by_cases hmn : m = n
    · subst hmn
      rcases hm with hm | hm | hm | hm <;> rw [hst] at hm <;> cases hm
      exact ⟨m, v, Or.inr (Or.inr (Or.inr (getElem?_set_self ts m _ hn)))⟩
    · refine ⟨m, w, ?_⟩
      rw [getElem?_set_other ts n m _ hmn]
      exact hm
  case kclear =>
    simp only []
    intro m j w hm
    rcases hm with hm | hm
    · rcases getElem?_set_cases hn hm with ⟨he1, he2⟩ | ⟨hmn, hm2⟩
      · cases he2
      · exact hInv.kclear m j w (Or.inl hm2)
    · rcases getElem?_set_cases hn hm with ⟨he1, he2⟩ | ⟨hmn, hm2⟩
      · cases he2
      · exact hInv.kclear m j w (Or.inr hm2)
  case clear_joined =>
    simp only []
    intro j h
    rw [hjc j]
    exact hInv.clear_joined j h
  case owner_done_joined =>
    simp only []
    intro m j w hm
    rcases getElem?_set_cases hn hm with ⟨he1, he2⟩ | ⟨hmn, hm2⟩
    · cases he2
      rw [hjc i]
      exact hj0
    · rw [hjc j]
      exact hInv.owner_done_joined m j w hm2
  case consumer_done =>
    simp only []
    intro m j r hm
    rcases getElem?_set_cases hn hm with ⟨he1, he2⟩ | ⟨hmn, hm2⟩
    · cases he2
    · exact hInv.consumer_done m j r hm2
  case joined_evt =>
    simp only []
    intro m j hm
    have hmn : m ≠ n := by
      intro he0
      rcases hm with hm | ⟨w, hm⟩ <;>
        (rw [he0, getElem?_set_self ts n _ hn] at hm; simp at hm)
    rw [getElem?_set_other ts n m _ hmn] at hm
    exact hInv.joined_evt m j hm
  case reading_res =>
    simp only []
    intro m j hm
    rcases getElem?_set_cases hn hm with ⟨he1, he2⟩ | ⟨hmn, hm2⟩
    · cases he2
    · exact hInv.reading_res m j hm2

end ThreadingDedup

namespace ThreadingDedup

theorem inv_wake (s : DedupState) (ts : List St) (n : Nat) (i : Nat)
    (hInv : Inv ⟨s, ts⟩) (hst : ts[n]? = some (.waiting i))
    (hev : i ∈ s.eventSet) :
    Inv ⟨s, ts.set n (.reading i)⟩ := by
  rcases List.getElem?_eq_some.mp hst with ⟨hn, -⟩
  have hi : i < s.nextId := hInv.fresh_id n _ i hst (by simp [idOf])
  have hjpos : 0 < joinedCount ts i :=
    joinedCount_pos ts n _ i hst (by simp [isJoinedOn])
  have hres : ∃ (w : Int), alookup s.results i = some w := by
    rcases hInv.evt i hev with ⟨m, w, hm | hm | hm | ⟨hm, hclr⟩⟩
    · exact ⟨w, (hInv.res_iff i w).mpr ⟨m, Or.inr (Or.inl hm)⟩⟩
    · exact ⟨w, (hInv.res_iff i w).mpr ⟨m, Or.inr (Or.inr hm)⟩⟩
    · have hclr : i ∈ s.clearSet := hInv.kclear m i w (Or.inr hm)
      have hz : joinedCount ts i = 0 := hInv.clear_joined i hclr
      omega
    · have hz : joinedCount ts i = 0 := hInv.clear_joined i hclr
      omega
  have hjc : ∀ (j : Nat), joinedCount (ts.set n (.reading i)) j
      = joinedCount ts j := by
    intro j
    refine joinedCount_set_same ts n _ j hn ?_
    rcases List.getElem?_eq_some.mp hst with ⟨hn2, he⟩
    rw [he]
    simp [isJoinedOn]
  constructor
  case fresh_id =>
    simp only []
    intro m st j hm hid
    rcases getElem?_set_cases hn hm with ⟨he1, he2⟩ | ⟨hmn, hm2⟩
    · subst he2
      simp only [idOf] at hid
      cases hid
      omega
    · exact hInv.fresh_id m st j hm2 hid
  case fresh_running =>
    simp only []
    exact hInv.fresh_running
  case fresh_counts =>
    simp only []
    exact hInv.fresh_counts
  case fresh_results =>
    simp only []
    exact hInv.fresh_results
  case fresh_event =>
    simp only []
    exact hInv.fresh_event
  case fresh_clear =>
    simp only []
    exact hInv.fresh_clear
  case fresh_installs =>
    simp only []
    exact hInv.fresh_installs
  case fresh_produced =>
    simp only []
    exact hInv.fresh_produced
  case installs_nodup =>
    simp only []
    exact hInv.installs_nodup
  case uniq =>
    simp only []
    intro m m' st st' j hm hm' htag htag'
    rcases getElem?_set_cases hn hm with ⟨he1, he2⟩ | ⟨hmn, hm2⟩
    · subst he2
      simp [ownerTag] at htag
    · rcases getElem?_set_cases hn hm' with ⟨he1', he2'⟩ | ⟨hmn', hm2'⟩
      · subst he2'
        simp [ownerTag] at htag'
      · exact hInv.uniq m m' st st' j hm2 hm2' htag htag'
  case prod_none =>
    simp only []
    intro m k' j out' hm
    rcases getElem?_set_cases hn hm with ⟨he1, he2⟩ | ⟨hmn, hm2⟩
    · cases he2
    · exact hInv.prod_none m k' j out' hm2
  case prod_phase =>
    simp only []
    intro m st j w hm hp
    rcases getElem?_set_cases hn hm with ⟨he1, he2⟩ | ⟨hmn, hm2⟩
    · subst he2
      simp [phaseVal] at hp
    · exact hInv.prod_phase m st j w hm2 hp
  case prod_finished =>
    simp only []
    intro m ow j r hm
    rcases getElem?_set_cases hn hm with ⟨he1, he2⟩ | ⟨hmn, hm2⟩
    · cases he2
    · exact hInv.prod_finished m ow j r hm2
  case prod_results =>
    simp only []
    exact hInv.prod_results
  case counts_some =>
    simp only []
    intro j
    have hiff : (alookup s.counts j).isSome = true ↔
        ((∃ (m : Nat) (st : St), ts[m]? = some st ∧ ownerStage st = some j) ∨
         (∃ (e : String), alookup s.produced j = some (.err e))) :=
      hInv.counts_some j
    rw [hiff]
    constructor
    · rintro (⟨m, st, hm, ho⟩ | he)
      · have hmn : m ≠ n := by
          intro he0
          rw [he0, hst] at hm
          cases hm
          simp [ownerStage] at ho
        exact Or.inl ⟨m, st,
          by rw [getElem?_set_other ts n m _ hmn]; exact hm, ho⟩
      · exact Or.inr he
    · rintro (⟨m, st, hm, ho⟩ | he)
      · rcases getElem?_set_cases hn hm with ⟨he1, he2⟩ | ⟨hmn, hm2⟩
        · subst he2
          simp [ownerStage] at ho
        · exact Or.inl ⟨m, st, hm2, ho⟩
      · exact Or.inr he
  case counts_val =>
    simp only []
    intro j cv h
    rw [hjc j]
    exact hInv.counts_val j cv h
  case reg =>
    simp only []
    intro k' j h
    rcases hInv.reg k' j h with ⟨m, o, hm⟩ | ⟨m, w, hm⟩ | he
    · have hmn : m ≠ n := by
        intro he0
        rw [he0, hst] at hm
        cases hm
      exact Or.inl ⟨m, o,
        by rw [getElem?_set_other ts n m _ hmn]; exact hm⟩
    · have hmn : m ≠ n := by
        intro he0
        rw [he0, hst] at hm
        cases hm
      exact Or.inr (Or.inl ⟨m, w,
        by rw [getElem?_set_other ts n m _ hmn]; exact hm⟩)
    · exact Or.inr (Or.inr he)
  case res_iff =>
    simp only []
    intro j w
    have hiff : alookup s.results j = some w ↔
        (∃ (m : Nat), ts[m]? = some (.signalStage j w) ∨
          ts[m]? = some (.drainStage j w) ∨
          ts[m]? = some (.retireStage j w)) := hInv.res_iff j w
    rw [hiff]
    constructor
    · rintro ⟨m, hm⟩
      have hmn : m ≠ n := by
        intro he0
        rcases hm with hm | hm | hm <;> (rw [he0, hst] at hm; cases hm)
      exact ⟨m, by rw [getElem?_set_other ts n m _ hmn]; exact hm⟩
    · rintro ⟨m, hm⟩
      have hmn : m ≠ n := by
        intro he0
        rcases hm with hm | hm | hm <;>
          (rw [he0, getElem?_set_self ts n _ hn] at hm; simp at hm)
      rw [getElem?_set_other ts n m _ hmn] at hm
      exact ⟨m, hm⟩
  case evt =>
    simp only []
    intro j h
    rcases hInv.evt j h with ⟨m, w, hm⟩
    have hmn : m ≠ n := by
      intro he0
      rcases hm with hm | hm | hm | ⟨hm, -⟩ <;> (rw [he0, hst] at hm; cases hm)
    refine ⟨m, w, ?_⟩
    rw [getElem?_set_other ts n m _ hmn]
    exact hm
  case clear_owner =>
    simp only []
    intro j h
    rcases hInv.clear_owner j h with ⟨m, w, hm⟩
    have hmn : m ≠ n := by
      intro he0
      rcases hm with hm | hm | hm | hm <;> (rw [he0, hst] at hm; cases hm)
    refine ⟨m, w, ?_⟩
    rw [getElem?_set_other ts n m _ hmn]
    exact hm
  case kclear =>
    simp only []
    intro m j w hm
    have hmn : m ≠ n := by
      intro he0
      rcases hm with hm | hm <;>
        (rw [he0, getElem?_set_self ts n _ hn] at hm; simp at hm)
    rw [getElem?_set_other ts n m _ hmn] at hm
    exact hInv.kclear m j w hm
  case clear_joined =>
    simp only []
    intro j h
    rw [hjc j]
    exact hInv.clear_joined j h
  case owner_done_joined =>
    simp only []
    intro m j w hm
    rcases getElem?_set_cases hn hm with ⟨he1, he2⟩ | ⟨hmn, hm2⟩
    · cases he2
    · rw [hjc j]
      exact hInv.owner_done_joined m j w hm2
  case consumer_done =>
    simp only []
    intro m j r hm
    rcases getElem?_set_cases hn hm with ⟨he1, he2⟩ | ⟨hmn, hm2⟩
    · cases he2
    · exact hInv.consumer_done m j r hm2
  case joined_evt =>
    simp only []
    intro m j hm
    rcases hm with hm | ⟨w, hm⟩
    · rcases getElem?_set_cases hn hm with ⟨he1, he2⟩ | ⟨hmn, hm2⟩
      · cases he2
        exact hev
      · exact hInv.joined_evt m j (Or.inl hm2)
    · rcases getElem?_set_cases hn hm with ⟨he1, he2⟩ | ⟨hmn, hm2⟩
      · cases he2
      · exact hInv.joined_evt m j (Or.inr ⟨w, hm2⟩)
  case reading_res =>
    simp only []
    intro m j hm
    rcases getElem?_set_cases hn hm with ⟨he1, he2⟩ | ⟨hmn, hm2⟩
    · cases he2
      exact hres
    · exact hInv.reading_res m j hm2

end ThreadingDedup

namespace ThreadingDedup

theorem inv_read (s : DedupState) (ts : List St) (n : Nat) (i : Nat)
    (hInv : Inv ⟨s, ts⟩) (hst : ts[n]? = some (.reading i)) :
    Inv ⟨s, ts.set n (.leaving i ((alookup s.results i).getD 0))⟩ := by
  rcases List.getElem?_eq_some.mp hst with ⟨hn, -⟩
  have hi : i < s.nextId := hInv.fresh_id n _ i hst (by simp [idOf])
  rcases hInv.reading_res n i hst with ⟨w, hw⟩
  have hgetD : (alookup s.results i).getD 0 = w := by rw [hw]; rfl
  have hpok : alookup s.produced i = some (.ok w) := hInv.prod_results i w hw
  have hev : i ∈ s.eventSet := hInv.joined_evt n i (Or.inl hst)
  have hjc : ∀ (j : Nat),
      joinedCount (ts.set n (.leaving i ((alookup s.results i).getD 0))) j
      = joinedCount ts j := by
    intro j
    refine joinedCount_set_same ts n _ j hn ?_
    rcases List.getElem?_eq_some.mp hst with ⟨hn2, he⟩
    rw [he]
    simp [isJoinedOn]
  constructor
  case fresh_id =>
    simp only []
    intro m st j hm hid
    rcases getElem?_set_cases hn hm with ⟨he1, he2⟩ | ⟨hmn, hm2⟩
    · subst he2
      simp only [idOf] at hid
      cases hid
      omega
    · exact hInv.fresh_id m st j hm2 hid
  case fresh_running =>
    simp only []
    exact hInv.fresh_running
  case fresh_counts =>
    simp only []
    exact hInv.fresh_counts
  case fresh_results =>
    simp only []
    exact hInv.fresh_results
  case fresh_event =>
    simp only []
    exact hInv.fresh_event
  case fresh_clear =>
    simp only []
    exact hInv.fresh_clear
  case fresh_installs =>
    simp only []
    exact hInv.fresh_installs
  case fresh_produced =>
    simp only []
    exact hInv.fresh_produced
  case installs_nodup =>
    simp only []
    exact hInv.installs_nodup
  case uniq =>
    simp only []
    intro m m' st st' j hm hm' htag htag'
    rcases getElem?_set_cases hn hm with ⟨he1, he2⟩ | ⟨hmn, hm2⟩
    · subst he2
      simp [ownerTag] at htag
    · rcases getElem?_set_cases hn hm' with ⟨he1', he2'⟩ | ⟨hmn', hm2'⟩
      · subst he2'
        simp [ownerTag] at htag'
      · exact hInv.uniq m m' st st' j hm2 hm2' htag htag'
  case prod_none =>
    simp only []
    intro m k' j out' hm
    rcases getElem?_set_cases hn hm with ⟨he1, he2⟩ | ⟨hmn, hm2⟩
    · cases he2
    · exact hInv.prod_none m k' j out' hm2
  case prod_phase =>
    simp only []
    intro m st j v hm hp
    rcases getElem?_set_cases hn hm with ⟨he1, he2⟩ | ⟨hmn, hm2⟩
    · subst he2
      simp only [phaseVal] at hp
      cases hp
      rw [hgetD]
      exact hpok
    · exact hInv.prod_phase m st j v hm2 hp
  case prod_finished =>
    simp only []
    intro m ow j r hm
    rcases getElem?_set_cases hn hm with ⟨he1, he2⟩ | ⟨hmn, hm2⟩
    · cases he2
    · exact hInv.prod_finished m ow j r hm2
  case prod_results =>
    simp only []
    exact hInv.prod_results
  case counts_some =>
    simp only []
    intro j
    have hiff : (alookup s.counts j).isSome = true ↔
        ((∃ (m : Nat) (st : St), ts[m]? = some st ∧ ownerStage st = some j) ∨
         (∃ (e : String), alookup s.produced j = some (.err e))) :=
      hInv.counts_some j
    rw [hiff]
    constructor
    · rintro (⟨m, st, hm, ho⟩ | he)
      · have hmn : m ≠ n := by
          intro he0
          rw [he0, hst] at hm
          cases hm
          simp [ownerStage] at ho
        exact Or.inl ⟨m, st,
          by rw [getElem?_set_other ts n m _ hmn]; exact hm, ho⟩
      · exact Or.inr he
    · rintro (⟨m, st, hm, ho⟩ | he)
      · rcases getElem?_set_cases hn hm with ⟨he1, he2⟩ | ⟨hmn, hm2⟩
        · subst he2
          simp [ownerStage] at ho
        · exact Or.inl ⟨m, st, hm2, ho⟩
      · exact Or.inr he
  case counts_val =>
    simp only []
    intro j cv h
    rw [hjc j]
    exact hInv.counts_val j cv h
  case reg =>
    simp only []
    intro k' j h
    rcases hInv.reg k' j h with ⟨m, o, hm⟩ | ⟨m, w', hm⟩ | he
    · have hmn : m ≠ n := by
        intro he0
        rw [he0, hst] at hm
        cases hm
      exact Or.inl ⟨m, o,
        by rw [getElem?_set_other ts n m _ hmn]; exact hm⟩
    · have hmn : m ≠ n := by
        intro he0
        rw [he0, hst] at hm
        cases hm
      exact Or.inr (Or.inl ⟨m, w',
        by rw [getElem?_set_other ts n m _ hmn]; exact hm⟩)
    · exact Or.inr (Or.inr he)
  case res_iff =>
    simp only []
    intro j w'
    have hiff : alookup s.results j = some w' ↔
        (∃ (m : Nat), ts[m]? = some (.signalStage j w') ∨
          ts[m]? = some (.drainStage j w') ∨
          ts[m]? = some (.retireStage j w')) := hInv.res_iff j w'
    rw [hiff]
    constructor
    · rintro ⟨m, hm⟩
      have hmn : m ≠ n := by
        intro he0
        rcases hm with hm | hm | hm <;> (rw [he0, hst] at hm; cases hm)
      exact ⟨m, by rw [getElem?_set_other ts n m _ hmn]; exact hm⟩
    · rintro ⟨m, hm⟩
      have hmn : m ≠ n := by
        intro he0
        rcases hm with hm | hm | hm <;>
          (rw [he0, getElem?_set_self ts n _ hn] at hm; simp at hm)
      rw [getElem?_set_other ts n m _ hmn] at hm
      exact ⟨m, hm⟩
  case evt =>
    simp only []
    intro j h
    rcases hInv.evt j h with ⟨m, w', hm⟩
    have hmn : m ≠ n := by
      intro he0
      rcases hm with hm | hm | hm | ⟨hm, -⟩ <;> (rw [he0, hst] at hm; cases hm)
    refine ⟨m, w', ?_⟩
    rw [getElem?_set_other ts n m _ hmn]
    exact hm
  case clear_owner =>
    simp only []
    intro j h
    rcases hInv.clear_owner j h with ⟨m, w', hm⟩
    have hmn : m ≠ n := by
      intro he0
      rcases hm with hm | hm | hm | hm <;> (rw [he0, hst] at hm; cases hm)
    refine ⟨m, w', ?_⟩
    rw [getElem?_set_other ts n m _ hmn]
    exact hm
  case kclear =>
    simp only []
    intro m j w' hm
    have hmn : m ≠ n := by
      intro he0
      rcases hm with hm | hm <;>
        (rw [he0, getElem?_set_self ts n _ hn] at hm; simp at hm)
    rw [getElem?_set_other ts n m _ hmn] at hm
    exact hInv.kclear m j w' hm
  case clear_joined =>
    simp only []
    intro j h
    rw [hjc j]
    exact hInv.clear_joined j h
  case owner_done_joined =>
    simp only []
    intro m j w' hm
    rcases getElem?_set_cases hn hm with ⟨he1, he2⟩ | ⟨hmn, hm2⟩
    · cases he2
    · rw [hjc j]
      exact hInv.owner_done_joined m j w' hm2
  case consumer_done =>
    simp only []
    intro m j r hm
    rcases getElem?_set_cases hn hm with ⟨he1, he2⟩ | ⟨hmn, hm2⟩
    · cases he2
    · exact hInv.consumer_done m j r hm2
  case joined_evt =>
    simp only []
    intro m j hm
    rcases hm with hm | ⟨w', hm⟩
    · rcases getElem?_set_cases hn hm with ⟨he1, he2⟩ | ⟨hmn, hm2⟩
      · cases he2
      · exact hInv.joined_evt m j (Or.inl hm2)
    · rcases getElem?_set_cases hn hm with ⟨he1, he2⟩ | ⟨hmn, hm2⟩
      · cases he2
        exact hev
      · exact hInv.joined_evt m j (Or.inr ⟨w', hm2⟩)
  case reading_res =>
    simp only []
    intro m j hm
    rcases getElem?_set_cases hn hm with ⟨he1, he2⟩ | ⟨hmn, hm2⟩
    · cases he2
    · exact hInv.reading_res m j hm2

end ThreadingDedup

namespace ThreadingDedup

theorem inv_leave (s : DedupState) (ts : List St) (n : Nat) (i : Nat)
    (v : Int)
    (hInv : Inv ⟨s, ts⟩) (hst : ts[n]? = some (.leaving i v)) :
    Inv ⟨{ s with
        counts := aupd s.counts i ((alookup s.counts i).getD 0 - 1)
        clearSet := if (alookup s.counts i).getD 0 - 1 ≤ 0
          then i :: s.clearSet else s.clearSet },
      ts.set n (.finished false i (.ok v))⟩ := by
  rcases List.getElem?_eq_some.mp hst with ⟨hn, -⟩
  have hi : i < s.nextId := hInv.fresh_id n _ i hst (by simp [idOf])
  have hpok : alookup s.produced i = some (.ok v) :=
    hInv.prod_phase n _ i v hst (by simp [phaseVal])
  have hev : i ∈ s.eventSet := hInv.joined_evt n i (Or.inr ⟨v, hst⟩)
  have hjpos : 0 < joinedCount ts i :=
    joinedCount_pos ts n _ i hst (by simp [isJoinedOn])
  have hinotclear : i ∉ s.clearSet := by
    intro hcl
    have hz : joinedCount ts i = 0 := hInv.clear_joined i hcl
    omega
  have howner : ∃ (m : Nat) (w : Int), ts[m]? = some (.drainStage i w) ∨
      ts[m]? = some (.retireStage i w) ∨
      ts[m]? = some (.removeCountStage i w) := by
    rcases hInv.evt i hev with ⟨m, w, hm | hm | hm | ⟨hm, hclr⟩⟩
    · exact ⟨m, w, Or.inl hm⟩
    · exact ⟨m, w, Or.inr (Or.inl hm)⟩
    · exact ⟨m, w, Or.inr (Or.inr hm)⟩
    · exact absurd hclr hinotclear
  have hsomec : (alookup s.counts i).isSome := by
    refine (hInv.counts_some i).mpr (Or.inl ?_)
    rcases howner with ⟨m, w, hm | hm | hm⟩ <;>
      exact ⟨m, _, hm, by simp [ownerStage]⟩
  rcases Option.isSome_iff_exists.mp hsomec with ⟨cv0, hcv0⟩
  have hgetD : (alookup s.counts i).getD 0 = cv0 := by rw [hcv0]; rfl
  have hval : cv0 = (joinedCount ts i : Int) := hInv.counts_val i cv0 hcv0
  rw [hgetD]
  have hjset : ∀ (j : Nat),
      joinedCount (ts.set n (.finished false i (.ok v))) j
      = joinedCount ts j - (if i = j then 1 else 0) := by
    intro j
    have hcnt := joinedCount_set ts n (.finished false i (.ok v)) j hn
    rcases List.getElem?_eq_some.mp hst with ⟨hn2, he⟩
    rw [he] at hcnt
    by_cases hij : i = j
    · subst hij
      simp only [isJoinedOn] at hcnt
      simp at hcnt ⊢
      omega
    · simp only [isJoinedOn] at hcnt
      simp [hij] at hcnt ⊢
      omega
  have hclCases : ∀ (j : Nat),
      j ∈ (if cv0 - 1 ≤ 0 then i :: s.clearSet else s.clearSet) →
      (j = i ∧ cv0 - 1 ≤ 0) ∨ j ∈ s.clearSet := by
    intro j hj
    by_cases hbr : cv0 - 1 ≤ 0
    · rw [if_pos hbr] at hj
      rcases List.mem_cons.mp hj with rfl | hj
      · exact Or.inl ⟨rfl, hbr⟩
      · exact Or.inr hj
    · rw [if_neg hbr] at hj
      exact Or.inr hj
  have hclSup : ∀ (j : Nat), j ∈ s.clearSet →
      j ∈ (if cv0 - 1 ≤ 0 then i :: s.clearSet else s.clearSet) := by
    intro j hj
    by_cases hbr : cv0 - 1 ≤ 0
    · rw [if_pos hbr]
      exact List.mem_cons_of_mem i hj
    · rw [if_neg hbr]
      exact hj
  constructor
  case fresh_id =>
    simp only []
    intro m st j hm hid
    rcases getElem?_set_cases hn hm with ⟨he1, he2⟩ | ⟨hmn, hm2⟩
    · subst he2
      simp only [idOf] at hid
      cases hid
      omega
    · exact hInv.fresh_id m st j hm2 hid
  case fresh_running =>
    simp only []
    exact hInv.fresh_running
  case fresh_counts =>
    simp only []
    intro j h
    rw [alookup_aupd] at h
    by_cases hj : j = i
    · omega
    · rw [if_neg hj] at h
      exact hInv.fresh_counts j h
  case fresh_results =>
    simp only []
    exact hInv.fresh_results
  case fresh_event =>
    simp only []
    exact hInv.fresh_event
  case fresh_clear =>
    simp only []
    intro j h
    rcases hclCases j h with ⟨rfl, -⟩ | h
    · omega
    · exact hInv.fresh_clear j h
  case fresh_installs =>
    simp only []
    exact hInv.fresh_installs
  case fresh_produced =>
    simp only []
    exact hInv.fresh_produced
  case installs_nodup =>
    simp only []
    exact hInv.installs_nodup
  case uniq =>
    simp only []
    intro m m' st st' j hm hm' htag htag'
    rcases getElem?_set_cases hn hm with ⟨he1, he2⟩ | ⟨hmn, hm2⟩
    · subst he2
      simp [ownerTag] at htag
    · rcases getElem?_set_cases hn hm' with ⟨he1', he2'⟩ | ⟨hmn', hm2'⟩
      · subst he2'
        simp [ownerTag] at htag'
      · exact hInv.uniq m m' st st' j hm2 hm2' htag htag'
  case prod_none =>
    simp only []
    intro m k' j out' hm
    rcases getElem?_set_cases hn hm with ⟨he1, he2⟩ | ⟨hmn, hm2⟩
    · cases he2
    · exact hInv.prod_none m k' j out' hm2
  case prod_phase =>
    simp only []
    intro m st j w hm hp
    rcases getElem?_set_cases hn hm with ⟨he1, he2⟩ | ⟨hmn, hm2⟩
    · subst he2
      simp [phaseVal] at hp
    · exact hInv.prod_phase m st j w hm2 hp
  case prod_finished =>
    simp only []
    intro m ow j r hm
    rcases getElem?_set_cases hn hm with ⟨he1, he2⟩ | ⟨hmn, hm2⟩
    · cases he2
      exact hpok
    · exact hInv.prod_finished m ow j r hm2
  case prod_results =>
    simp only []
    exact hInv.prod_results
  case counts_some =>
    simp only []
    intro j
    rw [alookup_aupd]
    by_cases hj : j = i
    · subst hj
      constructor
      · intro hdummy
        refine Or.inl ?_
        rcases howner with ⟨m, w, hm | hm | hm⟩ <;>
        · have hmn : m ≠ n := by
            intro he0
            rw [he0, hst] at hm
            cases hm
          exact ⟨m, _, by rw [getElem?_set_other ts n m _ hmn]; exact hm,
            by simp [ownerStage]⟩
      · intro hdummy
        simp
    · rw [if_neg hj]
      have hiff : (alookup s.counts j).isSome = true ↔
          ((∃ (m : Nat) (st : St), ts[m]? = some st ∧ ownerStage st = some j) ∨
           (∃ (e : String), alookup s.produced j = some (.err e))) :=
        hInv.counts_some j
      rw [hiff]
      constructor
      · rintro (⟨m, st, hm, ho⟩ | he)
        · have hmn : m ≠ n := by
            intro he0
            rw [he0, hst] at hm
            cases hm
            simp [ownerStage] at ho
          exact Or.inl ⟨m, st,
            by rw [getElem?_set_other ts n m _ hmn]; exact hm, ho⟩
        · exact Or.inr he
      · rintro (⟨m, st, hm, ho⟩ | he)
        · rcases getElem?_set_cases hn hm with ⟨he1, he2⟩ | ⟨hmn, hm2⟩
          · subst he2
            simp [ownerStage] at ho
          · exact Or.inl ⟨m, st, hm2, ho⟩
        · exact Or.inr he
  case counts_val =>
    simp only []
    intro j cv h
    rw [alookup_aupd] at h
    rw [hjset j]
    by_cases hj : j = i
    · rw [if_pos hj] at h
      cases h
      have hij : i = j := hj.symm
      rw [if_pos hij]
      rw [hij] at hval hjpos
      omega
    · rw [if_neg hj] at h
      have hv : cv = (joinedCount ts j : Int) := hInv.counts_val j cv h
      have hij : ¬ i = j := fun e => hj e.symm
      rw [if_neg hij, hv]
      simp
  case reg =>
    simp only []
    intro k' j h
    rcases hInv.reg k' j h with ⟨m, o, hm⟩ | ⟨m, w, hm⟩ | he
    · have hmn : m ≠ n := by
        intro he0
        rw [he0, hst] at hm
        cases hm
      exact Or.inl ⟨m, o,
        by rw [getElem?_set_other ts n m _ hmn]; exact hm⟩
    · have hmn : m ≠ n := by
        intro he0
        rw [he0, hst] at hm
        cases hm
      exact Or.inr (Or.inl ⟨m, w,
        by rw [getElem?_set_other ts n m _ hmn]; exact hm⟩)
    · exact Or.inr (Or.inr he)
  case res_iff =>
    simp only []
    intro j w
    have hiff : alookup s.results j = some w ↔
        (∃ (m : Nat), ts[m]? = some (.signalStage j w) ∨
          ts[m]? = some (.drainStage j w) ∨
          ts[m]? = some (.retireStage j w)) := hInv.res_iff j w
    rw [hiff]
    constructor
    · rintro ⟨m, hm⟩
      have hmn : m ≠ n := by
        intro he0
        rcases hm with hm | hm | hm <;> (rw [he0, hst] at hm; cases hm)
      exact ⟨m, by rw [getElem?_set_other ts n m _ hmn]; exact hm⟩
    · rintro ⟨m, hm⟩
      have hmn : m ≠ n := by
        intro he0
        rcases hm with hm | hm | hm <;>
          (rw [he0, getElem?_set_self ts n _ hn] at hm; simp at hm)
      rw [getElem?_set_other ts n m _ hmn] at hm
      exact ⟨m, hm⟩
  case evt =>
    simp only []
    intro j h
    rcases hInv.evt j h with ⟨m, w, hm⟩
    have hmn : m ≠ n := by
      intro he0
      rcases hm with hm | hm | hm | ⟨hm, -⟩ <;> (rw [he0, hst] at hm; cases hm)
    refine ⟨m, w, ?_⟩
    rcases hm with hm | hm | hm | ⟨hm, hcl⟩
    · exact Or.inl (by rw [getElem?_set_other ts n m _ hmn]; exact hm)
    · exact Or.inr (Or.inl
        (by rw [getElem?_set_other ts n m _ hmn]; exact hm))
    · exact Or.inr (Or.inr (Or.inl
        (by rw [getElem?_set_other ts n m _ hmn]; exact hm)))
    · exact Or.inr (Or.inr (Or.inr
        ⟨by rw [getElem?_set_other ts n m _ hmn]; exact hm, hclSup j hcl⟩))
  case clear_owner =>
    simp only []
    intro j h
    rcases hclCases j h with ⟨rfl, -⟩ | h
    · rcases howner with ⟨m, w, hm | hm | hm⟩ <;>
      · have hmn : m ≠ n := by
          intro he0
          rw [he0, hst] at hm
          cases hm
        refine ⟨m, w, ?_⟩
        rw [getElem?_set_other ts n m _ hmn]
        simp [hm]
    · rcases hInv.clear_owner j h with ⟨m, w, hm⟩
      have hmn : m ≠ n := by
        intro he0
        rcases hm with hm | hm | hm | hm <;> (rw [he0, hst] at hm; cases hm)
      refine ⟨m, w, ?_⟩
      rw [getElem?_set_other ts n m _ hmn]
      exact hm
  case kclear =>
    simp only []
    intro m j w hm
    have hmn : m ≠ n := by
      intro he0
      rcases hm with hm | hm <;>
        (rw [he0, getElem?_set_self ts n _ hn] at hm; simp at hm)
    rw [getElem?_set_other ts n m _ hmn] at hm
    exact hclSup j (hInv.kclear m j w hm)
  case clear_joined =>
    simp only []
    intro j h
    rw [hjset j]
    rcases hclCases j h with ⟨he0, hbr⟩ | h
    · have hij : i = j := he0.symm
      rw [if_pos hij]
      rw [hij] at hval hjpos
      omega
    · have hz : joinedCount ts j = 0 := hInv.clear_joined j h
      have hij : ¬ i = j := by
        intro e
        rw [e] at hjpos
        omega
      rw [if_neg hij]
      omega
  case owner_done_joined =>
    simp only []
    intro m j w hm
    rcases getElem?_set_cases hn hm with ⟨he1, he2⟩ | ⟨hmn, hm2⟩
    · cases he2
    · rw [hjset j]
      have hz : joinedCount ts j = 0 := hInv.owner_done_joined m j w hm2
      have hij : ¬ i = j := by
        intro e
        rw [e] at hjpos
        omega
      rw [if_neg hij]
      omega
  case consumer_done =>
    simp only []
    intro m j r hm
    rcases getElem?_set_cases hn hm with ⟨he1, he2⟩ | ⟨hmn, hm2⟩
    · cases he2
      exact ⟨hev, v, rfl⟩
    · exact hInv.consumer_done m j r hm2
  case joined_evt =>
    simp only []
    intro m j hm
    have hmn : m ≠ n := by
      intro he0
      rcases hm with hm | ⟨w, hm⟩ <;>
        (rw [he0, getElem?_set_self ts n _ hn] at hm; simp at hm)
    rw [getElem?_set_other ts n m _ hmn] at hm
    exact hInv.joined_evt m j hm
  case reading_res =>
    simp only []
    intro m j hm
    rcases getElem?_set_cases hn hm with ⟨he1, he2⟩ | ⟨hmn, hm2⟩
    · cases he2
    · exact hInv.reading_res m j hm2

end ThreadingDedup

namespace ThreadingDedup

/-- Every atomic step preserves the protocol invariant. -/
theorem inv_step (c : Config) (n : Nat) (hInv : Inv c) : Inv (step c n) := by
  obtain ⟨s, ts⟩ := c
  cases hst : ts[n]? with
  | none =>
    simpa [step, hst] using hInv
  | some st =>
    cases st with
    | start k fn out =>
      by_cases hg : (fn || (alookup s.running k).isNone) = true
      · simp only [step, hst, hg, if_true]
        exact inv_start_owner s ts n k fn out hInv hst
      · cases hr : alookup s.running k with
        | none =>
          rw [hr] at hg
          simp at hg
        | some i =>
          rw [hr] at hg
          simp at hg
          subst hg
          simp [step, hst, hr]
          exact inv_start_join s ts n k false out i hInv hst hr
    | producing k i out =>
      cases out with
      | ok v =>
        simp only [step, hst]
        exact inv_prod_ok s ts n k i v hInv hst
      | err e =>
        simp only [step, hst]
        exact inv_prod_err s ts n k i e hInv hst
    | deregStage k i v =>
      cases hr : alookup s.running k with
      | none =>
        simp only [step, hst, hr]
        exact inv_dereg_skip s ts n k i v hInv hst (by rw [hr]; intro h; cases h)
      | some j =>
        by_cases hj : j = i
        · subst hj
          simp only [step, hst, hr, if_pos rfl]
          exact inv_dereg_match s ts n k j v hInv hst hr
        · simp only [step, hst, hr, if_neg hj]
          exact inv_dereg_skip s ts n k i v hInv hst
            (by rw [hr]; intro h; exact hj (Option.some.inj h))
    | zeroCheckStage i v =>
      by_cases hz : (alookup s.counts i).getD 0 = 0
      · simp only [step, hst, hz, if_pos rfl]
        exact inv_zero_zero s ts n i v hInv hst hz
      · simp only [step, hst, if_neg hz]
        exact inv_zero_pos s ts n i v hInv hst hz
    | publishStage i v =>
      simp only [step, hst]
      exact inv_publish s ts n i v hInv hst
    | signalStage i v =>
      simp only [step, hst]
      exact inv_signal s ts n i v hInv hst
    | drainStage i v =>
      by_cases hcl : i ∈ s.clearSet
      · simp only [step, hst, hcl, if_true]
        exact inv_drain_go s ts n i v hInv hst hcl
      · simpa [step, hst, hcl] using hInv
    | retireStage i v =>
      simp only [step, hst]
      exact inv_retire s ts n i v hInv hst
    | removeCountStage i v =>
      simp only [step, hst]
      exact inv_removeCount s ts n i v hInv hst
    | waiting i =>
      by_cases hev : i ∈ s.eventSet
      · simp only [step, hst, hev, if_true]
        exact inv_wake s ts n i hInv hst hev
      · simpa [step, hst, hev] using hInv
    | reading i =>
      simp only [step, hst]
      exact inv_read s ts n i hInv hst
    | leaving i v =>
      simp only [step, hst]
      exact inv_leave s ts n i v hInv hst
    | finished ow i r =>
      simpa [step, hst] using hInv

/-- The invariant holds after any schedule from any configuration where it
holds. -/
theorem inv_exec (sched : List Nat) (c : Config) (hInv : Inv c) :
    Inv (exec sched c) := by
  induction sched generalizing c with
  | nil => exact hInv
  | cons n sched ih => exact ih (step c n) (inv_step c n hInv)

/-- The invariant holds in every reachable configuration. -/
theorem inv_reach (sched : List Nat)
    (callers : List (String × Bool × Outcome)) :
    Inv (exec sched (init callers)) :=
  inv_exec sched (init callers) (inv_init callers)

end ThreadingDedup

/-! ## Correspondence between the two instantiations

`AsyncDedup` runs the same protocol as `ThreadingDedup`, with several of the
threading variant's atomic sections fused into one segment (nothing can
interleave between two suspension points).  `astToSt` maps each async task
status to the threading status at the same protocol position, and `aexpand`
gives the threading micro-schedule corresponding to one async segment. -/

/-- The threading-thread status corresponding to an async task status. -/
def astToSt : AsyncDedup.St → ThreadingDedup.St
| .start k fn out => .start k fn out
| .producing k i out => .producing k i out
| .draining i v => .drainStage i v
| .waiting i => .waiting i
| .finished ow i r => .finished ow i r

/-- The threading configuration corresponding to an async configuration:
same stores, statuses translated pointwise. -/
def convC (c : AsyncDedup.Config) : ThreadingDedup.Config :=
  ⟨c.state, c.threads.map astToSt⟩

/-- The threading micro-schedule corresponding to one async step of task `n`:
each async segment is a block of consecutive micro-steps of the same thread,
whose length depends on the branch the segment takes. -/
def aexpand (c : AsyncDedup.Config) (n : Nat) : List Nat :=
  match c.threads[n]? with
  | none => [n]
  | some st =>
    match st with
    | .start _ _ _ => [n]
    | .producing _ i out =>
      match out with
      | .err _ => [n]
      | .ok _ =>
        if (alookup c.state.counts i).getD 0 = 0 then [n, n, n]
        else [n, n, n, n, n]
    | .draining i _ => if i ∈ c.state.clearSet then [n, n, n] else [n]
    | .waiting i => if i ∈ c.state.eventSet then [n, n, n] else [n]
    | .finished _ _ _ => [n]

/-- The full threading schedule corresponding to an async schedule. -/
def translateSched : List Nat → AsyncDedup.Config → List Nat
| [], _ => []
| n :: sched, c => aexpand c n ++ translateSched sched (AsyncDedup.step c n)

/-- One async segment equals its threading micro-schedule, run from the
corresponding configuration. -/
theorem sim_step (ac : AsyncDedup.Config) (n : Nat) :
    ThreadingDedup.exec (aexpand ac n) (convC ac)
      = convC (AsyncDedup.step ac n) := by
  obtain ⟨s, ats⟩ := ac
  cases hst : ats[n]? with
  | none =>
    have hconv : (List.map astToSt ats)[n]? = none := by
      rw [List.getElem?_map, hst]
      rfl
    simp [aexpand, hst, ThreadingDedup.exec, ThreadingDedup.step,
      AsyncDedup.step, convC, hconv]
  | some st =>
    rcases List.getElem?_eq_some.mp hst with ⟨hn, -⟩
    have hnm : n < (List.map astToSt ats).length := by simpa using hn
    have hconv : (List.map astToSt ats)[n]? = some (astToSt st) := by
      rw [List.getElem?_map, hst]
      rfl
    cases st with
    | start k fn out =>
      by_cases hg : (fn || (alookup s.running k).isNone) = true
      · simp [aexpand, hst, ThreadingDedup.exec, ThreadingDedup.step,
          AsyncDedup.step, convC, hconv, astToSt, hg, List.map_set]
      · cases hr : alookup s.running k with
        | none =>
          rw [hr] at hg
          simp at hg
        | some i =>
          rw [hr] at hg
          simp at hg
          subst hg
          simp [aexpand, hst, ThreadingDedup.exec, ThreadingDedup.step,
            AsyncDedup.step, convC, hconv, astToSt, hr, List.map_set]
    | finished ow i r =>
      simp [aexpand, hst, ThreadingDedup.exec, ThreadingDedup.step,
        AsyncDedup.step, convC, hconv, astToSt, List.map_set]
    | producing k i out =>
      cases out with
      | err e =>
        simp [aexpand, hst, ThreadingDedup.exec, ThreadingDedup.step,
          AsyncDedup.step, convC, hconv, astToSt, List.map_set]
      | ok v =>
        have hg1 : ((List.map astToSt ats).set n
            (ThreadingDedup.St.deregStage k i v))[n]? =
            some (ThreadingDedup.St.deregStage k i v) :=
          getElem?_set_self _ _ _ hnm
        have hg2 : ((List.map astToSt ats).set n
            (ThreadingDedup.St.zeroCheckStage i v))[n]? =
            some (ThreadingDedup.St.zeroCheckStage i v) :=
          getElem?_set_self _ _ _ hnm
        have hg3 : ((List.map astToSt ats).set n
            (ThreadingDedup.St.publishStage i v))[n]? =
            some (ThreadingDedup.St.publishStage i v) :=
          getElem?_set_self _ _ _ hnm
        have hg4 : ((List.map astToSt ats).set n
            (ThreadingDedup.St.signalStage i v))[n]? =
            some (ThreadingDedup.St.signalStage i v) :=
          getElem?_set_self _ _ _ hnm
        by_cases hz : (alookup s.counts i).getD 0 = 0
        · cases hrk : alookup s.running k with
          | none =>
            simp [aexpand, hst, hz, ThreadingDedup.exec, ThreadingDedup.step,
              AsyncDedup.step, convC, hconv, astToSt, hrk, List.map_set,
              List.set_set, hg1, hg2]
          | some j =>
            by_cases hj : j = i
            · subst hj
              simp [aexpand, hst, hz, ThreadingDedup.exec,
                ThreadingDedup.step, AsyncDedup.step, convC, hconv, astToSt,
                hrk, List.map_set, List.set_set, hg1, hg2]
            · simp [aexpand, hst, hz, ThreadingDedup.exec,
                ThreadingDedup.step, AsyncDedup.step, convC, hconv, astToSt,
                hrk, hj, List.map_set, List.set_set, hg1, hg2]
        · cases hrk : alookup s.running k with
          | none =>
            simp [aexpand, hst, hz, ThreadingDedup.exec, ThreadingDedup.step,
              AsyncDedup.step, convC, hconv, astToSt, hrk, List.map_set,
              List.set_set, hg1, hg2, hg3, hg4]
          | some j =>
            by_cases hj : j = i
            · subst hj
              simp [aexpand, hst, hz, ThreadingDedup.exec,
                ThreadingDedup.step, AsyncDedup.step, convC, hconv, astToSt,
                hrk, List.map_set, List.set_set, hg1, hg2, hg3, hg4]
            · simp [aexpand, hst, hz, ThreadingDedup.exec,
                ThreadingDedup.step, AsyncDedup.step, convC, hconv, astToSt,
                hrk, hj, List.map_set, List.set_set, hg1, hg2, hg3, hg4]
    | draining i v =>
      have hg5 : ((List.map astToSt ats).set n
          (ThreadingDedup.St.retireStage i v))[n]? =
          some (ThreadingDedup.St.retireStage i v) :=
        getElem?_set_self _ _ _ hnm
      have hg6 : ((List.map astToSt ats).set n
          (ThreadingDedup.St.removeCountStage i v))[n]? =
          some (ThreadingDedup.St.removeCountStage i v) :=
        getElem?_set_self _ _ _ hnm
      by_cases hcl : i ∈ s.clearSet
      · simp [aexpand, hst, hcl, ThreadingDedup.exec, ThreadingDedup.step,
          AsyncDedup.step, convC, hconv, astToSt, List.map_set, List.set_set,
          hg5, hg6]
      · simp [aexpand, hst, hcl, ThreadingDedup.exec, ThreadingDedup.step,
          AsyncDedup.step, convC, hconv, astToSt]
    | waiting i =>
      have hg7 : ((List.map astToSt ats).set n
          (ThreadingDedup.St.reading i))[n]? =
          some (ThreadingDedup.St.reading i) :=
        getElem?_set_self _ _ _ hnm
      have hg8 : ((List.map astToSt ats).set n
          (ThreadingDedup.St.leaving i ((alookup s.results i).getD 0)))[n]? =
          some (ThreadingDedup.St.leaving i ((alookup s.results i).getD 0)) :=
        getElem?_set_self _ _ _ hnm
      by_cases hev : i ∈ s.eventSet
      · simp [aexpand, hst, hev, ThreadingDedup.exec, ThreadingDedup.step,
          AsyncDedup.step, convC, hconv, astToSt, List.map_set, List.set_set,
          hg7, hg8]
      · simp [aexpand, hst, hev, ThreadingDedup.exec, ThreadingDedup.step,
          AsyncDedup.step, convC, hconv, astToSt]

/-- Any async schedule corresponds to a threading schedule with identical
effect on the stores and on every caller. -/
theorem sim_exec (sched : List Nat) (ac : AsyncDedup.Config) :
    ThreadingDedup.exec (translateSched sched ac) (convC ac)
      = convC (AsyncDedup.exec sched ac) := by
  induction sched generalizing ac with
  | nil => rfl
  | cons n sched ih =>
    have happ : ThreadingDedup.exec
        (aexpand ac n ++ translateSched sched (AsyncDedup.step ac n))
        (convC ac)
        = ThreadingDedup.exec (translateSched sched (AsyncDedup.step ac n))
          (ThreadingDedup.exec (aexpand ac n) (convC ac)) :=
      List.foldl_append _ _ _ _
    rw [translateSched, happ, sim_step, ih]
    rfl

namespace ThreadingDedup

/-- After an owner has failed, nothing can ever set the completion event of
its execution: `QProp` is the stable core (no live owner-path thread for `i`,
event unset, `i` already allocated). -/
def QProp (c : Config) (i : Nat) : Prop :=
  i < c.state.nextId ∧
  (∀ (m : Nat) (st : St), c.threads[m]? = some st → ownerStage st ≠ some i) ∧
  i ∉ c.state.eventSet

theorem nextId_mono (c : Config) (n : Nat) :
    c.state.nextId ≤ (step c n).state.nextId := by
  obtain ⟨s, ts⟩ := c
  cases hst : ts[n]? with
  | none => simp [step, hst]
  | some st =>
    cases st with
    | start k fn out =>
      by_cases hg : (fn || (alookup s.running k).isNone) = true
      · simp only [step, hst, hg, if_true]
        simp
      · cases hr : alookup s.running k with
        | none =>
          rw [hr] at hg
          simp at hg
        | some i =>
          rw [hr] at hg
          simp at hg
          subst hg
          simp [step, hst, hr]
    | producing k i out => cases out <;> simp [step, hst]
    | deregStage k i v =>
      cases hr : alookup s.running k with
      | none => simp [step, hst, hr]
      | some j =>
        by_cases hj : j = i
        · simp [step, hst, hr, hj]
        · simp [step, hst, hr, hj]
    | zeroCheckStage i v =>
      by_cases hz : (alookup s.counts i).getD 0 = 0
      · simp [step, hst, hz]
      · simp [step, hst, hz]
    | publishStage i v => simp [step, hst]
    | signalStage i v => simp [step, hst]
    | drainStage i v =>
      by_cases hcl : i ∈ s.clearSet
      · simp [step, hst, hcl]
      · simp [step, hst, hcl]
    | retireStage i v => simp [step, hst]
    | removeCountStage i v => simp [step, hst]
    | waiting i =>
      by_cases hev : i ∈ s.eventSet
      · simp [step, hst, hev]
      · simp [step, hst, hev]
    | reading i => simp [step, hst]
    | leaving i v => simp [step, hst]
    | finished ow i r => simp [step, hst]

theorem q_step (c : Config) (n : Nat) (i : Nat) (hq : QProp c i) :
    QProp (step c n) i ∧
    (∀ (m : Nat), c.threads[m]? = some (.waiting i) →
      (step c n).threads[m]? = some (.waiting i)) := by
  obtain ⟨s, ts⟩ := c
  obtain ⟨h1, h2, h3⟩ := hq
  replace h1 : i < s.nextId := h1
  replace h2 : ∀ (m : Nat) (st : St), ts[m]? = some st →
      ownerStage st ≠ some i := h2
  replace h3 : i ∉ s.eventSet := h3
  have hmono : s.nextId ≤ (step ⟨s, ts⟩ n).state.nextId := nextId_mono ⟨s, ts⟩ n
  have hnext : i < (step ⟨s, ts⟩ n).state.nextId := by omega
  cases hst : ts[n]? with
  | none =>
    refine ⟨⟨hnext, ?_, ?_⟩, ?_⟩
    · simpa [step, hst] using h2
    · simpa [step, hst] using h3
    · intro m hm
      simpa [step, hst] using hm
  | some st =>
    rcases List.getElem?_eq_some.mp hst with ⟨hn, -⟩
    have hpres : ∀ (a : St), (st = .waiting i → False) →
        (∀ (m : Nat), ts[m]? = some (.waiting i) →
          (ts.set n a)[m]? = some (.waiting i)) := by
      intro a hne m hm
      have hmn : m ≠ n := by
        intro he0
        rw [he0, hst] at hm
        exact hne (Option.some.inj hm)
      rw [getElem?_set_other ts n m _ hmn]
      exact hm
    have hown : ∀ (a : St), (ownerStage a ≠ some i) →
        ∀ (m : Nat) (st' : St), (ts.set n a)[m]? = some st' →
          ownerStage st' ≠ some i := by
      intro a ha m st' hm
      rcases getElem?_set_cases hn hm with ⟨he1, he2⟩ | ⟨hmn, hm2⟩
      · subst he2
        exact ha
      · exact h2 m st' hm2
    cases st with
    | start k fn out =>
      by_cases hg : (fn || (alookup s.running k).isNone) = true
      · refine ⟨⟨hnext, ?_, ?_⟩, ?_⟩
        · simp only [step, hst, hg, if_true]
          refine hown _ ?_
          simp only [ownerStage]
          intro he
          have : i = s.nextId := (Option.some.inj he).symm
          omega
        · simpa only [step, hst, hg, if_true] using h3
        · intro m hm
          simp only [step, hst, hg, if_true]
          exact hpres _ (by intro h; cases h) m hm
      · cases hr : alookup s.running k with
        | none =>
          rw [hr] at hg
          simp at hg
        | some j =>
          rw [hr] at hg
          simp at hg
          subst hg
          refine ⟨⟨hnext, ?_, ?_⟩, ?_⟩
          · simp only [step, hst, hr]
            simp only [Bool.false_or, Option.isNone_some]
            refine hown _ ?_
            simp [ownerStage]
          · simpa [step, hst, hr] using h3
          · intro m hm
            simp only [step, hst, hr]
            simp only [Bool.false_or, Option.isNone_some]
            exact hpres _ (by intro h; cases h) m hm
    | producing k j out =>
      have hji : ownerStage (St.producing k j out) ≠ some i :=
        h2 n _ hst
      simp only [ownerStage] at hji
      cases out with
      | ok v =>
        refine ⟨⟨hnext, ?_, ?_⟩, ?_⟩
        · simp only [step, hst]
          refine hown _ ?_
          simpa [ownerStage] using hji
        · simpa [step, hst] using h3
        · intro m hm
          simp only [step, hst]
          exact hpres _ (by intro h; cases h) m hm
      | err e =>
        refine ⟨⟨hnext, ?_, ?_⟩, ?_⟩
        · simp only [step, hst]
          refine hown _ ?_
          simp [ownerStage]
        · simpa [step, hst] using h3
        · intro m hm
          simp only [step, hst]
          exact hpres _ (by intro h; cases h) m hm
    | deregStage k j v =>
      have hji : ownerStage (St.deregStage k j v) ≠ some i := h2 n _ hst
      simp only [ownerStage] at hji
      cases hr : alookup s.running k with
      | none =>
        refine ⟨⟨hnext, ?_, ?_⟩, ?_⟩
        · simp only [step, hst, hr]
          refine hown _ ?_
          simpa [ownerStage] using hji
        · simpa [step, hst, hr] using h3
        · intro m hm
          simp only [step, hst, hr]
          exact hpres _ (by intro h; cases h) m hm
      | some j2 =>
        by_cases hj2 : j2 = j
        · subst hj2
          refine ⟨⟨hnext, ?_, ?_⟩, ?_⟩
          · simp only [step, hst, hr, if_pos rfl]
            refine hown _ ?_
            simpa [ownerStage] using hji
          · simpa [step, hst, hr] using h3
          · intro m hm
            simp only [step, hst, hr, if_pos rfl]
            exact hpres _ (by intro h; cases h) m hm
        · refine ⟨⟨hnext, ?_, ?_⟩, ?_⟩
          · simp only [step, hst, hr, if_neg hj2]
            refine hown _ ?_
            simpa [ownerStage] using hji
          · simpa [step, hst, hr, hj2] using h3
          · intro m hm
            simp only [step, hst, hr, if_neg hj2]
            exact hpres _ (by intro h; cases h) m hm
    | zeroCheckStage j v =>
      have hji : ownerStage (St.zeroCheckStage j v) ≠ some i := h2 n _ hst
      simp only [ownerStage] at hji
      by_cases hz : (alookup s.counts j).getD 0 = 0
      · refine ⟨⟨hnext, ?_, ?_⟩, ?_⟩
        · simp only [step, hst, hz, if_pos rfl]
          refine hown _ ?_
          simp [ownerStage]
        · simpa [step, hst, hz] using h3
        · intro m hm
          simp only [step, hst, hz, if_pos rfl]
          exact hpres _ (by intro h; cases h) m hm
      · refine ⟨⟨hnext, ?_, ?_⟩, ?_⟩
        · simp only [step, hst, if_neg hz]
          refine hown _ ?_
          simpa [ownerStage] using hji
        · simpa [step, hst, hz] using h3
        · intro m hm
          simp only [step, hst, if_neg hz]
          exact hpres _ (by intro h; cases h) m hm
    | publishStage j v =>
      have hji : ownerStage (St.publishStage j v) ≠ some i := h2 n _ hst
      simp only [ownerStage] at hji
      refine ⟨⟨hnext, ?_, ?_⟩, ?_⟩
      · simp only [step, hst]
        refine hown _ ?_
        simpa [ownerStage] using hji
      · simpa [step, hst] using h3
      · intro m hm
        simp only [step, hst]
        exact hpres _ (by intro h; cases h) m hm
    | signalStage j v =>
      have hji : ownerStage (St.signalStage j v) ≠ some i := h2 n _ hst
      simp only [ownerStage] at hji
      refine ⟨⟨hnext, ?_, ?_⟩, ?_⟩
      · simp only [step, hst]
        refine hown _ ?_
        simpa [ownerStage] using hji
      · simp only [step, hst]
        intro hmem
        rcases List.mem_cons.mp hmem with he0 | hmem
        · exact hji (by rw [he0])
        · exact h3 hmem
      · intro m hm
        simp only [step, hst]
        exact hpres _ (by intro h; cases h) m hm
    | drainStage j v =>
      have hji : ownerStage (St.drainStage j v) ≠ some i := h2 n _ hst
      simp only [ownerStage] at hji
      by_cases hcl : j ∈ s.clearSet
      · refine ⟨⟨hnext, ?_, ?_⟩, ?_⟩
        · simp only [step, hst, hcl, if_true]
          refine hown _ ?_
          simpa [ownerStage] using hji
        · simpa [step, hst, hcl] using h3
        · intro m hm
          simp only [step, hst, hcl, if_true]
          exact hpres _ (by intro h; cases h) m hm
      · refine ⟨⟨hnext, ?_, ?_⟩, ?_⟩
        · simpa [step, hst, hcl] using h2
        · simpa [step, hst, hcl] using h3
        · intro m hm
          simpa [step, hst, hcl] using hm
    | retireStage j v =>
      have hji : ownerStage (St.retireStage j v) ≠ some i := h2 n _ hst
      simp only [ownerStage] at hji
      refine ⟨⟨hnext, ?_, ?_⟩, ?_⟩
      · simp only [step, hst]
        refine hown _ ?_
        simpa [ownerStage] using hji
      · simpa [step, hst] using h3
      · intro m hm
        simp only [step, hst]
        exact hpres _ (by intro h; cases h) m hm
    | removeCountStage j v =>
      refine ⟨⟨hnext, ?_, ?_⟩, ?_⟩
      · simp only [step, hst]
        refine hown _ ?_
        simp [ownerStage]
      · simpa [step, hst] using h3
      · intro m hm
        simp only [step, hst]
        exact hpres _ (by intro h; cases h) m hm
    | waiting j =>
      by_cases hev : j ∈ s.eventSet
      · have hji : j ≠ i := by
          intro he0
          rw [he0] at hev
          exact h3 hev
        refine ⟨⟨hnext, ?_, ?_⟩, ?_⟩
        · simp only [step, hst, hev, if_true]
          refine hown _ ?_
          simp [ownerStage]
        · simpa [step, hst, hev] using h3
        · intro m hm
          simp only [step, hst, hev, if_true]
          exact hpres _ (by
            intro h
            cases h
            exact hji rfl) m hm
      · refine ⟨⟨hnext, ?_, ?_⟩, ?_⟩
        · simpa [step, hst, hev] using h2
        · simpa [step, hst, hev] using h3
        · intro m hm
          simpa [step, hst, hev] using hm
    | reading j =>
      refine ⟨⟨hnext, ?_, ?_⟩, ?_⟩
      · simp only [step, hst]
        refine hown _ ?_
        simp [ownerStage]
      · simpa [step, hst] using h3
      · intro m hm
        simp only [step, hst]
        exact hpres _ (by intro h; cases h) m hm
    | leaving j v =>
      refine ⟨⟨hnext, ?_, ?_⟩, ?_⟩
      · simp only [step, hst]
        refine hown _ ?_
        simp [ownerStage]
      · simpa [step, hst] using h3
      · intro m hm
        simp only [step, hst]
        exact hpres _ (by intro h; cases h) m hm
    | finished ow j r =>
      refine ⟨⟨hnext, ?_, ?_⟩, ?_⟩
      · simpa [step, hst] using h2
      · simpa [step, hst] using h3
      · intro m hm
        simpa [step, hst] using hm

end ThreadingDedup

namespace ThreadingDedup

theorem q_exec (sched : List Nat) (c : Config) (i : Nat) (hq : QProp c i) :
    QProp (exec sched c) i ∧
    (∀ (m : Nat), c.threads[m]? = some (.waiting i) →
      (exec sched c).threads[m]? = some (.waiting i)) := by
  induction sched generalizing c with
  | nil => exact ⟨hq, fun m hm => hm⟩
  | cons n sched ih =>
    rcases q_step c n i hq with ⟨hq1, hw1⟩
    rcases ih (step c n) hq1 with ⟨hq2, hw2⟩
    exact ⟨hq2, fun m hm => hw2 m (hw1 m hm)⟩

/-- Once an owner has finished by raising, its execution's completion event
can never be set. -/
theorem qprop_of_finished_err (sched : List Nat)
    (callers : List (String × Bool × Outcome)) (n : Nat) (i : Nat)
    (e : String)
    (hfin : (exec sched (init callers)).threads[n]? =
      some (.finished true i (.err e))) :
    QProp (exec sched (init callers)) i := by
  have hInv := inv_reach sched callers
  refine ⟨?_, ?_, ?_⟩
  · exact hInv.fresh_id n _ i hfin (by simp [idOf])
  · intro m st hm ho
    have htag : ownerTag st = some i := ownerTag_of_ownerStage ho
    have hmn : m = n := hInv.uniq m n _ _ i hm hfin htag (by simp [ownerTag])
    subst hmn
    rw [hfin] at hm
    cases hm
    simp [ownerStage] at ho
  · intro hev
    rcases hInv.evt i hev with ⟨m, v, hm | hm | hm | ⟨hm, -⟩⟩ <;>
    · have hmn : m = n := hInv.uniq m n _ _ i hm hfin
        (by simp [ownerTag]) (by simp [ownerTag])
      rw [hmn, hfin] at hm
      cases hm

end ThreadingDedup

/-! ## Transport between the two instantiations, and claim-level helpers -/

theorem convC_init (callers : List (String × Bool × Outcome)) :
    convC (AsyncDedup.init callers) = ThreadingDedup.init callers := by
  simp [convC, AsyncDedup.init, ThreadingDedup.init, List.map_map,
    Function.comp, astToSt]

/-- Running the translated schedule on the threading machine lands exactly on
the image of the async machine's final configuration. -/
theorem async_exec_convC (sched : List Nat)
    (callers : List (String × Bool × Outcome)) :
    ThreadingDedup.exec (translateSched sched (AsyncDedup.init callers))
      (ThreadingDedup.init callers)
      = convC (AsyncDedup.exec sched (AsyncDedup.init callers)) := by
  rw [← convC_init, sim_exec]

/-- The threading protocol invariant holds on the image of every reachable
async configuration. -/
theorem async_inv (sched : List Nat)
    (callers : List (String × Bool × Outcome)) :
    ThreadingDedup.Inv (convC (AsyncDedup.exec sched (AsyncDedup.init callers))) := by
  rw [← async_exec_convC]
  exact ThreadingDedup.inv_reach _ callers

theorem convC_threads (ac : AsyncDedup.Config) (n : Nat) :
    (convC ac).threads[n]? = (ac.threads[n]?).map astToSt := by
  simp [convC, List.getElem?_map]

theorem convC_threads_some (ac : AsyncDedup.Config) (n : Nat)
    (ast : AsyncDedup.St) (h : ac.threads[n]? = some ast) :
    (convC ac).threads[n]? = some (astToSt ast) := by
  rw [convC_threads, h]
  rfl

namespace ThreadingDedup

/-- General form of `qprop_of_finished_err` over any invariant
configuration. -/
theorem qprop_of_finished_err_inv (c : Config) (hInv : Inv c) (n : Nat)
    (i : Nat) (e : String)
    (hfin : c.threads[n]? = some (.finished true i (.err e))) :
    QProp c i := by
  refine ⟨?_, ?_, ?_⟩
  · exact hInv.fresh_id n _ i hfin (by simp [idOf])
  · intro m st hm ho
    have htag : ownerTag st = some i := ownerTag_of_ownerStage ho
    have hmn : m = n := hInv.uniq m n _ _ i hm hfin htag (by simp [ownerTag])
    subst hmn
    rw [hfin] at hm
    cases hm
    simp [ownerStage] at ho
  · intro hev
    rcases hInv.evt i hev with ⟨m, v, hm | hm | hm | ⟨hm, -⟩⟩ <;>
    · have hmn : m = n := hInv.uniq m n _ _ i hm hfin
        (by simp [ownerTag]) (by simp [ownerTag])
      rw [hmn, hfin] at hm
      cases hm

/-- An owner that has finished with a value leaves no trace of its execution
in any store, and no consumer of it is still joined. -/
theorem finished_ok_clean (c : Config) (hInv : Inv c) (n : Nat) (i : Nat)
    (v : Int) (hfin : c.threads[n]? = some (.finished true i (.ok v))) :
    alookup c.state.counts i = none ∧
    alookup c.state.results i = none ∧
    (∀ (k : String), alookup c.state.running k ≠ some i) ∧
    joinedCount c.threads i = 0 := by
  refine ⟨?_, ?_, ?_, ?_⟩
  · cases hc : alookup c.state.counts i with
    | none => rfl
    | some cv =>
      exfalso
      rcases (hInv.counts_some i).mp (by simp [hc]) with
        ⟨m, st, hm, ho⟩ | ⟨e, he⟩
      · have hmn : m = n := hInv.uniq m n _ _ i hm hfin
          (ownerTag_of_ownerStage ho) (by simp [ownerTag])
        subst hmn
        rw [hfin] at hm
        cases hm
        simp [ownerStage] at ho
      · have := hInv.prod_finished n true i (.ok v) hfin
        rw [this] at he
        cases he
  · cases hr : alookup c.state.results i with
    | none => rfl
    | some w =>
      exfalso
      rcases (hInv.res_iff i w).mp hr with ⟨m, hm | hm | hm⟩ <;>
      · have hmn : m = n := hInv.uniq m n _ _ i hm hfin
          (by simp [ownerTag]) (by simp [ownerTag])
        rw [hmn, hfin] at hm
        cases hm
  · intro k hk
    rcases hInv.reg k i hk with ⟨m, o, hm⟩ | ⟨m, w, hm⟩ | ⟨e, he⟩
    · have hmn : m = n := hInv.uniq m n _ _ i hm hfin
        (by simp [ownerTag]) (by simp [ownerTag])
      rw [hmn, hfin] at hm
      cases hm
    · have hmn : m = n := hInv.uniq m n _ _ i hm hfin
        (by simp [ownerTag]) (by simp [ownerTag])
      rw [hmn, hfin] at hm
      cases hm
    · have := hInv.prod_finished n true i (.ok v) hfin
      rw [this] at he
      cases he
  · exact hInv.owner_done_joined n i v hfin

/-- Any two callers served by the same execution finish with the same
outcome. -/
theorem finished_agree (c : Config) (hInv : Inv c) (n m : Nat)
    (ow ow' : Bool) (i : Nat) (r r' : Outcome)
    (h : c.threads[n]? = some (.finished ow i r))
    (h' : c.threads[m]? = some (.finished ow' i r')) : r = r' := by
  have h1 := hInv.prod_finished n ow i r h
  have h2 := hInv.prod_finished m ow' i r' h'
  rw [h1] at h2
  exact Option.some.inj h2

/-- An owner finishing with a value after at least one consumer finished, or
while one is still joined, has set the completion event. -/
theorem owner_ok_signalled (c : Config) (hInv : Inv c) (n : Nat) (i : Nat)
    (v : Int) (hfin : c.threads[n]? = some (.finished true i (.ok v)))
    (hcons : (∃ (m : Nat) (r : Outcome),
        c.threads[m]? = some (.finished false i r)) ∨
      (∃ (m : Nat) (st : St), c.threads[m]? = some st ∧
        isJoinedOn st i = true)) :
    i ∈ c.state.eventSet := by
  rcases hcons with ⟨m, r, hm⟩ | ⟨m, st, hm, hj⟩
  · exact (hInv.consumer_done m i r hm).1
  · exfalso
    have hz : joinedCount c.threads i = 0 := hInv.owner_done_joined n i v hfin
    have hp : 0 < joinedCount c.threads i := joinedCount_pos _ m st i hm hj
    omega

/-- A zero-check that sees a joined consumer takes the broadcast branch. -/
theorem zero_check_broadcast (c : Config) (hInv : Inv c) (n : Nat) (i : Nat)
    (v : Int) (hst : c.threads[n]? = some (.zeroCheckStage i v))
    (hjoined : ∃ (m : Nat) (st : St), c.threads[m]? = some st ∧
      isJoinedOn st i = true) :
    (step c n).threads[n]? = some (.publishStage i v) := by
  obtain ⟨s, ts⟩ := c
  rcases List.getElem?_eq_some.mp hst with ⟨hn, -⟩
  have hsome : (alookup s.counts i).isSome :=
    (hInv.counts_some i).mpr (Or.inl ⟨n, _, hst, by simp [ownerStage]⟩)
  rcases Option.isSome_iff_exists.mp hsome with ⟨cv, hcv⟩
  have hval : cv = (joinedCount ts i : Int) := hInv.counts_val i cv hcv
  rcases hjoined with ⟨m, st, hm, hj⟩
  have hp : 0 < joinedCount ts i := joinedCount_pos _ m st i hm hj
  have hz : ¬ (alookup s.counts i).getD 0 = 0 := by
    rw [hcv]
    simp only [Option.getD_some]
    omega
  simp only [step, hst, if_neg hz]
  exact getElem?_set_self ts n _ hn

/-- A caller that looks up the registry and finds an execution joins it: it
becomes a waiting consumer and increments that execution's count. -/
theorem lookup_joins (c : Config) (n : Nat) (k : String) (out : Outcome)
    (i : Nat) (hst : c.threads[n]? = some (.start k false out))
    (hrun : alookup c.state.running k = some i) :
    (step c n).threads[n]? = some (.waiting i) ∧
    alookup (step c n).state.counts i =
      some ((alookup c.state.counts i).getD 0 + 1) := by
  obtain ⟨s, ts⟩ := c
  rcases List.getElem?_eq_some.mp hst with ⟨hn, -⟩
  have hg : (false || (alookup s.running k).isNone) = false := by
    rw [hrun]
    rfl
  constructor
  · simp only [step, hst, hg, Bool.false_eq_true, if_false, hrun]
    exact getElem?_set_self ts n _ hn
  · simp only [step, hst, hg, Bool.false_eq_true, if_false, hrun]
    simp

end ThreadingDedup

namespace ThreadingDedup

/-- Every step either leaves the thread list unchanged or rewrites only the
scheduled thread's own slot. -/
theorem step_threads (c : Config) (m : Nat) :
    (step c m).threads = c.threads ∨
    ∃ (st : St), (step c m).threads = c.threads.set m st := by
  obtain ⟨s, ts⟩ := c
  cases hm : ts[m]? with
  | none =>
    left
    simp [step, hm]
  | some st =>
    cases st <;> simp only [step, hm] <;> (repeat' split) <;>
      first
      | (left; rfl)
      | (left; trivial)
      | (right; exact ⟨_, rfl⟩)

/-- A finished caller stays finished with the same outcome, whatever runs. -/
theorem finished_step (c : Config) (m n : Nat) (ow : Bool) (i : Nat)
    (r : Outcome) (h : c.threads[n]? = some (.finished ow i r)) :
    (step c m).threads[n]? = some (.finished ow i r) := by
  by_cases hmn : m = n
  · subst hmn
    obtain ⟨s, ts⟩ := c
    simp only [] at h
    simp [step, h]
  · rcases step_threads c m with he | ⟨st, he⟩
    · rw [he]
      exact h
    · rw [he, getElem?_set_other _ _ _ _ (fun e => hmn e.symm)]
      exact h

theorem finished_exec (sched : List Nat) (c : Config) (n : Nat) (ow : Bool)
    (i : Nat) (r : Outcome) (h : c.threads[n]? = some (.finished ow i r)) :
    (exec sched c).threads[n]? = some (.finished ow i r) := by
  induction sched generalizing c with
  | nil => exact h
  | cons m sched ih => exact ih (step c m) (finished_step c m n ow i r h)

/-- If no live thread is on the owner path of execution `i`, the Outcome
Store has no entry for `i`. -/
theorem results_none_of_no_owner (c : Config) (hInv : Inv c) (i : Nat)
    (hno : ∀ (m : Nat) (st : St), c.threads[m]? = some st →
      ownerStage st ≠ some i) :
    alookup c.state.results i = none := by
  cases hr : alookup c.state.results i with
  | none => rfl
  | some w =>
    exfalso
    rcases (hInv.res_iff i w).mp hr with ⟨m, hm | hm | hm⟩ <;>
      exact hno m _ hm (by simp [ownerStage])

/-- A `forceNew` caller always takes the install branch: it becomes the
producing owner of a fresh execution, installed over whatever the registry
held for its key. -/
theorem force_new_owner_step (c : Config) (hInv : Inv c) (n : Nat)
    (k : String) (out : Outcome)
    (hst : c.threads[n]? = some (.start k true out)) :
    (step c n).threads[n]? = some (.producing k c.state.nextId out) ∧
    alookup (step c n).state.running k = some c.state.nextId ∧
    alookup (step c n).state.counts c.state.nextId = some 0 ∧
    (step c n).state.nextId = c.state.nextId + 1 ∧
    c.state.nextId ∉ c.state.installs ∧
    (∀ (both : String), alookup c.state.running both ≠ some c.state.nextId) ∧
    c.state.nextId ∉ c.state.eventSet ∧
    c.state.nextId ∉ c.state.clearSet := by
  obtain ⟨s, ts⟩ := c
  simp only [] at hst
  rcases List.getElem?_eq_some.mp hst with ⟨hn, -⟩
  refine ⟨?_, ?_, ?_, ?_, ?_, ?_, ?_, ?_⟩
  · simp only [step, hst, Bool.true_or, if_true]
    exact getElem?_set_self ts n _ hn
  · simp [step, hst]
  · simp [step, hst]
  · simp [step, hst]
  · intro hmem
    have h1 : s.nextId < s.nextId := hInv.fresh_installs s.nextId hmem
    omega
  · intro k' hk
    have h1 : s.nextId < s.nextId := hInv.fresh_running k' s.nextId hk
    omega
  · intro hmem
    have h1 : s.nextId < s.nextId := hInv.fresh_event s.nextId hmem
    omega
  · intro hmem
    have h1 : s.nextId < s.nextId := hInv.fresh_clear s.nextId hmem
    omega

/-- A zero-check that finds no registered interest discards the outcome:
the owner deletes the counter entry and returns the produced value directly,
touching neither the Outcome Store nor the completion event. -/
theorem zero_check_discard (c : Config) (n : Nat) (i : Nat) (v : Int)
    (hst : c.threads[n]? = some (.zeroCheckStage i v))
    (hz : alookup c.state.counts i = some 0) :
    step c n = ⟨{ c.state with counts := aerase c.state.counts i },
      c.threads.set n (.finished true i (.ok v)) ⟩ := by
  obtain ⟨s, ts⟩ := c
  simp only [] at hst hz
  simp [step, hst, hz]

end ThreadingDedup

namespace ThreadingDedup

/-- A producer that raises finishes its caller with the very same error and
touches no store at all (only the ghost history records the failure): the
exception propagates out of `run` before `_handle_result` is entered. -/
theorem producer_raise_step (c : Config) (n : Nat) (k : String) (i : Nat)
    (e : String) (hst : c.threads[n]? = some (.producing k i (.err e))) :
    step c n = ⟨{ c.state with produced := aupd c.state.produced i (.err e) },
      c.threads.set n (.finished true i (.err e)) ⟩ := by
  obtain ⟨s, ts⟩ := c
  simp only [] at hst
  simp [step, hst]

/-- Deregistration when the registry entry was replaced by a newer execution:
pure no-op on the whole state, the owner proceeds to its zero-check. -/
theorem dereg_skip_frame (c : Config) (n : Nat) (k : String) (i j : Nat)
    (v : Int) (hst : c.threads[n]? = some (.deregStage k i v))
    (hr : alookup c.state.running k = some j) (hj : j ≠ i) :
    step c n = ⟨c.state, c.threads.set n (.zeroCheckStage i v)⟩ := by
  obtain ⟨s, ts⟩ := c
  simp only [] at hst hr
  simp [step, hst, hr, hj]

/-- Deregistration when the registry entry is already gone: also a no-op. -/
theorem dereg_none_frame (c : Config) (n : Nat) (k : String) (i : Nat)
    (v : Int) (hst : c.threads[n]? = some (.deregStage k i v))
    (hr : alookup c.state.running k = none) :
    step c n = ⟨c.state, c.threads.set n (.zeroCheckStage i v)⟩ := by
  obtain ⟨s, ts⟩ := c
  simp only [] at hst hr
  simp [step, hst, hr]

/-- Deregistration when the entry still references this owner's internal key:
exactly that entry is removed, nothing else changes. -/
theorem dereg_match_shape (c : Config) (n : Nat) (k : String) (i : Nat)
    (v : Int) (hst : c.threads[n]? = some (.deregStage k i v))
    (hr : alookup c.state.running k = some i) :
    step c n = ⟨{ c.state with running := aerase c.state.running k },
      c.threads.set n (.zeroCheckStage i v)⟩ := by
  obtain ⟨s, ts⟩ := c
  simp only [] at hst hr
  simp [step, hst, hr]

end ThreadingDedup

/-- The status translation reflects `waiting`. -/
theorem astToSt_waiting (ast : AsyncDedup.St) (i : Nat)
    (h : astToSt ast = ThreadingDedup.St.waiting i) : ast = .waiting i := by
  cases ast <;> simp_all [astToSt]

/-- After an async owner has raised, the completion event of its execution is
never set and every consumer already suspended on it stays suspended, under
every continuation schedule. -/
theorem a_err_starves (sched sched2 : List Nat)
    (callers : List (String × Bool × Outcome)) (n : Nat) (i : Nat) (e : String)
    (hfin : (AsyncDedup.exec sched (AsyncDedup.init callers)).threads[n]? =
      some (.finished true i (.err e))) :
    i ∉ (AsyncDedup.exec sched2
        (AsyncDedup.exec sched (AsyncDedup.init callers))).state.eventSet ∧
    ∀ (m : Nat),
      (AsyncDedup.exec sched (AsyncDedup.init callers)).threads[m]? =
        some (.waiting i) →
      (AsyncDedup.exec sched2
        (AsyncDedup.exec sched (AsyncDedup.init callers))).threads[m]? =
        some (.waiting i) := by
  have hInv := async_inv sched callers
  have hfc : (convC (AsyncDedup.exec sched (AsyncDedup.init callers))).threads[n]?
      = some (ThreadingDedup.St.finished true i (.err e)) :=
    convC_threads_some _ n _ hfin
  have hq := ThreadingDedup.qprop_of_finished_err_inv _ hInv n i e hfc
  have h2 := ThreadingDedup.q_exec
    (translateSched sched2 (AsyncDedup.exec sched (AsyncDedup.init callers)))
    (convC (AsyncDedup.exec sched (AsyncDedup.init callers))) i hq
  rw [sim_exec] at h2
  constructor
  · exact h2.1.2.2
  · intro m hm
    have h3 := h2.2 m (convC_threads_some _ m _ hm)
    rw [convC_threads] at h3
    cases ha : (AsyncDedup.exec sched2
        (AsyncDedup.exec sched (AsyncDedup.init callers))).threads[m]? with
    | none => rw [ha] at h3; cases h3
    | some ast =>
      rw [ha] at h3
      have h4 : astToSt ast = ThreadingDedup.St.waiting i := Option.some.inj h3
      exact congrArg some (astToSt_waiting ast i h4)

/-- An async `forceNew` caller always takes the install branch of `run`. -/
theorem force_new_owner_astep (ac : AsyncDedup.Config)
    (hInv : ThreadingDedup.Inv (convC ac)) (n : Nat) (k : String)
    (out : Outcome) (hst : ac.threads[n]? = some (.start k true out)) :
    (AsyncDedup.step ac n).threads[n]? =
      some (.producing k ac.state.nextId out) ∧
    alookup (AsyncDedup.step ac n).state.running k = some ac.state.nextId ∧
    alookup (AsyncDedup.step ac n).state.counts ac.state.nextId = some 0 ∧
    (AsyncDedup.step ac n).state.nextId = ac.state.nextId + 1 ∧
    ac.state.nextId ∉ ac.state.installs ∧
    (∀ (both : String), alookup ac.state.running both ≠ some ac.state.nextId) ∧
    ac.state.nextId ∉ ac.state.eventSet ∧
    ac.state.nextId ∉ ac.state.clearSet := by
  obtain ⟨s, ts⟩ := ac
  simp only [] at hst
  rcases List.getElem?_eq_some.mp hst with ⟨hn, -⟩
  refine ⟨?_, ?_, ?_, ?_, ?_, ?_, ?_, ?_⟩
  · simp only [AsyncDedup.step, hst, Bool.true_or, if_true]
    exact getElem?_set_self ts n _ hn
  · simp [AsyncDedup.step, hst]
  · simp [AsyncDedup.step, hst]
  · simp [AsyncDedup.step, hst]
  · intro hmem
    have h1 : s.nextId < s.nextId := hInv.fresh_installs s.nextId hmem
    omega
  · intro k' hk
    have h1 : s.nextId < s.nextId := hInv.fresh_running k' s.nextId hk
    omega
  · intro hmem
    have h1 : s.nextId < s.nextId := hInv.fresh_event s.nextId hmem
    omega
  · intro hmem
    have h1 : s.nextId < s.nextId := hInv.fresh_clear s.nextId hmem
    omega

/-- An async producer that raises finishes its task with the very same error
and touches no store (`await coro` raises before any mutation). -/
theorem a_producer_raise_step (ac : AsyncDedup.Config) (n : Nat) (k : String)
    (i : Nat) (e : String)
    (hst : ac.threads[n]? = some (.producing k i (.err e))) :
    AsyncDedup.step ac n =
      ⟨{ ac.state with produced := aupd ac.state.produced i (.err e) },
        ac.threads.set n (.finished true i (.err e)) ⟩ := by
  obtain ⟨s, ts⟩ := ac
  simp only [] at hst
  simp [AsyncDedup.step, hst]

/-- An async owner whose post-deregistration zero-check finds no interest
discards the outcome: the counter entry goes, the task returns the produced
value directly, and results and the completion event are untouched. -/
theorem a_zero_discard (ac : AsyncDedup.Config) (n : Nat) (k : String)
    (i : Nat) (v : Int)
    (hst : ac.threads[n]? = some (.producing k i (.ok v)))
    (hz : alookup ac.state.counts i = some 0) :
    (AsyncDedup.step ac n).threads[n]? = some (.finished true i (.ok v)) ∧
    alookup (AsyncDedup.step ac n).state.counts i = none ∧
    (AsyncDedup.step ac n).state.results = ac.state.results ∧
    (AsyncDedup.step ac n).state.eventSet = ac.state.eventSet := by
  obtain ⟨s, ts⟩ := ac
  simp only [] at hst hz
  rcases List.getElem?_eq_some.mp hst with ⟨hn, -⟩
  cases hr : alookup s.running k with
  | none =>
    refine ⟨?_, ?_, ?_, ?_⟩ <;>
      simp [AsyncDedup.step, hst, hr, hz, alookup_aerase, List.getElem?_set, hn]
  | some j =>
    by_cases hj : j = i
    · subst hj
      refine ⟨?_, ?_, ?_, ?_⟩ <;>
        simp [AsyncDedup.step, hst, hr, hz, alookup_aerase, List.getElem?_set, hn]
    · refine ⟨?_, ?_, ?_, ?_⟩ <;>
        simp [AsyncDedup.step, hst, hr, hz, hj, alookup_aerase,
          List.getElem?_set, hn]

/-- Async deregistration frame: if the registry entry for the key was
replaced by a newer execution (or already removed), the finishing owner
leaves the registry untouched. -/
theorem a_handle_skip (ac : AsyncDedup.Config) (n : Nat) (k : String)
    (i j : Nat) (v : Int)
    (hst : ac.threads[n]? = some (.producing k i (.ok v)))
    (hr : alookup ac.state.running k = some j) (hj : j ≠ i) :
    (AsyncDedup.step ac n).state.running = ac.state.running := by
  obtain ⟨s, ts⟩ := ac
  simp only [] at hst hr
  by_cases hcv : (alookup s.counts i).getD 0 = 0 <;>
    simp [AsyncDedup.step, hst, hr, hj, hcv]

/-- Async deregistration when the entry still references this owner: exactly
that registry entry is removed. -/
theorem a_handle_match (ac : AsyncDedup.Config) (n : Nat) (k : String)
    (i : Nat) (v : Int)
    (hst : ac.threads[n]? = some (.producing k i (.ok v)))
    (hr : alookup ac.state.running k = some i) :
    (AsyncDedup.step ac n).state.running = aerase ac.state.running k := by
  obtain ⟨s, ts⟩ := ac
  simp only [] at hst hr
  by_cases hcv : (alookup s.counts i).getD 0 = 0 <;>
    simp [AsyncDedup.step, hst, hr, hcv]

/-- The status translation reflects `finished`. -/
theorem astToSt_finished (ast : AsyncDedup.St) (ow : Bool) (i : Nat)
    (r : Outcome) (h : astToSt ast = ThreadingDedup.St.finished ow i r) :
    ast = .finished ow i r := by
  cases ast <;> simp_all [astToSt]

/-! ## The claims -/

/-- Claim C7: a caller with `force_new = true` never joins an existing
execution: in both instantiations it takes the owner branch of `run`,
becoming the producing owner of a brand-new execution — its internal key is
the fresh counter value, never seen before (not installed before, referenced
by no registry entry, with no event ever set for it), its consumer count
starts at 0, and the registry entry for the public key now references it,
over whatever was there. -/
theorem C7_force_new_always_owner
    (I : List (String × Bool × Outcome)) (σ : List Nat) (n : Nat)
    (k : String) (out : Outcome)
    (hst : (ThreadingDedup.exec σ (ThreadingDedup.init I)).threads[n]? =
      some (.start k true out)) :
    ((ThreadingDedup.step (ThreadingDedup.exec σ (ThreadingDedup.init I)) n).threads[n]? =
      some (.producing k (ThreadingDedup.exec σ (ThreadingDedup.init I)).state.nextId out) ∧
    alookup (ThreadingDedup.step (ThreadingDedup.exec σ (ThreadingDedup.init I)) n).state.running k =
      some (ThreadingDedup.exec σ (ThreadingDedup.init I)).state.nextId ∧
    alookup (ThreadingDedup.step (ThreadingDedup.exec σ (ThreadingDedup.init I)) n).state.counts
      (ThreadingDedup.exec σ (ThreadingDedup.init I)).state.nextId = some 0 ∧
    (ThreadingDedup.step (ThreadingDedup.exec σ (ThreadingDedup.init I)) n).state.nextId =
      (ThreadingDedup.exec σ (ThreadingDedup.init I)).state.nextId + 1 ∧
    (ThreadingDedup.exec σ (ThreadingDedup.init I)).state.nextId ∉
      (ThreadingDedup.exec σ (ThreadingDedup.init I)).state.installs ∧
    (∀ (both : String),
      alookup (ThreadingDedup.exec σ (ThreadingDedup.init I)).state.running both ≠
        some (ThreadingDedup.exec σ (ThreadingDedup.init I)).state.nextId) ∧
    (ThreadingDedup.exec σ (ThreadingDedup.init I)).state.nextId ∉
      (ThreadingDedup.exec σ (ThreadingDedup.init I)).state.eventSet ∧
    (ThreadingDedup.exec σ (ThreadingDedup.init I)).state.nextId ∉
      (ThreadingDedup.exec σ (ThreadingDedup.init I)).state.clearSet) ∧
    ∀ (J : List (String × Bool × Outcome)) (τ : List Nat) (p : Nat)
      (kk : String) (o : Outcome),
      (AsyncDedup.exec τ (AsyncDedup.init J)).threads[p]? =
        some (.start kk true o) →
      (AsyncDedup.step (AsyncDedup.exec τ (AsyncDedup.init J)) p).threads[p]? =
        some (.producing kk (AsyncDedup.exec τ (AsyncDedup.init J)).state.nextId o) ∧
      alookup (AsyncDedup.step (AsyncDedup.exec τ (AsyncDedup.init J)) p).state.running kk =
        some (AsyncDedup.exec τ (AsyncDedup.init J)).state.nextId ∧
      alookup (AsyncDedup.step (AsyncDedup.exec τ (AsyncDedup.init J)) p).state.counts
        (AsyncDedup.exec τ (AsyncDedup.init J)).state.nextId = some 0 ∧
      (AsyncDedup.step (AsyncDedup.exec τ (AsyncDedup.init J)) p).state.nextId =
        (AsyncDedup.exec τ (AsyncDedup.init J)).state.nextId + 1 ∧
      (AsyncDedup.exec τ (AsyncDedup.init J)).state.nextId ∉
        (AsyncDedup.exec τ (AsyncDedup.init J)).state.installs ∧
      (∀ (both : String),
        alookup (AsyncDedup.exec τ (AsyncDedup.init J)).state.running both ≠
          some (AsyncDedup.exec τ (AsyncDedup.init J)).state.nextId) ∧
      (AsyncDedup.exec τ (AsyncDedup.init J)).state.nextId ∉
        (AsyncDedup.exec τ (AsyncDedup.init J)).state.eventSet ∧
      (AsyncDedup.exec τ (AsyncDedup.init J)).state.nextId ∉
        (AsyncDedup.exec τ (AsyncDedup.init J)).state.clearSet := by
  constructor
  · exact ThreadingDedup.force_new_owner_step _
      (ThreadingDedup.inv_reach σ I) n k out hst
  · intro J τ p kk o hp
    exact force_new_owner_astep _ (async_inv τ J) p kk o hp

theorem C7_force_new_always_owner_witness :
    (ThreadingDedup.step (ThreadingDedup.exec [0]
        (ThreadingDedup.init [("k", false, .ok 1), ("k", true, .ok 2)])) 1).threads[1]? =
      some (.producing "k"
        (ThreadingDedup.exec [0]
          (ThreadingDedup.init [("k", false, .ok 1), ("k", true, .ok 2)])).state.nextId
        (.ok 2)) ∧
    (AsyncDedup.step (AsyncDedup.exec [0]
        (AsyncDedup.init [("k", false, .ok 1), ("k", true, .ok 2)])) 1).threads[1]? =
      some (.producing "k"
        (AsyncDedup.exec [0]
          (AsyncDedup.init [("k", false, .ok 1), ("k", true, .ok 2)])).state.nextId
        (.ok 2)) := by
  have h := C7_force_new_always_owner
    [("k", false, .ok 1), ("k", true, .ok 2)] [0] 1 "k" (.ok 2) (by decide)
  exact ⟨h.1.1,
    (h.2 [("k", false, .ok 1), ("k", true, .ok 2)] [0] 1 "k" (.ok 2)
      (by decide)).1⟩

/-- Claim C8: an owner whose post-completion zero-check finds a consumer
count of zero publishes nothing and waits for no drain: it deletes the
counter entry and finishes at once with the value its producer returned
(recorded in the ghost history), leaving the Outcome Store and the completion
event untouched — in both instantiations.  In particular a single caller
with key "k" whose producer returns 42 gets 42 back with all three stores
empty afterward. -/
theorem C8_zero_interest_discards
    (I : List (String × Bool × Outcome)) (σ : List Nat) (n : Nat) (i : Nat)
    (v : Int)
    (hst : (ThreadingDedup.exec σ (ThreadingDedup.init I)).threads[n]? =
      some (.zeroCheckStage i v))
    (hz : alookup (ThreadingDedup.exec σ (ThreadingDedup.init I)).state.counts i
      = some 0) :
    (ThreadingDedup.step (ThreadingDedup.exec σ (ThreadingDedup.init I)) n =
      ⟨{ (ThreadingDedup.exec σ (ThreadingDedup.init I)).state with
          counts := aerase (ThreadingDedup.exec σ (ThreadingDedup.init I)).state.counts i },
        (ThreadingDedup.exec σ (ThreadingDedup.init I)).threads.set n
          (.finished true i (.ok v)) ⟩ ∧
      alookup (ThreadingDedup.exec σ (ThreadingDedup.init I)).state.produced i
        = some (.ok v)) ∧
    (∀ (J : List (String × Bool × Outcome)) (τ : List Nat) (p : Nat)
      (kk : String) (j : Nat) (w : Int),
      (AsyncDedup.exec τ (AsyncDedup.init J)).threads[p]? =
        some (.producing kk j (.ok w)) →
      alookup (AsyncDedup.exec τ (AsyncDedup.init J)).state.counts j = some 0 →
      (AsyncDedup.step (AsyncDedup.exec τ (AsyncDedup.init J)) p).threads[p]? =
        some (.finished true j (.ok w)) ∧
      alookup (AsyncDedup.step (AsyncDedup.exec τ (AsyncDedup.init J)) p).state.counts j
        = none ∧
      (AsyncDedup.step (AsyncDedup.exec τ (AsyncDedup.init J)) p).state.results =
        (AsyncDedup.exec τ (AsyncDedup.init J)).state.results ∧
      (AsyncDedup.step (AsyncDedup.exec τ (AsyncDedup.init J)) p).state.eventSet =
        (AsyncDedup.exec τ (AsyncDedup.init J)).state.eventSet) ∧
    ((ThreadingDedup.exec [0, 0, 0, 0]
        (ThreadingDedup.init [("k", false, .ok 42)])).threads[0]? =
      some (.finished true 0 (.ok 42)) ∧
    (ThreadingDedup.exec [0, 0, 0, 0]
        (ThreadingDedup.init [("k", false, .ok 42)])).state.running = [] ∧
    (ThreadingDedup.exec [0, 0, 0, 0]
        (ThreadingDedup.init [("k", false, .ok 42)])).state.results = [] ∧
    (ThreadingDedup.exec [0, 0, 0, 0]
        (ThreadingDedup.init [("k", false, .ok 42)])).state.counts = [] ∧
    (AsyncDedup.exec [0, 0] (AsyncDedup.init [("k", false, .ok 42)])).threads[0]? =
      some (.finished true 0 (.ok 42)) ∧
    (AsyncDedup.exec [0, 0] (AsyncDedup.init [("k", false, .ok 42)])).state.running = [] ∧
    (AsyncDedup.exec [0, 0] (AsyncDedup.init [("k", false, .ok 42)])).state.results = [] ∧
    (AsyncDedup.exec [0, 0] (AsyncDedup.init [("k", false, .ok 42)])).state.counts = []) := by
  refine ⟨⟨ThreadingDedup.zero_check_discard _ n i v hst hz, ?_⟩, ?_, by decide⟩
  · exact (ThreadingDedup.inv_reach σ I).prod_phase n _ i v hst (by simp [ThreadingDedup.phaseVal])
  · intro J τ p kk j w hp hpz
    exact a_zero_discard _ p kk j w hp hpz

theorem C8_zero_interest_discards_witness :
    (ThreadingDedup.step (ThreadingDedup.exec [0, 0, 0]
        (ThreadingDedup.init [("k", false, .ok 42)])) 0).threads[0]? =
      some (.finished true 0 (.ok 42)) ∧
    alookup (ThreadingDedup.exec [0, 0, 0]
        (ThreadingDedup.init [("k", false, .ok 42)])).state.produced 0 =
      some (.ok 42) ∧
    (AsyncDedup.step (AsyncDedup.exec [0]
        (AsyncDedup.init [("k", false, .ok 42)])) 0).threads[0]? =
      some (.finished true 0 (.ok 42)) := by
  have h := C8_zero_interest_discards [("k", false, .ok 42)] [0, 0, 0] 0 0 42
    (by decide) (by decide)
  have ha := h.2.1 [("k", false, .ok 42)] [0] 0 "k" 0 42 (by decide) (by decide)
  refine ⟨?_, h.1.2, ha.1⟩
  rw [h.1.1]
  decide

/-- Claim C9: both decorator setup functions reject a configuration with a
descriptive `ValueError`, before any wrapper is built or any coalescing state
is touched, exactly when it is invalid in the claimed sense (not exactly one
of `static_key`/`key`, `static_key` not a string, `key` or `force_new` not
callable, or `dedup` not an instance of the matching class); a valid
configuration never raises at setup. -/
theorem C9_validation_iff (a : DecoratorArgs) :
    ((∃ (msg : String), threading_dedup_check a = .error msg) ↔
      invalidConfig .threadingDedupInst a = true) ∧
    ((∃ (msg : String), async_dedup_check a = .error msg) ↔
      invalidConfig .asyncDedupInst a = true) := by
  obtain ⟨sk, key, fn, d⟩ := a
  constructor
  · simp only [threading_dedup_check, invalidConfig]
    split_ifs with h1 h2 h3 h4 <;> simp_all
    cases d with
    | none => simp
    | some v =>
      by_cases hv : v = PyV.threadingDedupInst <;> simp [hv]
  · simp only [async_dedup_check, invalidConfig]
    split_ifs with h1 h2 h3 h4 <;> simp_all
    cases d with
    | none => simp
    | some v =>
      by_cases hv : v = PyV.asyncDedupInst <;> simp [hv]

/-- Claim C10: the empty string is accepted as `static_key` by both setup
validations, yet the generated wrapper's branch test is the truthiness of
`static_key`, not an is-None test, so the wrapper built from
`static_key = ""` takes the `key(...)` branch and every call fails by
invoking the absent key callable (`None`) instead of deduplicating under
key "" — while any non-empty static key takes the static branch. -/
theorem C10_empty_static_key_misroutes :
    threading_dedup_check ⟨some (.str ""), none, none, none⟩ = .ok () ∧
    async_dedup_check ⟨some (.str ""), none, none, none⟩ = .ok () ∧
    usesStaticKey (some "") = false ∧
    (∀ (args : List Int), generatedKeyExpr (some "") none args =
      .error "TypeError: NoneType object is not callable") ∧
    usesStaticKey (some "x") = true ∧
    (∀ (args : List Int), generatedKeyExpr (some "x") none args = .ok "x") := by
  refine ⟨rfl, rfl, by decide, fun args => rfl, by decide, fun args => rfl⟩

/-- Claim C1, counterexample: callers `run("a", f)` (owner, `f` raises
"boom") and `run("a", g)` (consumer, joined before the failure).  After the
producer raises, the owner's caller alone sees the error; the Outcome Store
has no entry for the execution (nothing was stored), the completion event is
unset, and the attached consumer is still waiting — and remains waiting
after six further steps of its own.  This refutes "the failure ... is stored
as the execution's outcome, and is replayed identically ... to every
consumer that had attached before completion". -/
theorem C1_counterexample :
    (ThreadingDedup.exec [0, 1, 0]
      (ThreadingDedup.init [("a", false, .err "boom"), ("a", false, .ok 1)])).threads[0]?
      = some (.finished true 0 (.err "boom")) ∧
    (ThreadingDedup.exec [0, 1, 0]
      (ThreadingDedup.init [("a", false, .err "boom"), ("a", false, .ok 1)])).threads[1]?
      = some (.waiting 0) ∧
    alookup (ThreadingDedup.exec [0, 1, 0]
      (ThreadingDedup.init [("a", false, .err "boom"), ("a", false, .ok 1)])).state.results 0
      = none ∧
    0 ∉ (ThreadingDedup.exec [0, 1, 0]
      (ThreadingDedup.init [("a", false, .err "boom"), ("a", false, .ok 1)])).state.eventSet ∧
    (ThreadingDedup.exec [0, 1, 0, 1, 1, 1, 1, 1, 1]
      (ThreadingDedup.init [("a", false, .err "boom"), ("a", false, .ok 1)])).threads[1]?
      = some (.waiting 0) := by
  decide

/-- Claim C1, amended: when the producer of an execution raises, the failure
does escape the orchestrator — but only to the owner's caller, unchanged.
It is never written to the Outcome Store (neither now nor under any
continuation schedule), the completion event is never set afterwards, every
consumer that had attached stays waiting forever, and every caller that ever
finishes on that execution is an owner carrying that same error.  The same
holds in the async instantiation. -/
theorem C1_failure_owner_only
    (I : List (String × Bool × Outcome)) (σ σ2 : List Nat) (n i : Nat)
    (e : String)
    (hfin : (ThreadingDedup.exec σ (ThreadingDedup.init I)).threads[n]? =
      some (.finished true i (.err e))) :
    (alookup (ThreadingDedup.exec σ (ThreadingDedup.init I)).state.results i
      = none ∧
    alookup (ThreadingDedup.exec σ2
        (ThreadingDedup.exec σ (ThreadingDedup.init I))).state.results i
      = none ∧
    i ∉ (ThreadingDedup.exec σ2
        (ThreadingDedup.exec σ (ThreadingDedup.init I))).state.eventSet ∧
    (∀ (m : Nat),
      (ThreadingDedup.exec σ (ThreadingDedup.init I)).threads[m]? =
        some (.waiting i) →
      (ThreadingDedup.exec σ2
        (ThreadingDedup.exec σ (ThreadingDedup.init I))).threads[m]? =
        some (.waiting i)) ∧
    (∀ (m : Nat) (ow : Bool) (r : Outcome),
      (ThreadingDedup.exec σ2
        (ThreadingDedup.exec σ (ThreadingDedup.init I))).threads[m]? =
        some (.finished ow i r) → ow = true ∧ r = .err e)) ∧
    ∀ (J : List (String × Bool × Outcome)) (τ τ2 : List Nat) (p q : Nat)
      (f : String),
      (AsyncDedup.exec τ (AsyncDedup.init J)).threads[p]? =
        some (.finished true q (.err f)) →
      q ∉ (AsyncDedup.exec τ2
          (AsyncDedup.exec τ (AsyncDedup.init J))).state.eventSet ∧
      ∀ (m : Nat),
        (AsyncDedup.exec τ (AsyncDedup.init J)).threads[m]? =
          some (.waiting q) →
        (AsyncDedup.exec τ2
          (AsyncDedup.exec τ (AsyncDedup.init J))).threads[m]? =
          some (.waiting q) := by
  have hInv := ThreadingDedup.inv_reach σ I
  have hq := ThreadingDedup.qprop_of_finished_err_inv _ hInv n i e hfin
  have h2 := ThreadingDedup.q_exec σ2 _ i hq
  have hInv2 := ThreadingDedup.inv_exec σ2 _ hInv
  have hfin2 := ThreadingDedup.finished_exec σ2 _ n true i (.err e) hfin
  refine ⟨⟨?_, ?_, h2.1.2.2, h2.2, ?_⟩,
    fun J τ τ2 p q f hf => a_err_starves τ τ2 J p q f hf⟩
  · exact ThreadingDedup.results_none_of_no_owner _ hInv i hq.2.1
  · exact ThreadingDedup.results_none_of_no_owner _ hInv2 i h2.1.2.1
  · intro m ow r hm
    have hr : r = .err e :=
      ThreadingDedup.finished_agree _ hInv2 m n ow true i r (.err e) hm hfin2
    cases ow with
    | false =>
      exfalso
      exact h2.1.2.2 (hInv2.consumer_done m i r hm).1
    | true => exact ⟨rfl, hr⟩

theorem C1_failure_owner_only_witness :
    alookup (ThreadingDedup.exec [1, 1, 1]
      (ThreadingDedup.exec [0, 1, 0]
        (ThreadingDedup.init [("a", false, .err "boom"), ("a", false, .ok 1)]))).state.results 0
      = none ∧
    (ThreadingDedup.exec [1, 1, 1]
      (ThreadingDedup.exec [0, 1, 0]
        (ThreadingDedup.init [("a", false, .err "boom"), ("a", false, .ok 1)]))).threads[1]?
      = some (.waiting 0) ∧
    (AsyncDedup.exec [1, 1, 1]
      (AsyncDedup.exec [0, 1, 0]
        (AsyncDedup.init [("a", false, .err "boom"), ("a", false, .ok 1)]))).threads[1]?
      = some (.waiting 0) := by
  have h := C1_failure_owner_only
    [("a", false, .err "boom"), ("a", false, .ok 1)] [0, 1, 0] [1, 1, 1] 0 0
    "boom" (by decide)
  have ha := h.2 [("a", false, .err "boom"), ("a", false, .ok 1)] [0, 1, 0]
    [1, 1, 1] 0 0 "boom" (by decide)
  exact ⟨h.1.2.1, h.1.2.2.2.1 1 (by decide), ha.2 1 (by decide)⟩

/-- Claim C2, counterexample: the claim quantifies over producers that
"terminate (return or raise)".  Owner `run("b", f)` with `f` raising "E2"
terminates, one consumer had joined, yet the completion signal is never set
and the consumer is still waiting six steps later: an owner that raises
signals nothing. -/
theorem C2_counterexample :
    (ThreadingDedup.exec [0, 1, 0]
      (ThreadingDedup.init [("b", false, .err "E2"), ("b", false, .ok 7)])).threads[0]?
      = some (.finished true 0 (.err "E2")) ∧
    (ThreadingDedup.exec [0, 1, 0]
      (ThreadingDedup.init [("b", false, .err "E2"), ("b", false, .ok 7)])).threads[1]?
      = some (.waiting 0) ∧
    0 ∉ (ThreadingDedup.exec [0, 1, 0]
      (ThreadingDedup.init [("b", false, .err "E2"), ("b", false, .ok 7)])).state.eventSet ∧
    (ThreadingDedup.exec [0, 1, 0, 1, 1, 1, 1, 1, 1]
      (ThreadingDedup.init [("b", false, .err "E2"), ("b", false, .ok 7)])).threads[1]?
      = some (.waiting 0) := by
  decide

/-- Claim C2, amended: restricted to producers that RETURN, the temporal
guarantee holds in both instantiations: an owner cannot reach its final
return while a consumer of its execution has finished or is still joined
unless the completion event has been set. -/
theorem C2_signal_on_return
    (I : List (String × Bool × Outcome)) (σ : List Nat) (n m i : Nat)
    (v : Int)
    (hfin : (ThreadingDedup.exec σ (ThreadingDedup.init I)).threads[n]? =
      some (.finished true i (.ok v)))
    (hcons :
      (∃ (r : Outcome),
        (ThreadingDedup.exec σ (ThreadingDedup.init I)).threads[m]? =
          some (.finished false i r)) ∨
      (∃ (st : ThreadingDedup.St),
        (ThreadingDedup.exec σ (ThreadingDedup.init I)).threads[m]? = some st ∧
        ThreadingDedup.isJoinedOn st i = true)) :
    i ∈ (ThreadingDedup.exec σ (ThreadingDedup.init I)).state.eventSet ∧
    ∀ (J : List (String × Bool × Outcome)) (τ : List Nat) (p q j : Nat)
      (w : Int),
      (AsyncDedup.exec τ (AsyncDedup.init J)).threads[p]? =
        some (.finished true j (.ok w)) →
      ((∃ (r : Outcome),
        (AsyncDedup.exec τ (AsyncDedup.init J)).threads[q]? =
          some (.finished false j r)) ∨
       (AsyncDedup.exec τ (AsyncDedup.init J)).threads[q]? =
          some (.waiting j)) →
      j ∈ (AsyncDedup.exec τ (AsyncDedup.init J)).state.eventSet := by
  constructor
  · apply ThreadingDedup.owner_ok_signalled _ (ThreadingDedup.inv_reach σ I)
      n i v hfin
    rcases hcons with ⟨r, hm⟩ | ⟨st, hm, hj⟩
    · exact Or.inl ⟨m, r, hm⟩
    · exact Or.inr ⟨m, st, hm, hj⟩
  · intro J τ p q j w hf hc
    apply ThreadingDedup.owner_ok_signalled _ (async_inv τ J) p j w
      (convC_threads_some _ p _ hf)
    rcases hc with ⟨r, hm⟩ | hm
    · exact Or.inl ⟨q, r, convC_threads_some _ q _ hm⟩
    · exact Or.inr ⟨q, _, convC_threads_some _ q _ hm,
        by simp [astToSt, ThreadingDedup.isJoinedOn]⟩

theorem C2_signal_on_return_witness :
    0 ∈ (ThreadingDedup.exec [0, 1, 0, 0, 0, 0, 0, 1, 1, 1, 0, 0, 0]
      (ThreadingDedup.init [("k", false, .ok 3), ("k", false, .ok 4)])).state.eventSet ∧
    0 ∈ (AsyncDedup.exec [0, 1, 0, 1, 0]
      (AsyncDedup.init [("k", false, .ok 3), ("k", false, .ok 4)])).state.eventSet := by
  have h := C2_signal_on_return [("k", false, .ok 3), ("k", false, .ok 4)]
    [0, 1, 0, 0, 0, 0, 0, 1, 1, 1, 0, 0, 0] 0 1 0 3 (by decide)
    (Or.inl ⟨.ok 3, by decide⟩)
  exact ⟨h.1, h.2 [("k", false, .ok 3), ("k", false, .ok 4)] [0, 1, 0, 1, 0]
    0 1 0 3 (by decide) (Or.inl ⟨.ok 3, by decide⟩)⟩

/-- Claim C3, counterexample: two concurrent callers with key "c" during one
execution's window, whose producer raises "X".  The claim promises that both
callers receive the identical failure; in fact only the owner does — the
joined consumer receives nothing, still waiting eight steps after the
failure. -/
theorem C3_counterexample :
    (ThreadingDedup.exec [0, 1, 0]
      (ThreadingDedup.init [("c", false, .err "X"), ("c", false, .ok 5)])).threads[0]?
      = some (.finished true 0 (.err "X")) ∧
    (ThreadingDedup.exec [0, 1, 0, 1, 1, 1, 1, 1, 1, 1, 1]
      (ThreadingDedup.init [("c", false, .err "X"), ("c", false, .ok 5)])).threads[1]?
      = some (.waiting 0) := by
  decide

/-- Claim C3, amended: restricted to outcomes actually delivered, the N-way
coalescing contract holds: (1) every execution has at most one owner-path
thread over its whole history, so exactly one producer invocation occurs;
(2) any two callers that complete on the same execution carry the identical
outcome; (3) a caller whose registry lookup finds an execution joins the
counter atomically with that lookup (one lock step makes it a waiting
consumer and increments the count); (4) the crux pairing: a joined consumer
present at the owner's zero-check forces the broadcast branch.  The claim's
promise that consumers also receive failures is refuted separately. -/
theorem C3_single_invocation_agreement :
    (∀ (I : List (String × Bool × Outcome)) (σ : List Nat) (n m : Nat)
      (st st' : ThreadingDedup.St) (i : Nat),
      (ThreadingDedup.exec σ (ThreadingDedup.init I)).threads[n]? = some st →
      (ThreadingDedup.exec σ (ThreadingDedup.init I)).threads[m]? = some st' →
      ThreadingDedup.ownerTag st = some i →
      ThreadingDedup.ownerTag st' = some i → n = m) ∧
    (∀ (I : List (String × Bool × Outcome)) (σ : List Nat) (n m : Nat)
      (ow ow' : Bool) (i : Nat) (r r' : Outcome),
      (ThreadingDedup.exec σ (ThreadingDedup.init I)).threads[n]? =
        some (.finished ow i r) →
      (ThreadingDedup.exec σ (ThreadingDedup.init I)).threads[m]? =
        some (.finished ow' i r') → r = r') ∧
    (∀ (I : List (String × Bool × Outcome)) (σ : List Nat) (n : Nat)
      (k : String) (out : Outcome) (i : Nat),
      (ThreadingDedup.exec σ (ThreadingDedup.init I)).threads[n]? =
        some (.start k false out) →
      alookup (ThreadingDedup.exec σ (ThreadingDedup.init I)).state.running k =
        some i →
      (ThreadingDedup.step (ThreadingDedup.exec σ (ThreadingDedup.init I)) n).threads[n]? =
        some (.waiting i) ∧
      alookup (ThreadingDedup.step (ThreadingDedup.exec σ (ThreadingDedup.init I)) n).state.counts i =
        some ((alookup (ThreadingDedup.exec σ (ThreadingDedup.init I)).state.counts i).getD 0 + 1)) ∧
    (∀ (I : List (String × Bool × Outcome)) (σ : List Nat) (n i : Nat)
      (v : Int) (m : Nat) (st : ThreadingDedup.St),
      (ThreadingDedup.exec σ (ThreadingDedup.init I)).threads[n]? =
        some (.zeroCheckStage i v) →
      (ThreadingDedup.exec σ (ThreadingDedup.init I)).threads[m]? = some st →
      ThreadingDedup.isJoinedOn st i = true →
      (ThreadingDedup.step (ThreadingDedup.exec σ (ThreadingDedup.init I)) n).threads[n]? =
        some (.publishStage i v)) := by
  refine ⟨?_, ?_, ?_, ?_⟩
  · intro I σ n m st st' i h1 h2 t1 t2
    exact (ThreadingDedup.inv_reach σ I).uniq n m st st' i h1 h2 t1 t2
  · intro I σ n m ow ow' i r r' h1 h2
    exact ThreadingDedup.finished_agree _ (ThreadingDedup.inv_reach σ I)
      n m ow ow' i r r' h1 h2
  · intro I σ n k out i hst hr
    exact ThreadingDedup.lookup_joins _ n k out i hst hr
  · intro I σ n i v m st hst hm hj
    exact ThreadingDedup.zero_check_broadcast _ (ThreadingDedup.inv_reach σ I)
      n i v hst ⟨m, st, hm, hj⟩

theorem C3_single_invocation_agreement_witness :
    (0 : Nat) = 0 ∧
    Outcome.ok 3 = Outcome.ok 3 ∧
    ((ThreadingDedup.step (ThreadingDedup.exec [0]
        (ThreadingDedup.init [("k", false, .ok 3), ("k", false, .ok 4)])) 1).threads[1]? =
      some (.waiting 0) ∧
    alookup (ThreadingDedup.step (ThreadingDedup.exec [0]
        (ThreadingDedup.init [("k", false, .ok 3), ("k", false, .ok 4)])) 1).state.counts 0 =
      some ((alookup (ThreadingDedup.exec [0]
        (ThreadingDedup.init [("k", false, .ok 3), ("k", false, .ok 4)])).state.counts 0).getD 0 + 1)) ∧
    (ThreadingDedup.step (ThreadingDedup.exec [0, 1, 0, 0]
        (ThreadingDedup.init [("k", false, .ok 3), ("k", false, .ok 4)])) 0).threads[0]? =
      some (.publishStage 0 3) := by
  have h := C3_single_invocation_agreement
  refine ⟨?_, ?_, ?_, ?_⟩
  · exact h.1 [("k", false, .ok 3), ("k", false, .ok 4)] [0] 0 0
      (.producing "k" 0 (.ok 3)) (.producing "k" 0 (.ok 3)) 0
      (by decide) (by decide) (by decide) (by decide)
  · exact h.2.1 [("k", false, .ok 3), ("k", false, .ok 4)]
      [0, 1, 0, 0, 0, 0, 0, 1, 1, 1, 0, 0, 0] 0 1 true false 0
      (.ok 3) (.ok 3) (by decide) (by decide)
  · exact h.2.2.1 [("k", false, .ok 3), ("k", false, .ok 4)] [0] 1 "k"
      (.ok 4) 0 (by decide) (by decide)
  · exact h.2.2.2 [("k", false, .ok 3), ("k", false, .ok 4)] [0, 1, 0, 0] 0 0
      3 1 (.waiting 0) (by decide) (by decide) (by decide)

/-- Claim C4, counterexample: a single caller with key "q" whose producer
raises "E".  The owner's `run` has completed and there never was a consumer,
yet the Key Registry still maps "q" to the execution and the Consumer
Counter still holds its entry: a raising producer leaks both. -/
theorem C4_counterexample :
    (ThreadingDedup.exec [0, 0]
      (ThreadingDedup.init [("q", false, .err "E")])).threads[0]?
      = some (.finished true 0 (.err "E")) ∧
    alookup (ThreadingDedup.exec [0, 0]
      (ThreadingDedup.init [("q", false, .err "E")])).state.running "q"
      = some 0 ∧
    alookup (ThreadingDedup.exec [0, 0]
      (ThreadingDedup.init [("q", false, .err "E")])).state.counts 0
      = some 0 := by
  decide

/-- Claim C4, amended: restricted to executions whose producer RETURNED, the
steady-state cleanup holds in both instantiations: once such an owner's
`run` has completed, the Consumer Counter and the Outcome Store hold no
entry for its internal key, no Key-Registry entry references it (the public
key may at most be occupied by a different, newer execution), and no
consumer of it is still joined. -/
theorem C4_cleanup_after_value
    (I : List (String × Bool × Outcome)) (σ : List Nat) (n i : Nat) (v : Int)
    (hfin : (ThreadingDedup.exec σ (ThreadingDedup.init I)).threads[n]? =
      some (.finished true i (.ok v))) :
    alookup (ThreadingDedup.exec σ (ThreadingDedup.init I)).state.counts i
      = none ∧
    alookup (ThreadingDedup.exec σ (ThreadingDedup.init I)).state.results i
      = none ∧
    (∀ (k : String),
      alookup (ThreadingDedup.exec σ (ThreadingDedup.init I)).state.running k ≠
        some i) ∧
    ThreadingDedup.joinedCount
      (ThreadingDedup.exec σ (ThreadingDedup.init I)).threads i = 0 ∧
    ∀ (J : List (String × Bool × Outcome)) (τ : List Nat) (p q : Nat)
      (w : Int),
      (AsyncDedup.exec τ (AsyncDedup.init J)).threads[p]? =
        some (.finished true q (.ok w)) →
      alookup (AsyncDedup.exec τ (AsyncDedup.init J)).state.counts q = none ∧
      alookup (AsyncDedup.exec τ (AsyncDedup.init J)).state.results q = none ∧
      (∀ (k : String),
        alookup (AsyncDedup.exec τ (AsyncDedup.init J)).state.running k ≠
          some q) ∧
      (∀ (m : Nat),
        (AsyncDedup.exec τ (AsyncDedup.init J)).threads[m]? ≠
          some (.waiting q)) := by
  have h := ThreadingDedup.finished_ok_clean _ (ThreadingDedup.inv_reach σ I)
    n i v hfin
  refine ⟨h.1, h.2.1, h.2.2.1, h.2.2.2, ?_⟩
  intro J τ p q w hp
  have hc := ThreadingDedup.finished_ok_clean _ (async_inv τ J) p q w
    (convC_threads_some _ p _ hp)
  refine ⟨hc.1, hc.2.1, hc.2.2.1, ?_⟩
  intro m hm
  have hz := hc.2.2.2
  have hj : 0 < ThreadingDedup.joinedCount
      (convC (AsyncDedup.exec τ (AsyncDedup.init J))).threads q :=
    ThreadingDedup.joinedCount_pos _ m _ q (convC_threads_some _ m _ hm)
      (by simp [astToSt, ThreadingDedup.isJoinedOn])
  omega

theorem C4_cleanup_after_value_witness :
    alookup (ThreadingDedup.exec [0, 0, 0, 0]
      (ThreadingDedup.init [("k", false, .ok 42)])).state.counts 0 = none ∧
    (alookup (ThreadingDedup.exec [0, 0, 0, 0]
      (ThreadingDedup.init [("k", false, .ok 42)])).state.running "k" ≠
      some 0) ∧
    alookup (AsyncDedup.exec [0, 0]
      (AsyncDedup.init [("k", false, .ok 42)])).state.counts 0 = none ∧
    ((AsyncDedup.exec [0, 0]
      (AsyncDedup.init [("k", false, .ok 42)])).threads[0]? ≠
      some (.waiting 0)) := by
  have h := C4_cleanup_after_value [("k", false, .ok 42)] [0, 0, 0, 0] 0 0 42
    (by decide)
  have ha := h.2.2.2.2 [("k", false, .ok 42)] [0, 0] 0 0 42 (by decide)
  exact ⟨h.1, h.2.2.1 "k", ha.1, ha.2.2.2 0⟩

/-- Claim C5: `removeIfCurrent` frame property, in both instantiations.
(1) A finishing owner whose registry entry still references its own internal
key removes exactly that entry (other keys untouched) and proceeds to its
zero-check.  (2-3) If a `forceNew` caller has already replaced the entry (or
it is gone), the whole state is left unchanged and the owner still proceeds
to its zero-check, (4) from which a joined consumer still forces the
broadcast branch.  (5-6) are the async forms, and (7) is a concrete
end-to-end run: a forceNew caller replaces the entry mid-run, and the old
owner still broadcasts its own value 10 to its joined consumer and finishes,
with the registry left to the new execution. -/
theorem C5_remove_if_current :
    (∀ (I : List (String × Bool × Outcome)) (σ : List Nat) (n : Nat)
      (k : String) (i : Nat) (v : Int),
      (ThreadingDedup.exec σ (ThreadingDedup.init I)).threads[n]? =
        some (.deregStage k i v) →
      alookup (ThreadingDedup.exec σ (ThreadingDedup.init I)).state.running k =
        some i →
      ThreadingDedup.step (ThreadingDedup.exec σ (ThreadingDedup.init I)) n =
        ⟨{ (ThreadingDedup.exec σ (ThreadingDedup.init I)).state with
            running := aerase
              (ThreadingDedup.exec σ (ThreadingDedup.init I)).state.running k },
          (ThreadingDedup.exec σ (ThreadingDedup.init I)).threads.set n
            (.zeroCheckStage i v)⟩ ∧
      alookup (aerase
        (ThreadingDedup.exec σ (ThreadingDedup.init I)).state.running k) k =
        none ∧
      (∀ (k2 : String), k2 ≠ k →
        alookup (aerase
          (ThreadingDedup.exec σ (ThreadingDedup.init I)).state.running k) k2 =
        alookup (ThreadingDedup.exec σ (ThreadingDedup.init I)).state.running k2)) ∧
    (∀ (I : List (String × Bool × Outcome)) (σ : List Nat) (n : Nat)
      (k : String) (i j : Nat) (v : Int),
      (ThreadingDedup.exec σ (ThreadingDedup.init I)).threads[n]? =
        some (.deregStage k i v) →
      alookup (ThreadingDedup.exec σ (ThreadingDedup.init I)).state.running k =
        some j → j ≠ i →
      ThreadingDedup.step (ThreadingDedup.exec σ (ThreadingDedup.init I)) n =
        ⟨(ThreadingDedup.exec σ (ThreadingDedup.init I)).state,
          (ThreadingDedup.exec σ (ThreadingDedup.init I)).threads.set n
            (.zeroCheckStage i v)⟩) ∧
    (∀ (I : List (String × Bool × Outcome)) (σ : List Nat) (n : Nat)
      (k : String) (i : Nat) (v : Int),
      (ThreadingDedup.exec σ (ThreadingDedup.init I)).threads[n]? =
        some (.deregStage k i v) →
      alookup (ThreadingDedup.exec σ (ThreadingDedup.init I)).state.running k =
        none →
      ThreadingDedup.step (ThreadingDedup.exec σ (ThreadingDedup.init I)) n =
        ⟨(ThreadingDedup.exec σ (ThreadingDedup.init I)).state,
          (ThreadingDedup.exec σ (ThreadingDedup.init I)).threads.set n
            (.zeroCheckStage i v)⟩) ∧
    (∀ (I : List (String × Bool × Outcome)) (σ : List Nat) (n i : Nat)
      (v : Int) (m : Nat) (st : ThreadingDedup.St),
      (ThreadingDedup.exec σ (ThreadingDedup.init I)).threads[n]? =
        some (.zeroCheckStage i v) →
      (ThreadingDedup.exec σ (ThreadingDedup.init I)).threads[m]? = some st →
      ThreadingDedup.isJoinedOn st i = true →
      (ThreadingDedup.step (ThreadingDedup.exec σ (ThreadingDedup.init I)) n).threads[n]? =
        some (.publishStage i v)) ∧
    (∀ (J : List (String × Bool × Outcome)) (τ : List Nat) (p : Nat)
      (k : String) (i : Nat) (v : Int),
      (AsyncDedup.exec τ (AsyncDedup.init J)).threads[p]? =
        some (.producing k i (.ok v)) →
      alookup (AsyncDedup.exec τ (AsyncDedup.init J)).state.running k =
        some i →
      (AsyncDedup.step (AsyncDedup.exec τ (AsyncDedup.init J)) p).state.running =
        aerase (AsyncDedup.exec τ (AsyncDedup.init J)).state.running k) ∧
    (∀ (J : List (String × Bool × Outcome)) (τ : List Nat) (p : Nat)
      (k : String) (i j : Nat) (v : Int),
      (AsyncDedup.exec τ (AsyncDedup.init J)).threads[p]? =
        some (.producing k i (.ok v)) →
      alookup (AsyncDedup.exec τ (AsyncDedup.init J)).state.running k =
        some j → j ≠ i →
      (AsyncDedup.step (AsyncDedup.exec τ (AsyncDedup.init J)) p).state.running =
        (AsyncDedup.exec τ (AsyncDedup.init J)).state.running) ∧
    ((ThreadingDedup.exec [0, 1, 2, 0]
        (ThreadingDedup.init [("k", false, .ok 10), ("k", false, .ok 99),
          ("k", true, .ok 20)])).threads[0]? = some (.deregStage "k" 0 10) ∧
    alookup (ThreadingDedup.exec [0, 1, 2, 0]
        (ThreadingDedup.init [("k", false, .ok 10), ("k", false, .ok 99),
          ("k", true, .ok 20)])).state.running "k" = some 1 ∧
    (ThreadingDedup.exec [0, 1, 2, 0, 0, 0, 0, 0, 1, 1, 1, 0, 0, 0]
        (ThreadingDedup.init [("k", false, .ok 10), ("k", false, .ok 99),
          ("k", true, .ok 20)])).threads[0]? =
      some (.finished true 0 (.ok 10)) ∧
    (ThreadingDedup.exec [0, 1, 2, 0, 0, 0, 0, 0, 1, 1, 1, 0, 0, 0]
        (ThreadingDedup.init [("k", false, .ok 10), ("k", false, .ok 99),
          ("k", true, .ok 20)])).threads[1]? =
      some (.finished false 0 (.ok 10)) ∧
    alookup (ThreadingDedup.exec [0, 1, 2, 0, 0, 0, 0, 0, 1, 1, 1, 0, 0, 0]
        (ThreadingDedup.init [("k", false, .ok 10), ("k", false, .ok 99),
          ("k", true, .ok 20)])).state.running "k" = some 1) := by
  refine ⟨?_, ?_, ?_, ?_, ?_, ?_, by decide⟩
  · intro I σ n k i v hst hr
    refine ⟨ThreadingDedup.dereg_match_shape _ n k i v hst hr, ?_, ?_⟩
    · simp [alookup_aerase]
    · intro k2 hk2
      simp [alookup_aerase, hk2]
  · intro I σ n k i j v hst hr hj
    exact ThreadingDedup.dereg_skip_frame _ n k i j v hst hr hj
  · intro I σ n k i v hst hr
    exact ThreadingDedup.dereg_none_frame _ n k i v hst hr
  · intro I σ n i v m st hst hm hj
    exact ThreadingDedup.zero_check_broadcast _ (ThreadingDedup.inv_reach σ I)
      n i v hst ⟨m, st, hm, hj⟩
  · intro J τ p k i v hst hr
    exact a_handle_match _ p k i v hst hr
  · intro J τ p k i j v hst hr hj
    exact a_handle_skip _ p k i j v hst hr hj

theorem C5_remove_if_current_witness :
    alookup (aerase (ThreadingDedup.exec [0, 0]
      (ThreadingDedup.init [("z", false, .ok 9)])).state.running "z") "z"
      = none ∧
    ThreadingDedup.step (ThreadingDedup.exec [0, 1, 2, 0]
      (ThreadingDedup.init [("k", false, .ok 10), ("k", false, .ok 99),
        ("k", true, .ok 20)])) 0 =
      ⟨(ThreadingDedup.exec [0, 1, 2, 0]
        (ThreadingDedup.init [("k", false, .ok 10), ("k", false, .ok 99),
          ("k", true, .ok 20)])).state,
      (ThreadingDedup.exec [0, 1, 2, 0]
        (ThreadingDedup.init [("k", false, .ok 10), ("k", false, .ok 99),
          ("k", true, .ok 20)])).threads.set 0 (.zeroCheckStage 0 10)⟩ ∧
    ThreadingDedup.step (ThreadingDedup.exec [0, 1, 1, 1, 0]
      (ThreadingDedup.init [("z", true, .ok 1), ("z", true, .ok 2)])) 0 =
      ⟨(ThreadingDedup.exec [0, 1, 1, 1, 0]
        (ThreadingDedup.init [("z", true, .ok 1), ("z", true, .ok 2)])).state,
      (ThreadingDedup.exec [0, 1, 1, 1, 0]
        (ThreadingDedup.init [("z", true, .ok 1), ("z", true, .ok 2)])).threads.set 0
        (.zeroCheckStage 0 1)⟩ ∧
    (ThreadingDedup.step (ThreadingDedup.exec [0, 1, 0, 0]
      (ThreadingDedup.init [("w", false, .ok 3), ("w", false, .ok 4)])) 0).threads[0]? =
      some (.publishStage 0 3) ∧
    (AsyncDedup.step (AsyncDedup.exec [0]
      (AsyncDedup.init [("z", false, .ok 9)])) 0).state.running =
      aerase (AsyncDedup.exec [0]
        (AsyncDedup.init [("z", false, .ok 9)])).state.running "z" ∧
    (AsyncDedup.step (AsyncDedup.exec [0, 1]
      (AsyncDedup.init [("z", true, .ok 1), ("z", true, .ok 2)])) 0).state.running =
      (AsyncDedup.exec [0, 1]
        (AsyncDedup.init [("z", true, .ok 1), ("z", true, .ok 2)])).state.running := by
  have h := C5_remove_if_current
  refine ⟨?_, ?_, ?_, ?_, ?_, ?_⟩
  · exact (h.1 [("z", false, .ok 9)] [0, 0] 0 "z" 0 9 (by decide)
      (by decide)).2.1
  · exact h.2.1 [("k", false, .ok 10), ("k", false, .ok 99), ("k", true, .ok 20)]
      [0, 1, 2, 0] 0 "k" 0 1 10 (by decide) (by decide) (by decide)
  · exact h.2.2.1 [("z", true, .ok 1), ("z", true, .ok 2)] [0, 1, 1, 1, 0] 0
      "z" 0 1 (by decide) (by decide)
  · exact h.2.2.2.1 [("w", false, .ok 3), ("w", false, .ok 4)] [0, 1, 0, 0] 0 0
      3 1 (.waiting 0) (by decide) (by decide) (by decide)
  · exact h.2.2.2.2.1 [("z", false, .ok 9)] [0] 0 "z" 0 9 (by decide)
      (by decide)
  · exact h.2.2.2.2.2.1 [("z", true, .ok 1), ("z", true, .ok 2)] [0, 1] 0 "z"
      0 1 1 (by decide) (by decide) (by decide)

/-- Claim C6: the two instantiations are observably equivalent.  The async
machine's initial configuration is the image of the threading machine's, and
running any async schedule corresponds, under the translated schedule, to a
threading run that lands exactly on the image configuration: the three
stores (and the rest of the state) coincide, and a caller finishes with a
given outcome in one instantiation exactly when it does in the other. -/
theorem C6_observable_equivalence (I : List (String × Bool × Outcome))
    (σ : List Nat) :
    ThreadingDedup.init I = convC (AsyncDedup.init I) ∧
    ThreadingDedup.exec (translateSched σ (AsyncDedup.init I))
        (ThreadingDedup.init I) =
      convC (AsyncDedup.exec σ (AsyncDedup.init I)) ∧
    (ThreadingDedup.exec (translateSched σ (AsyncDedup.init I))
        (ThreadingDedup.init I)).state =
      (AsyncDedup.exec σ (AsyncDedup.init I)).state ∧
    ∀ (n : Nat) (ow : Bool) (i : Nat) (r : Outcome),
      (AsyncDedup.exec σ (AsyncDedup.init I)).threads[n]? =
          some (.finished ow i r) ↔
      (ThreadingDedup.exec (translateSched σ (AsyncDedup.init I))
          (ThreadingDedup.init I)).threads[n]? = some (.finished ow i r) := by
  refine ⟨(convC_init I).symm, async_exec_convC σ I, ?_, ?_⟩
  · rw [async_exec_convC]
    rfl
  · intro n ow i r
    rw [async_exec_convC, convC_threads]
    cases ha : (AsyncDedup.exec σ (AsyncDedup.init I)).threads[n]? with
    | none => exact ⟨fun h => (nomatch h), fun h => (nomatch h)⟩
    | some ast =>
      constructor
      · intro h
        rw [Option.some.inj h]
        rfl
      · intro h
        rw [astToSt_finished ast ow i r (Option.some.inj h)]
